import Mathlib

/-!
# golemon: grammar front end (tokenizer, symbol table, FSM parser, analysis)

Shallow embedding of `src/parse` and `src/util`.

Conventions of the embedding

* A Go `rune` that is either a decoded codepoint or the sentinel `EOF = -1` is an
  `Option Char`: `none` is `EOF`, `some c` is the codepoint `c`.  The Go value `0`
  (used by `RuneBuffer.peekRune` for "nothing pushed back") is `some (Char.ofNat 0)`.
* A Go `string` built from runes is a Lean `String`; Go's `<` on strings (byte-wise on
  UTF-8) is Lean's `<` on `String` (lexicographic on codepoints; the two orders agree
  on valid UTF-8).
* `*Symbol` is an address (`Nat`) into the symbol store kept with the symbol table;
  `*Rule` is a position in the rule sequence.
* The tables of Go's package `unicode` are a parameter (`UnicodeTables`).
* `errorf` ends the process (`os.Exit(1)`); a run is a `Step`, which records whether the
  code returned, exited through `errorf`, or panicked.
-/

namespace Golemon

/-! ## package unicode (parameter) -/

/-- The predicates and the case mapping of Go's package `unicode` used by the program. -/
structure UnicodeTables where
  isLetter : Char → Bool
  isDigit : Char → Bool
  isUpper : Char → Bool
  isLower : Char → Bool
  toUpper : Char → Char

/-- The restriction of Go's `unicode` tables to ASCII (U+0000..U+007F), on which it agrees
with package `unicode`; used to evaluate the program on ASCII grammars. -/
def asciiTables : UnicodeTables where
  isLetter := fun c => c.isAlpha
  isDigit := fun c => c.isDigit
  isUpper := fun c => c.isUpper
  isLower := fun c => c.isLower
  toUpper := fun c => c.toUpper

/-! ## src/util/util.go -/

namespace util

/-- `util.IsSpace`. -/
def IsSpace (r : Option Char) : Bool :=
  r == some ' ' || r == some '\n' || r == some '\t' || r == some (Char.ofNat 11) || r == some '\r'

/-- `util.IsAlphaNum`; `EOF` is neither a letter nor a digit. -/
def IsAlphaNum (u : UnicodeTables) (r : Option Char) : Bool :=
  match r with
  | none => false
  | some c => u.isLetter c || u.isDigit c

/-- `util.AllMatch`: every rune of the string satisfies the predicate. -/
def AllMatch (str : String) (predicate : Char → Bool) : Bool :=
  str.data.all predicate

/-- `util.IsUpper`: no letter of the string fails `unicode.IsUpper`. -/
def IsUpper (u : UnicodeTables) (str : String) : Bool :=
  AllMatch str (fun r => if u.isLetter r && !u.isUpper r then false else true)

/-- `util.IsLower`: no letter of the string fails `unicode.IsLower`. -/
def IsLower (u : UnicodeTables) (str : String) : Bool :=
  AllMatch str (fun r => if u.isLetter r && !u.isLower r then false else true)

/-- Number of bytes of the UTF-8 encoding of a string (Go's `len(str)`). -/
def byteLen (str : String) : Nat :=
  (str.data.map Char.utf8Size).sum

/-- `util.IsStringLiteral`: at least two bytes, first and last byte the same quote.  A quote is
a one-byte codepoint and no byte of a longer encoding equals it, so the first (last) byte is a
quote exactly when the first (last) codepoint is. -/
def IsStringLiteral (str : String) : Bool :=
  if byteLen str < 2 then false
  else (str.data.head? == some '"' && str.data.getLast? == some '"')
    || (str.data.head? == some '\'' && str.data.getLast? == some '\'')

end util

/-! ## src/util/int_set.go -/

/-- `util.IntSet` (`map[int]struct{}`), a finite set of indices. -/
abbrev IntSet := Finset Nat

/-! ## src/parse/symbol.go -/

inductive SymbolType where
  | Terminal
  | NonTerminal
  deriving DecidableEq, Repr

inductive SymbolAssoc where
  | Left
  | Right
  | None
  | Unknown
  deriving DecidableEq, Repr

/-- Address of a `Symbol` (`*Symbol`). -/
abbrev SymPtr := Nat

/-- Position of a `Rule` in the rule sequence (`*Rule`). -/
abbrev RulePtr := Nat

/-- The struct `Symbol`. -/
structure Symbol where
  name : String
  index : Nat
  symType : SymbolType
  rule : Option RulePtr
  precedence : Int
  assoc : SymbolAssoc
  firstset : IntSet
  nullable : Bool
  datatype : String
  dtnum : Int
  deriving DecidableEq

/-- `NewSymbol`: only `name`, `firstset`, `nullable` and `symType` are set; every other
field keeps Go's zero value (`precedence` is `0`, `assoc` is `Left`, the first constant). -/
def NewSymbol (u : UnicodeTables) (name : String) : Symbol where
  name := name
  index := 0
  symType := if util.IsUpper u name then SymbolType.Terminal else SymbolType.NonTerminal
  rule := none
  precedence := 0
  assoc := SymbolAssoc.Left
  firstset := ∅
  nullable := false
  datatype := ""
  dtnum := 0

/-! ## src/parse/symbol_table.go -/

/-- The struct `SymbolTable`, together with the store of the symbols it allocated.
`symbols` is the Go map, kept as an association list in insertion order (a name is only added
when it is absent); `store` gives the symbol at each address and `nalloc` is the next free
address. -/
structure SymbolTable where
  hasNewInsert : Bool
  numTerminal : Nat
  numNonTerminal : Nat
  sortedSymbols : List SymPtr
  symbols : List (String × SymPtr)
  store : SymPtr → Symbol
  nalloc : Nat

/-- Write a symbol at an address. -/
def SymbolTable.write (t : SymbolTable) (p : SymPtr) (s : Symbol) : SymbolTable :=
  { t with store := fun q => if q = p then s else t.store q }

/-- `NewSymbolTable`. -/
def NewSymbolTable : SymbolTable where
  hasNewInsert := false
  numTerminal := 0
  numNonTerminal := 0
  sortedSymbols := []
  symbols := []
  store := fun _ => ⟨"", 0, SymbolType.Terminal, none, 0, SymbolAssoc.Left, ∅, false, "", 0⟩
  nalloc := 0

/-- `SymbolTable.Get`. -/
def SymbolTable.Get (t : SymbolTable) (name : String) : Option SymPtr :=
  t.symbols.lookup name

/-- `SymbolTable.Insert`: the existing symbol when the name is present; otherwise a new symbol
is allocated, entered in the map, appended to `sortedSymbols` and counted by kind. -/
def SymbolTable.Insert (u : UnicodeTables) (t : SymbolTable) (name : String) :
    SymPtr × SymbolTable :=
  match t.Get name with
  | some p => (p, t)
  | none =>
    let newSym := NewSymbol u name
    let p := t.nalloc
    (p, { hasNewInsert := true
          numTerminal :=
            if newSym.symType = SymbolType.Terminal then t.numTerminal + 1 else t.numTerminal
          numNonTerminal :=
            if newSym.symType = SymbolType.NonTerminal then t.numNonTerminal + 1
            else t.numNonTerminal
          sortedSymbols := t.sortedSymbols ++ [p]
          symbols := t.symbols ++ [(name, p)]
          store := fun q => if q = p then newSym else t.store q
          nalloc := t.nalloc + 1 })

/-- `SymbolTable.Len`. -/
def SymbolTable.Len (t : SymbolTable) : Nat := t.symbols.length

/-- `SymbolTable.TerminalCount`. -/
def SymbolTable.TerminalCount (t : SymbolTable) : Nat := t.numTerminal

/-- `SymbolTable.NonTerminalCount`. -/
def SymbolTable.NonTerminalCount (t : SymbolTable) : Nat := t.numNonTerminal

/-- The comparison handed to `sort.Slice`, as a non-strict order on addresses:
`a` may stand before `b` unless `name b < name a`. -/
def nameLe (store : SymPtr → Symbol) (a b : SymPtr) : Prop :=
  ¬ (store b).name.data < (store a).name.data

instance (store : SymPtr → Symbol) : DecidableRel (nameLe store) :=
  fun a b => inferInstanceAs (Decidable (¬ (store b).name.data < (store a).name.data))

/-- The loop `for i, symbol := range sortedSymbols { symbol.index = i }`, from position `i`. -/
def assignIndex : List SymPtr → Nat → (SymPtr → Symbol) → (SymPtr → Symbol)
  | [], _, store => store
  | p :: ps, i, store =>
    assignIndex ps (i + 1) (fun q => if q = p then { store p with index := i } else store q)

/-- `SymbolTable.SortedSymbols`: the first `Len` entries of `sortedSymbols`; when a name was
inserted since the last call the entries are first sorted by name (`sort.Slice`, modelled by
insertion sort) and every symbol receives its position as index. -/
def SymbolTable.SortedSymbols (t : SymbolTable) : List SymPtr × SymbolTable :=
  let size := t.Len
  if !t.hasNewInsert then (t.sortedSymbols.take size, t)
  else
    let sorted := (t.sortedSymbols.take size).insertionSort (nameLe t.store)
      ++ t.sortedSymbols.drop size
    let t1 := { t with sortedSymbols := sorted
                       store := assignIndex sorted 0 t.store
                       hasNewInsert := false }
    (t1.sortedSymbols.take size, t1)

/-! ## src/parse/rule.go -/

/-- The struct `Rule`.  `nrhs` is not stored: the program only changes it together with `rhs`
(`AppendRhsSymbol`), so it is the length of `rhs`.  The link `next` of the global list is the
order of the rule sequence (`ParserState.rules`). -/
structure Rule where
  lhs : SymPtr
  ruleLineno : Nat
  rhs : List SymPtr
  line : Nat
  code : String
  precSym : Option SymPtr
  index : Nat
  canReduce : Bool
  nextlhs : Option RulePtr
  deriving DecidableEq

/-- `Rule.GetRhsSymbolCount` (the field `nrhs`). -/
def Rule.GetRhsSymbolCount (rule : Rule) : Nat := rule.rhs.length

/-- `Rule.GetLhsSymbol`. -/
def Rule.GetLhsSymbol (rule : Rule) : SymPtr := rule.lhs

/-- `Rule.AppendRhsSymbol`. -/
def Rule.AppendRhsSymbol (rule : Rule) (symbol : SymPtr) : Rule :=
  { rule with rhs := rule.rhs ++ [symbol] }

/-- `Rule.SetCodeAndLine`. -/
def Rule.SetCodeAndLine (rule : Rule) (code : String) (line : Nat) : Rule :=
  { rule with code := code, line := line }

/-- The loop of `Rule.updatePrecedence` over the remaining right-hand side: the first symbol
with `precedence >= 0` replaces the precedence symbol and ends the loop. -/
def updatePrecedenceLoop (store : SymPtr → Symbol) : List SymPtr → Option SymPtr → Option SymPtr
  | [], precSym => precSym
  | s :: rest, precSym =>
    if (store s).precedence ≥ 0 then some s else updatePrecedenceLoop store rest precSym

/-- `Rule.updatePrecedence`. -/
def Rule.updatePrecedence (store : SymPtr → Symbol) (rule : Rule) : Rule :=
  { rule with precSym := updatePrecedenceLoop store rule.rhs rule.precSym }

/-- `Rule.computeNullable`: false as soon as a right-hand-side symbol is not nullable;
otherwise the left-hand symbol is made nullable and the result is true. -/
def Rule.computeNullable (rule : Rule) (t : SymbolTable) : Bool × SymbolTable :=
  if rule.rhs.all (fun s => (t.store s).nullable) then
    (true, t.write rule.lhs { t.store rule.lhs with nullable := true })
  else (false, t)

/-- The loop of `Rule.computeFirstSet` over the remaining right-hand side, with the flag
`changed` so far. -/
def computeFirstSetLoop (lhsSymbol : SymPtr) :
    List SymPtr → Bool → SymbolTable → Bool × SymbolTable
  | [], changed, t => (changed, t)
  | rhsSymbol :: rest, changed, t =>
    let index := (t.store rhsSymbol).index
    if (t.store rhsSymbol).symType = SymbolType.Terminal then
      if index ∉ (t.store lhsSymbol).firstset then
        computeFirstSetLoop lhsSymbol rest true
          (t.write lhsSymbol
            { t.store lhsSymbol with firstset := insert index (t.store lhsSymbol).firstset })
      else computeFirstSetLoop lhsSymbol rest changed t
    else if lhsSymbol = rhsSymbol then
      if !(t.store lhsSymbol).nullable then (changed, t)
      else computeFirstSetLoop lhsSymbol rest changed t
    else
      let oldLen := (t.store lhsSymbol).firstset.card
      let t1 := t.write lhsSymbol
        { t.store lhsSymbol with
          firstset := (t.store lhsSymbol).firstset ∪ (t.store rhsSymbol).firstset }
      let changed1 := if (t1.store lhsSymbol).firstset.card ≠ oldLen then true else changed
      if !(t1.store rhsSymbol).nullable then (changed1, t1)
      else computeFirstSetLoop lhsSymbol rest changed1 t1

/-- `Rule.computeFirstSet`. -/
def Rule.computeFirstSet (rule : Rule) (t : SymbolTable) : Bool × SymbolTable :=
  computeFirstSetLoop rule.lhs rule.rhs false t

/-! ## src/parse/parser_state.go: analysis -/

/-- The loop of `updateRulePrecedences` over the rule sequence: a rule whose `precSym` is nil
is skipped (`continue`), every other rule is handed to `updatePrecedence`. -/
def updateRulePrecedencesLoop (store : SymPtr → Symbol) : List Rule → List Rule
  | [] => []
  | rp :: rest =>
    (if rp.precSym = none then rp else rp.updatePrecedence store)
      :: updateRulePrecedencesLoop store rest

/-- One pass of the inner loop of `computeNullableSets` over the remaining rules:
`changed = changed || rp.computeNullable()` does not call `computeNullable` once `changed`
is true. -/
def nullablePass : List Rule → Bool → SymbolTable → Bool × SymbolTable
  | [], changed, t => (changed, t)
  | rp :: rest, changed, t =>
    if (t.store rp.GetLhsSymbol).nullable then nullablePass rest changed t
    else if changed then nullablePass rest true t
    else
      let r := rp.computeNullable t
      nullablePass rest r.1 r.2

/-- The outer loop `for changed { ... }` of `computeNullableSets`, with at most `fuel`
passes; `none` when the passes are used up while a pass still reports a change. -/
def nullableLoop : Nat → List Rule → SymbolTable → Option SymbolTable
  | 0, _, _ => none
  | fuel + 1, rules, t =>
    let r := nullablePass rules false t
    if r.1 then nullableLoop fuel rules r.2 else some r.2

/-- `computeNullableSets` on a rule sequence.  One pass more than there are rules is always
enough (`computeNullableSets_terminates`). -/
def computeNullableSets (rules : List Rule) (t : SymbolTable) : Option SymbolTable :=
  nullableLoop (rules.length + 1) rules t

/-- The loop of `computeFirstSets`: one call of `computeFirstSet` per rule, in sequence
order, the returned flag being dropped. -/
def computeFirstSetsLoop : List Rule → SymbolTable → SymbolTable
  | [], t => t
  | rule :: rest, t => computeFirstSetsLoop rest (rule.computeFirstSet t).2

/-- `computeFirstSets` on a rule sequence: `computeNullableSets`, then the loop. -/
def computeFirstSets (rules : List Rule) (t : SymbolTable) : Option SymbolTable :=
  (computeNullableSets rules t).map (computeFirstSetsLoop rules)

/-! ## src/parse/token.go -/

/-- The struct `Token`: the runes accumulated so far. -/
structure Token where
  buffer : List Char
  deriving DecidableEq

/-- `NewToken`. -/
def NewToken : Token := ⟨[]⟩

/-- `Token.AppendRune`. -/
def Token.AppendRune (token : Token) (r : Char) : Token := ⟨token.buffer ++ [r]⟩

/-- `Token.RuneCount`. -/
def Token.RuneCount (token : Token) : Nat := token.buffer.length

/-- `Token.NthRune`; `none` is the panic `Index out of bound`. -/
def Token.NthRune (token : Token) (n : Int) : Option Char :=
  if n < 0 ∨ n ≥ (token.buffer.length : Int) then none else token.buffer[n.toNat]?

/-- `Token.FirstRune`. -/
def Token.FirstRune (token : Token) : Option Char := token.NthRune 0

/-- `Token.LastRune`. -/
def Token.LastRune (token : Token) : Option Char := token.NthRune ((token.RuneCount : Int) - 1)

/-- `Token.Reset`. -/
def Token.Reset (_token : Token) : Token := ⟨[]⟩

/-- `Token.String`. -/
def Token.String (token : Token) : String := String.mk (token.buffer.take token.RuneCount)

/-! ## src/parse/rune_buffer.go -/

/-- The rune `0`, which `peekRune` holds when nothing is pushed back. -/
def noRune : Option Char := some (Char.ofNat 0)

/-- The struct `RuneBuffer`: `reader` is the input not yet read, already decoded into
codepoints (what `ReadRune` returns one at a time). -/
structure RuneBuffer where
  reader : List Char
  peekRune : Option Char
  deriving DecidableEq

/-- `NewRuneBuffer`. -/
def NewRuneBuffer (rd : List Char) : RuneBuffer := ⟨rd, noRune⟩

/-- `RuneBuffer.GetRune`: a pending rune first (a pending `EOF` stays pending), otherwise the
next rune of the reader, `EOF` when there is none. -/
def RuneBuffer.GetRune (runeBuf : RuneBuffer) : Option Char × RuneBuffer :=
  if runeBuf.peekRune ≠ noRune then
    if runeBuf.peekRune = none then (none, runeBuf)
    else (runeBuf.peekRune, { runeBuf with peekRune := noRune })
  else
    match runeBuf.reader with
    | [] => (none, runeBuf)
    | c :: cs => (some c, { runeBuf with reader := cs })

/-- `RuneBuffer.UngetRune`; `none` is the panic `UngetRune - 2nd unget`. -/
def RuneBuffer.UngetRune (runeBuf : RuneBuffer) (c : Option Char) : Option RuneBuffer :=
  if runeBuf.peekRune ≠ noRune then none else some { runeBuf with peekRune := c }

/-! ## src/parse/lemon.go and src/parse/parser_state.go: state -/

inductive FsmState where
  | WaitPercentSign
  | WaitOpenBrace
  | WaitKwDefOrRule1
  | WaitKwDefOrRule2
  | WaitOptTagOrOpenBrace
  | WaitSymbolAfterKeyword
  | WaitRuleLhsSymbol
  | WaitColon
  | WaitRuleRhsSymbol
  | WaitPrecedence
  | WaitPrecedenceTerm
  | WaitSymbolAfterPrec
  | WaitSubRoutine1
  | WaitSubRoutine2
  deriving DecidableEq, Repr

inductive Keyword where
  | KwUnknown
  | KwType
  | KwToken
  | KwLeft
  | KwRight
  | KwNonassoc
  | KwStart
  | KwPrec
  | KwUnion
  deriving DecidableEq, Repr

/-- `ReservedKeywords`; the values are pairwise different, so the order in which Go ranges
over the map does not matter for a search by value. -/
def ReservedKeywords : List (Keyword × String) :=
  [(Keyword.KwType, "TYPE"), (Keyword.KwToken, "TOKEN"), (Keyword.KwLeft, "LEFT"),
   (Keyword.KwRight, "RIGHT"), (Keyword.KwNonassoc, "NONASSOC"), (Keyword.KwStart, "START"),
   (Keyword.KwPrec, "PREC"), (Keyword.KwUnion, "UNION")]

/-- The fields of the struct `Lemon` that the program uses. -/
structure Lemon where
  nrule : Nat
  infile : String
  outfile : String
  runeBuf : RuneBuffer
  lineno : Nat

/-- The struct `ParserState` (without the back pointer `gp`, see `Machine`).  `rules` is the
rule sequence from `firstRule` along `next`: `NewRule` is only called right before
`appendRule`, which links the new rule behind `lastRule`, so a rule's position in the
sequence is also its address. -/
structure ParserState where
  errorCnt : Nat
  curState : FsmState
  importCode : List Char
  unionCode : String
  unionCodeLineno : Nat
  startTokLineno : Nat
  prevKeyword : Keyword
  prevTag : String
  prevRule : Option RulePtr
  precCounter : Nat
  rules : List Rule
  subroutine : String
  symTable : SymbolTable

/-- Everything `Lemon.Parse` works on: the generator, its parser state and the token
under construction.  `fed` is not program state: it records the tokens handed to
`parseOneToken` so far, oldest first. -/
structure Machine where
  lemon : Lemon
  ps : ParserState
  token : Token
  fed : List String

/-- What `errorf` prints: the format of the message, the file and the line. -/
structure Diag where
  format : String
  filename : String
  lineno : Nat
  deriving DecidableEq

/-- Outcome of running a piece of the program from a machine state. -/
inductive Step (α : Type) where
  /-- the code returned -/
  | ok (a : α)
  /-- `errorf` printed `d` and ended the process in state `m` -/
  | exit (d : Diag) (m : Machine)
  /-- a Go panic -/
  | panic (msg : String)
  /-- the model used up its fuel -/
  | stall

/-- Sequencing: continue with `f` when the code returned. -/
def Step.bind {α β : Type} (s : Step α) (f : α → Step β) : Step β :=
  match s with
  | Step.ok a => f a
  | Step.exit d m => Step.exit d m
  | Step.panic msg => Step.panic msg
  | Step.stall => Step.stall

/-- `errorf`: the diagnostic, then `os.Exit(1)`. -/
def errorf {α : Type} (m : Machine) (lineno : Nat) (format : String) : Step α :=
  Step.exit ⟨format, m.lemon.infile, lineno⟩ m

/-- `NewLemon`, for an input file whose decoded content is `input`. -/
def NewLemon (infile outfile : String) (input : List Char) : Lemon where
  nrule := 0
  infile := infile
  outfile := outfile
  runeBuf := NewRuneBuffer input
  lineno := 1

/-- `NewParserState`. -/
def NewParserState : ParserState where
  errorCnt := 0
  curState := FsmState.WaitPercentSign
  importCode := []
  unionCode := ""
  unionCodeLineno := 0
  startTokLineno := 0
  prevKeyword := Keyword.KwUnknown
  prevTag := ""
  prevRule := none
  precCounter := 0
  rules := []
  subroutine := ""
  symTable := NewSymbolTable

/-- `ps.errorCnt++`. -/
def Machine.incErr (m : Machine) : Machine :=
  { m with ps := { m.ps with errorCnt := m.ps.errorCnt + 1 } }

/-- `ps.curState = s`. -/
def Machine.setState (m : Machine) (s : FsmState) : Machine :=
  { m with ps := { m.ps with curState := s } }

/-- Replace the symbol table. -/
def Machine.setTable (m : Machine) (t : SymbolTable) : Machine :=
  { m with ps := { m.ps with symTable := t } }

/-- `Lemon.RuleCount`. -/
def Machine.RuleCount (m : Machine) : Nat := m.lemon.nrule

/-- `NewRule` for the rule that will stand at address `addr`: the rule heads the chain of
rules of its left-hand symbol. -/
def NewRule (t : SymbolTable) (addr : RulePtr) (symbol : SymPtr) (ruleLineno : Nat) :
    Rule × SymbolTable :=
  ({ lhs := symbol, ruleLineno := ruleLineno, rhs := [], line := 0, code := "", precSym := none,
     index := 0, canReduce := false, nextlhs := (t.store symbol).rule },
   t.write symbol { t.store symbol with rule := some addr })

/-- `ParserState.appendRule`. -/
def Machine.appendRule (m : Machine) (rule : Rule) : Machine :=
  { m with
    ps := { m.ps with rules := m.ps.rules ++ [rule], prevRule := some m.ps.rules.length }
    lemon := { m.lemon with nrule := m.lemon.nrule + 1 } }

/-- `rule := NewRule(symbol, startLineno); ps.appendRule(rule)`. -/
def Machine.addRule (m : Machine) (symbol : SymPtr) (ruleLineno : Nat) : Machine :=
  let r := NewRule m.ps.symTable m.ps.rules.length symbol ruleLineno
  (m.setTable r.2).appendRule r.1

/-- Apply `f` to the rule `ps.prevRule` points to; a nil `prevRule` is a panic. -/
def Machine.onPrevRule (m : Machine) (f : Rule → Rule) : Step Machine :=
  match m.ps.prevRule with
  | none => Step.panic "nil pointer dereference"
  | some p =>
    match m.ps.rules[p]? with
    | none => Step.panic "nil pointer dereference"
    | some rule => Step.ok { m with ps := { m.ps with rules := m.ps.rules.set p (f rule) } }

/-- The rule `ps.prevRule` points to, if any. -/
def Machine.prevRuleVal (m : Machine) : Option Rule :=
  m.ps.prevRule.bind (fun p => m.ps.rules[p]?)

/-- `strings.ToUpper`. -/
def toUpperStr (u : UnicodeTables) (str : String) : String :=
  String.mk (str.data.map u.toUpper)

/-- The search `for k, v := range ReservedKeywords { if v == upperStr ... }`. -/
def findKeyword (upperStr : String) : Option Keyword :=
  (ReservedKeywords.find? (fun kv => kv.2 == upperStr)).map (fun kv => kv.1)

/-- The associativity `defineSymbol` assigns under a precedence keyword. -/
def assocOf (kw : Keyword) (old : SymbolAssoc) : SymbolAssoc :=
  match kw with
  | Keyword.KwLeft => SymbolAssoc.Left
  | Keyword.KwRight => SymbolAssoc.Right
  | Keyword.KwNonassoc => SymbolAssoc.None
  | _ => old

/-- `ParserState.defineSymbol`: intern the name, attach the pending tag, then classify the
symbol according to the previous keyword. -/
def defineSymbol (u : UnicodeTables) (m : Machine) (symName : String) :
    Step (SymPtr × Machine) :=
  let kw := m.ps.prevKeyword
  let startLineno := m.ps.startTokLineno
  let ins := m.ps.symTable.Insert u symName
  let symbol := ins.1
  let t1 :=
    if m.ps.prevTag ≠ "" then
      ins.2.write symbol { ins.2.store symbol with datatype := m.ps.prevTag }
    else ins.2
  let m1 := m.setTable t1
  match kw with
  | Keyword.KwType =>
    if !util.IsLower u symName then
      errorf m1 startLineno "Non-terminal must be lower case: `%s`"
    else
      Step.ok (symbol, m1.setTable
        (t1.write symbol { t1.store symbol with symType := SymbolType.NonTerminal }))
  | Keyword.KwToken =>
    if !util.IsUpper u symName && !util.IsStringLiteral symName then
      errorf m1 startLineno "Terminal must be upper case or string literal: `%s`"
    else
      Step.ok (symbol, m1.setTable
        (t1.write symbol { t1.store symbol with symType := SymbolType.Terminal }))
  | Keyword.KwLeft | Keyword.KwRight | Keyword.KwNonassoc =>
    if !util.IsUpper u symName then
      errorf m1 startLineno "%s must followed by terminal: `%s`"
    else
      let t2 := t1.write symbol
        { t1.store symbol with
          symType := SymbolType.Terminal
          assoc := assocOf kw (t1.store symbol).assoc
          precedence := (m.ps.precCounter : Int) }
      Step.ok (symbol,
        { m1 with ps := { m1.ps with symTable := t2, precCounter := m.ps.precCounter + 1 } })
  | _ => Step.ok (symbol, m1)

/-- `ParserState.parseOneToken` on the token `m.token`. -/
def parseOneToken (u : UnicodeTables) (m : Machine) : Step Machine :=
  let token := m.token
  let runeCount := token.RuneCount
  let tokenStr := token.String
  let upperStr := toUpperStr u tokenStr
  let startLineno := m.ps.startTokLineno
  match token.FirstRune, token.LastRune with
  | some fstRune, some lstRune =>
    match m.ps.curState with
    | FsmState.WaitPercentSign =>
      if fstRune ≠ '%' then
        errorf m.incErr startLineno
          "Declaration must start with `%\x7b` and end with `%\x7d`. Find: `%s`"
      else Step.ok (m.setState FsmState.WaitOpenBrace)
    | FsmState.WaitOpenBrace =>
      if fstRune ≠ '{' ∨ lstRune ≠ '}' then
        errorf m.incErr startLineno
          "Declaration must start with `%\x7b` and end with `%\x7d`. Find: `%s`"
      else
        match token.NthRune ((runeCount : Int) - 2) with
        | none => Step.panic "Index out of bound"
        | some r =>
          if r ≠ '%' then
            errorf m.incErr startLineno
              "Declaration must start with `%\x7b` and end with `%\x7d`. Find: `%s`"
          else if runeCount < 2 then Step.panic "makeslice: len out of range"
          else
            Step.ok { m with
              ps := { m.ps with
                importCode := ((token.buffer.take runeCount).drop 1).take (runeCount - 2)
                curState := FsmState.WaitKwDefOrRule1 } }
    | FsmState.WaitKwDefOrRule1 =>
      if fstRune ≠ '%' then
        errorf m.incErr startLineno
          "Expect `%keyword` to declare keyword or `%%` to start rule definition. Find: `%s`"
      else Step.ok (m.setState FsmState.WaitKwDefOrRule2)
    | FsmState.WaitKwDefOrRule2 =>
      if fstRune = '%' then Step.ok (m.setState FsmState.WaitRuleLhsSymbol)
      else
        let m1 : Machine :=
          match findKeyword upperStr with
          | some k => { m with ps := { m.ps with prevKeyword := k } }
          | none => m
        if m1.ps.prevKeyword = Keyword.KwUnknown then
          errorf m1.incErr startLineno
            "Expect `%keyword` to declare keyword or `%%` to start rule definition. Find: `%s`"
        else Step.ok (m1.setState FsmState.WaitOptTagOrOpenBrace)
    | FsmState.WaitOptTagOrOpenBrace =>
      if m.ps.prevKeyword = Keyword.KwUnion then
        if fstRune ≠ '{' ∨ lstRune ≠ '}' then
          errorf m.incErr startLineno "Expect `\x7b\x7d` after `%union`: `%s`"
        else if m.ps.unionCode ≠ "" then
          errorf m.incErr startLineno
            "Multiple `%union` definitions are found. Previous definition is at: %d"
        else
          Step.ok { m with
            ps := { m.ps with
              unionCode := tokenStr
              unionCodeLineno := startLineno
              curState := FsmState.WaitKwDefOrRule1 } }
      else if fstRune = '<' then
        if m.ps.prevKeyword = Keyword.KwUnion then
          errorf m.incErr startLineno "Tag specifier `<>` can't follow after `%union`: `%s`"
        else
          Step.ok { m with
            ps := { m.ps with
              prevTag := String.mk ((token.buffer.take runeCount).drop 1)
              curState := FsmState.WaitSymbolAfterKeyword } }
      else
        (defineSymbol u m tokenStr).bind fun r =>
          Step.ok (r.2.setState FsmState.WaitSymbolAfterKeyword)
    | FsmState.WaitSymbolAfterKeyword =>
      if fstRune = '%' then
        Step.ok { m with
          ps := { m.ps with
            prevKeyword := Keyword.KwUnknown
            prevTag := ""
            curState := FsmState.WaitKwDefOrRule2 } }
      else (defineSymbol u m tokenStr).bind fun r => Step.ok r.2
    | FsmState.WaitRuleLhsSymbol =>
      if fstRune = '%' then
        if m.RuleCount = 0 then
          errorf m.incErr startLineno "Unexpected `%%`, at least 1 rule must be defined."
        else Step.ok (m.setState FsmState.WaitSubRoutine1)
      else if !util.IsLower u tokenStr then
        errorf m.incErr startLineno
          "For rule definition, left hand side symbol must be non-terminal: `%s`."
      else
        let ins := m.ps.symTable.Insert u tokenStr
        Step.ok (((m.setTable ins.2).addRule ins.1 startLineno).setState FsmState.WaitColon)
    | FsmState.WaitColon =>
      if fstRune ≠ ':' then
        errorf m.incErr startLineno "Expect `:` after non-terminal: `%s`"
      else Step.ok (m.setState FsmState.WaitRuleRhsSymbol)
    | FsmState.WaitRuleRhsSymbol =>
      if fstRune = '|' then
        match m.prevRuleVal with
        | none => Step.panic "nil pointer dereference"
        | some prevRule =>
          let count := prevRule.GetRhsSymbolCount
          let symbol := prevRule.GetLhsSymbol
          if count = 0 then
            if (m.ps.symTable.store symbol).nullable then
              errorf m.incErr startLineno "Find multiple empty expression for: `%s`"
            else
              Step.ok (m.setTable (m.ps.symTable.write symbol
                { m.ps.symTable.store symbol with nullable := true }))
          else Step.ok (m.addRule symbol startLineno)
      else if fstRune = '{' then
        m.onPrevRule (fun rule => rule.SetCodeAndLine tokenStr startLineno)
      else if fstRune = '%' then Step.ok (m.setState FsmState.WaitPrecedence)
      else if fstRune = ';' then
        Step.ok { m with
          ps := { m.ps with prevRule := none, curState := FsmState.WaitRuleLhsSymbol } }
      else
        match m.ps.symTable.Get tokenStr with
        | some symbol => m.onPrevRule (fun rule => rule.AppendRhsSymbol symbol)
        | none => Step.ok m
    | FsmState.WaitPrecedence =>
      if upperStr ≠ "PREC" then
        errorf m.incErr startLineno "Expect `%%prec`. Find: `%s`."
      else Step.ok (m.setState FsmState.WaitPrecedenceTerm)
    | FsmState.WaitPrecedenceTerm =>
      match m.ps.symTable.Get tokenStr with
      | none =>
        errorf m.incErr startLineno "Terminal after `%%prec` must be defined: `%s`."
      | some symbol =>
        (m.onPrevRule (fun rule => { rule with precSym := some symbol })).bind fun m1 =>
          Step.ok (m1.setState FsmState.WaitSymbolAfterPrec)
    | FsmState.WaitSymbolAfterPrec =>
      if fstRune = '{' then
        (m.onPrevRule (fun rule => { rule with code := tokenStr })).bind fun m1 =>
          Step.ok { m1 with
            ps := { m1.ps with prevRule := none, curState := FsmState.WaitRuleLhsSymbol } }
      else if fstRune = '|' ∨ fstRune = ';' then
        Step.ok { m with
          ps := { m.ps with prevRule := none, curState := FsmState.WaitRuleLhsSymbol } }
      else
        errorf m startLineno "Expect `|` or `\x7b` or `;` after `%%prec term`: `%s`"
    | FsmState.WaitSubRoutine1 =>
      if fstRune ≠ '%' then
        errorf m.incErr startLineno "Expect `%%` after `%%` before subroutine: `%s`"
      else Step.ok (m.setState FsmState.WaitSubRoutine2)
    | FsmState.WaitSubRoutine2 =>
      Step.ok { m with ps := { m.ps with subroutine := m.ps.subroutine ++ tokenStr } }
  | _, _ => Step.panic "Index out of bound"

/-! ## src/parse/lemon.go: the tokenizer -/

/-- `runeBuf.GetRune()`. -/
def Machine.getRune (m : Machine) : Option Char × Machine :=
  let r := m.lemon.runeBuf.GetRune
  (r.1, { m with lemon := { m.lemon with runeBuf := r.2 } })

/-- `token.AppendRune(c)`. -/
def Machine.append (m : Machine) (c : Char) : Machine :=
  { m with token := m.token.AppendRune c }

/-- `lemon.lineno++`. -/
def Machine.incLine (m : Machine) : Machine :=
  { m with lemon := { m.lemon with lineno := m.lemon.lineno + 1 } }

/-- `lemon.lineno++` when the rune is a newline. -/
def Machine.countLine (m : Machine) (c : Char) : Machine :=
  if c = '\n' then m.incLine else m

/-- The loop of `skipComment` for a `//` comment, entered with the current rune. -/
def lineCommentLoop : Nat → Option Char → Machine → Step Machine
  | 0, _, _ => Step.stall
  | fuel + 1, curRune, m =>
    match curRune with
    | none => errorf m m.lemon.lineno "EOF inside comment."
    | some c =>
      if c = '\n' then Step.ok m.incLine
      else
        let r := m.getRune
        lineCommentLoop fuel r.1 r.2

/-- The loop of `skipComment` for a `/* */` comment, entered with the previous rune. -/
def blockCommentLoop : Nat → Option Char → Machine → Step Machine
  | 0, _, _ => Step.stall
  | fuel + 1, prevRune, m =>
    let r := m.getRune
    match r.1 with
    | none => errorf r.2 r.2.lemon.lineno "EOF inside comment."
    | some c =>
      if prevRune ≠ some '*' ∨ c ≠ '/' then blockCommentLoop fuel (some c) (r.2.countLine c)
      else Step.ok r.2

/-- `Lemon.skipComment`, called after a `/` was read. -/
def skipComment (fuel : Nat) (m : Machine) : Step Machine :=
  let r := m.getRune
  if r.1 = some '/' then lineCommentLoop fuel r.1 r.2
  else if r.1 ≠ some '*' then errorf r.2 r.2.lemon.lineno "Illegal comment: `%q`"
  else blockCommentLoop fuel noRune r.2

/-- The loops of the quote and of the type-tag branch:
`for curRune = GetRune(); curRune != EOF && curRune != stop; curRune = GetRune()` with the
body `token.AppendRune(curRune)`; the result is the rune that ended the loop. -/
def untilLoop : Nat → Char → Machine → Step (Option Char × Machine)
  | 0, _, _ => Step.stall
  | fuel + 1, stop, m =>
    let r := m.getRune
    match r.1 with
    | none => Step.ok (none, r.2)
    | some c => if c ≠ stop then untilLoop fuel stop (r.2.append c) else Step.ok (some c, r.2)

/-- The loop of the identifier branch: runes are appended while they are alphanumeric
or `_`. -/
def identLoop (u : UnicodeTables) : Nat → Machine → Step (Option Char × Machine)
  | 0, _ => Step.stall
  | fuel + 1, m =>
    let r := m.getRune
    match r.1 with
    | none => Step.ok (none, r.2)
    | some c =>
      if util.IsAlphaNum u (some c) || c = '_' then identLoop u fuel (r.2.append c)
      else Step.ok (some c, r.2)

/-- The loop over a quoted region inside a code block, entered with `prevRune`:
the region ends at `expRune` unless `prevRune` is a backslash; after an escaped rune
`prevRune` is reset to `0`.  The result is the rune that ended the loop. -/
def codeQuoteLoop : Nat → Char → Option Char → Machine → Step (Option Char × Machine)
  | 0, _, _, _ => Step.stall
  | fuel + 1, expRune, prevRune, m =>
    let r := m.getRune
    match r.1 with
    | none => Step.ok (none, r.2)
    | some c =>
      if c ≠ expRune ∨ prevRune = some '\\' then
        codeQuoteLoop fuel expRune (if prevRune = some '\\' then noRune else some c)
          ((r.2.append c).countLine c)
      else Step.ok (some c, r.2)

/-- The loop of the code-block branch, entered with the nesting `level`:
`for curRune = GetRune(); curRune != EOF && (level > 1 || curRune != '}'); ...`.
The result is the rune that ended the loop. -/
def codeLoop : Nat → Nat → Machine → Step (Option Char × Machine)
  | 0, _, _ => Step.stall
  | fuel + 1, level, m =>
    let r := m.getRune
    match r.1 with
    | none => Step.ok (none, r.2)
    | some c =>
      if level > 1 ∨ c ≠ '}' then
        let m1 := r.2.append c
        if c = '\n' then codeLoop fuel level m1.incLine
        else if c = '}' then codeLoop fuel (level - 1) m1
        else if c = '{' then codeLoop fuel (level + 1) m1
        else if c = '/' then (skipComment fuel m1).bind fun m2 => codeLoop fuel level m2
        else if c = '\'' ∨ c = '"' then
          (codeQuoteLoop fuel c noRune m1).bind fun q =>
            match q.1 with
            | none => codeLoop fuel level q.2
            | some e => codeLoop fuel level (q.2.append e)
        else codeLoop fuel level m1
      else Step.ok (some c, r.2)

/-- What one round of the main loop of `Parse` did before reaching `parseOneToken`. -/
inductive Scanned where
  /-- `EOF` was read: `break` -/
  | eof
  /-- a space or a comment was skipped: `continue` -/
  | skip
  /-- a token was assembled in `m.token` -/
  | token
  deriving DecidableEq

/-- One round of the main loop of `Lemon.Parse` up to, and without, the call of
`parseOneToken`. -/
def scanToken (u : UnicodeTables) (fuel : Nat) (m : Machine) : Step (Scanned × Machine) :=
  let r := m.getRune
  match r.1 with
  | none => Step.ok (Scanned.eof, r.2)
  | some curRune =>
    let m1 := r.2.countLine curRune
    if util.IsSpace (some curRune) then Step.ok (Scanned.skip, m1)
    else if curRune = '/' then (skipComment fuel m1).bind fun m2 => Step.ok (Scanned.skip, m2)
    else
      let m2 : Machine :=
        ({ m1 with ps := { m1.ps with startTokLineno := m1.lemon.lineno } } : Machine).append
          curRune
      if curRune = '\'' then
        (untilLoop fuel '\'' m2).bind fun q =>
          match q.1 with
          | none =>
            errorf q.2.incErr q.2.lemon.lineno
              "String starting on this line is not terminated before the end of the file."
          | some e => Step.ok (Scanned.token, q.2.append e)
      else if curRune = '<' then
        (untilLoop fuel '>' m2).bind fun q =>
          match q.1 with
          | none =>
            errorf q.2.incErr q.2.lemon.lineno
              "Type specifier `<type>` on this line is not terminated before the end of the file."
          | some e => Step.ok (Scanned.token, q.2.append e)
      else if curRune = '{' then
        (codeLoop fuel 1 m2).bind fun q =>
          match q.1 with
          | none =>
            errorf q.2.incErr q.2.lemon.lineno
              "Code starting on this line is not terminated before the end of the file."
          | some e => Step.ok (Scanned.token, q.2.append e)
      else if util.IsAlphaNum u (some curRune) then
        (identLoop u fuel m2).bind fun q =>
          match q.1 with
          | none => Step.ok (Scanned.token, q.2)
          | some e =>
            match q.2.lemon.runeBuf.UngetRune (some e) with
            | none => Step.panic "UngetRune - 2nd unget"
            | some rb =>
              Step.ok (Scanned.token, { q.2 with lemon := { q.2.lemon with runeBuf := rb } })
      else Step.ok (Scanned.token, m2)

/-- `ps.parseOneToken(token); token.Reset()`, the token being recorded in `fed`. -/
def feedToken (u : UnicodeTables) (m : Machine) : Step Machine :=
  (parseOneToken u { m with fed := m.fed ++ [m.token.String] }).bind fun m1 =>
    Step.ok { m1 with token := m1.token.Reset }

/-- The main loop of `Lemon.Parse`, with at most `fuel` rounds. -/
def parseLoop (u : UnicodeTables) : Nat → Machine → Step Machine
  | 0, _ => Step.stall
  | fuel + 1, m =>
    (scanToken u fuel m).bind fun r =>
      match r.1 with
      | Scanned.eof => Step.ok r.2
      | Scanned.skip => parseLoop u fuel r.2
      | Scanned.token => (feedToken u r.2).bind fun m1 => parseLoop u fuel m1

/-- `ParserState.Reprint`, without the printing: the symbols are sorted and indexed. -/
def Reprint (m : Machine) : Machine :=
  m.setTable m.ps.symTable.SortedSymbols.2

/-- `ParserState.PrintFirstSets`, without the printing: `computeFirstSets`, then
`SymbolTable.PrintFirstSets` asks for the sorted symbols again. -/
def PrintFirstSets (m : Machine) : Step Machine :=
  match computeFirstSets m.ps.rules m.ps.symTable with
  | none => Step.stall
  | some t => Step.ok (m.setTable t.SortedSymbols.2)

/-- `Lemon.Parse` continued from a machine state standing at the head of the main loop:
the loop, then `Reprint` and `PrintFirstSets`.  Each round of a loop reads a rune, so two
more rounds than there are unread runes are enough. -/
def parseFrom (u : UnicodeTables) (m : Machine) : Step Machine :=
  (parseLoop u (m.lemon.runeBuf.reader.length + 2) m).bind fun m1 => PrintFirstSets (Reprint m1)

/-- `Lemon.Parse`. -/
def Parse (u : UnicodeTables) (lemon : Lemon) : Step Machine :=
  parseFrom u ⟨lemon, NewParserState, NewToken, []⟩

/-- `NewLemon(infile, outfile).Parse()` for an input file with the given text. -/
def parseText (input : String) : Step Machine :=
  Parse asciiTables (NewLemon "in.y" "in.go" input.data)

/-- `ParserState.updateRulePrecedences`. -/
def updateRulePrecedences (m : Machine) : Machine :=
  { m with ps := { m.ps with rules := updateRulePrecedencesLoop m.ps.symTable.store m.ps.rules } }

/-! ## Observations used to state results of concrete runs -/

/-- The symbol with the given name in the table of a run that returned. -/
def symbolOf (s : Step Machine) (name : String) : Option Symbol :=
  match s with
  | Step.ok m => (m.ps.symTable.Get name).map m.ps.symTable.store
  | _ => none

/-- The rules of a machine, with names for addresses: left-hand side, right-hand side and
precedence symbol. -/
def Machine.ruleNames (m : Machine) : List (String × List String × Option String) :=
  m.ps.rules.map fun r =>
    ((m.ps.symTable.store r.lhs).name, r.rhs.map (fun p => (m.ps.symTable.store p).name),
      r.precSym.map (fun p => (m.ps.symTable.store p).name))

/-- The rules of a run that returned. -/
def ruleNamesOf (s : Step Machine) : List (String × List String × Option String) :=
  match s with
  | Step.ok m => m.ruleNames
  | _ => []

/-- The machine of a run that returned. -/
def machineOf (s : Step Machine) : Option Machine :=
  match s with
  | Step.ok m => some m
  | _ => none

/-- The diagnostic of a run that ended in `errorf`. -/
def diagOf {α : Type} (s : Step α) : Option Diag :=
  match s with
  | Step.exit d _ => some d
  | _ => none

/-- The tokens handed to `parseOneToken` in a run, whether it returned or ended in
`errorf`. -/
def fedOf (s : Step Machine) : List String :=
  match s with
  | Step.ok m => m.fed
  | Step.exit _ m => m.fed
  | _ => []

/-- `Parse` did not get past its main loop: the run ended in `errorf`. -/
def exited {α : Type} (s : Step α) : Bool :=
  match s with
  | Step.exit _ _ => true
  | _ => false

/-- The machine in which `parseOneToken` finds the token `tok` in FSM state `st`, everything
else as after `NewParserState`. -/
def machineAt (st : FsmState) (tok : String) : Machine :=
  ⟨NewLemon "in.y" "in.go" [], { NewParserState with curState := st }, ⟨tok.data⟩, []⟩

/-! ## Reachable parser states -/

/-- The FSM states in which a rule is under construction. -/
def FsmState.inRule : FsmState → Bool
  | FsmState.WaitColon => true
  | FsmState.WaitRuleRhsSymbol => true
  | FsmState.WaitPrecedence => true
  | FsmState.WaitPrecedenceTerm => true
  | FsmState.WaitSymbolAfterPrec => true
  | _ => false

/-- What the tokenizer may have changed when it presents the next token to `parseOneToken`:
the token, its start line, the error counter, the reader, the line counter and the record
of fed tokens. -/
def Machine.present (m : Machine) (tok : Token) (line errs : Nat) (rb : RuneBuffer)
    (lineno : Nat) (fed : List String) : Machine :=
  ⟨{ m.lemon with runeBuf := rb, lineno := lineno },
   { m.ps with startTokLineno := line, errorCnt := errs }, tok, fed⟩

/-- The machine states reachable from a state `Parse` starts in by feeding non-empty
tokens to `parseOneToken`, each call returning normally. -/
inductive Reachable (u : UnicodeTables) : Machine → Prop where
  | init (infile outfile : String) (input : List Char) :
      Reachable u ⟨NewLemon infile outfile input, NewParserState, NewToken, []⟩
  | feed {m m1 : Machine} (tok : Token) (line errs : Nat) (rb : RuneBuffer) (lineno : Nat)
      (fed : List String) (hm : Reachable u m) (hne : tok.buffer ≠ [])
      (h : parseOneToken u (m.present tok line errs rb lineno fed) = Step.ok m1) :
      Reachable u m1

/-- In a state with a rule under construction, `prevRule` is the last rule of the
sequence. -/
def PrevRuleLast (m : Machine) : Prop :=
  m.ps.curState.inRule = true → ∃ p, m.ps.prevRule = some p ∧ p + 1 = m.ps.rules.length

/-- Feed the tokens one after the other to `parseOneToken`, each call having returned. -/
def feedAll (u : UnicodeTables) : List String → Machine → Step Machine
  | [], m => Step.ok m
  | t :: ts, m =>
    (parseOneToken u
      (m.present ⟨t.data⟩ m.ps.startTokLineno m.ps.errorCnt m.lemon.runeBuf m.lemon.lineno
        m.fed)).bind (feedAll u ts)

/-- The machine `Parse` starts in for an empty input file. -/
def startMachine : Machine := ⟨NewLemon "in.y" "in.go" [], NewParserState, NewToken, []⟩

/-- The machine of a run that returned, `startMachine` otherwise. -/
def Step.machine (s : Step Machine) : Machine :=
  match s with
  | Step.ok m => m
  | _ => startMachine

/-- The run returned. -/
def Step.returned {α : Type} (s : Step α) : Bool :=
  match s with
  | Step.ok _ => true
  | _ => false

/-! ## What the tokenizer may change -/

/-- `m1` differs from `m` at most in what the tokenizer writes: the reader, the line counter,
the token (which is only extended), the error counter and the start line of the token. -/
def Scans (m m1 : Machine) : Prop :=
  m1.fed = m.fed ∧ m1.lemon.nrule = m.lemon.nrule ∧ m1.lemon.infile = m.lemon.infile
    ∧ m1.lemon.outfile = m.lemon.outfile
    ∧ (∃ e l, m1.ps = { m.ps with errorCnt := e, startTokLineno := l })
    ∧ ∃ suf, m1.token.buffer = m.token.buffer ++ suf

/-- A property of the outcome of a run: `P` of the result when the code returned, `Q` of the
machine when it ended in `errorf`; nothing is asked of a panic or of a stalled model. -/
def Step.holds {α : Type} (P : α → Prop) (Q : Machine → Prop) : Step α → Prop
  | Step.ok a => P a
  | Step.exit _ m => Q m
  | Step.panic _ => True
  | Step.stall => True

/-- The first token `scanToken` assembles from the given input, with the input left unread
behind it. -/
def firstToken (input : String) : Option (String × String) :=
  match scanToken asciiTables (input.data.length + 2)
      ⟨NewLemon "in.y" "in.go" input.data, NewParserState, NewToken, []⟩ with
  | Step.ok (Scanned.token, m) => some (m.token.String, String.mk m.lemon.runeBuf.reader)
  | _ => none

/-- Insert the names one after the other; the result lists the symbols the calls of `Insert`
returned, in order, with the final table. -/
def insertAll (u : UnicodeTables) : List String → SymbolTable → List SymPtr × SymbolTable
  | [], t => ([], t)
  | n :: ns, t =>
    let r := t.Insert u n
    let rest := insertAll u ns r.2
    (r.1 :: rest.1, rest.2)

/-- The token obtained by appending the codepoints of `s`, in order, to `tok`. -/
def appendAll (tok : Token) (s : String) : Token :=
  s.data.foldl Token.AppendRune tok

/-- `defineSymbol` is running under one of the three precedence keywords. -/
def Keyword.isPrec : Keyword → Bool
  | Keyword.KwLeft => true
  | Keyword.KwRight => true
  | Keyword.KwNonassoc => true
  | _ => false

/-- The machine in which `defineSymbol` runs under the keyword `kw` with precedence counter
`k`, everything else as after `NewParserState`. -/
def machineUnder (kw : Keyword) (k : Nat) : Machine :=
  ⟨NewLemon "in.y" "in.go" [], { NewParserState with prevKeyword := kw, precCounter := k },
    NewToken, []⟩

/-- `RuleCount` equals the length of the rule sequence. -/
def RuleCountExact (m : Machine) : Prop := m.RuleCount = m.ps.rules.length

/-- The machine after the tokens `%`, `{%}`, `%`, `%`, `e`, `:` (rule `e ->` under
construction, FSM in `WaitRuleRhsSymbol`), presented with the token `|`. -/
def barMachine : Machine :=
  (feedAll asciiTables ["%", "\x7b%\x7d", "%", "%", "e", ":"] startMachine).machine.present
    ⟨"|".data⟩ 1 0 (NewRuneBuffer []) 1 []

/-! ## Nullable analysis: notions used in the statements -/

/-- The symbol at address `p` is nullable in table `t`. -/
def Nullable (t : SymbolTable) (p : SymPtr) : Prop := (t.store p).nullable = true

/-- The nullable flags of `t` are closed under the rules: a rule all of whose right-hand-side
symbols are nullable has a nullable left-hand symbol. -/
def NullableClosed (rules : List Rule) (t : SymbolTable) : Prop :=
  ∀ r ∈ rules, (∀ s ∈ r.rhs, Nullable t s) → Nullable t r.lhs

/-- The left-hand symbols of the rules that are not nullable in `t` (each once). -/
def openLhs (rules : List Rule) (t : SymbolTable) : Finset SymPtr :=
  (rules.map (fun r => r.lhs)).toFinset.filter (fun p => (t.store p).nullable = false)

/-- A table in which the symbols at addresses 0, 1, 2 are not nullable, with the chain of
rules `0 -> `, `1 -> 0`, `2 -> 1 0` given in the order that needs most passes. -/
def chainRules : List Rule :=
  [⟨2, 0, [1, 0], 0, "", none, 0, false, none⟩, ⟨1, 0, [0], 0, "", none, 0, false, none⟩,
   ⟨0, 0, [], 0, "", none, 0, false, none⟩]

/-! ## Well-formed symbol tables -/

/-- What `NewSymbolTable`, `Insert` and `SortedSymbols` maintain: the names in the map are
pairwise different, each entry points to an allocated symbol that carries the entry's name,
`sortedSymbols` holds the entries' symbols in some order, and when no name was inserted since
the last sort it is in strictly ascending order of name with every symbol indexed by its
position. -/
structure TableInv (t : SymbolTable) : Prop where
  keys : (t.symbols.map (fun e => e.1)).Nodup
  names : ∀ e ∈ t.symbols, (t.store e.2).name = e.1
  alloc : ∀ e ∈ t.symbols, e.2 < t.nalloc
  perm : t.sortedSymbols.Perm (t.symbols.map (fun e => e.2))
  sorted : t.hasNewInsert = false →
    t.sortedSymbols.Pairwise (fun a b => (t.store a).name < (t.store b).name)
    ∧ ∀ i (h : i < t.sortedSymbols.length), (t.store (t.sortedSymbols.get ⟨i, h⟩)).index = i

/-- The names and indices of a list of symbols. -/
def namesAndIndices (t : SymbolTable) (l : List SymPtr) : List (String × Nat) :=
  l.map (fun p => ((t.store p).name, (t.store p).index))

/-- The lower-case letters followed by the upper-case letters, as in `TestSortedSymbols`. -/
def testLetters : List String :=
  ["a", "b", "c", "d", "e", "f", "g", "h", "i", "j", "k", "l", "m", "n", "o", "p", "q", "r",
   "s", "t", "u", "v", "w", "x", "y", "z", "A", "B", "C", "D", "E", "F", "G", "H", "I", "J",
   "K", "L", "M", "N", "O", "P", "Q", "R", "S", "T", "U", "V", "W", "X", "Y", "Z"]

/-- The upper-case letters followed by the lower-case letters. -/
def testLettersSorted : List String :=
  ["A", "B", "C", "D", "E", "F", "G", "H", "I", "J", "K", "L", "M", "N", "O", "P", "Q", "R",
   "S", "T", "U", "V", "W", "X", "Y", "Z", "a", "b", "c", "d", "e", "f", "g", "h", "i", "j",
   "k", "l", "m", "n", "o", "p", "q", "r", "s", "t", "u", "v", "w", "x", "y", "z"]

/-! ## Code blocks: what the tokenizer is to recognise -/

/-- Where a scan through a code block stands: in code at nesting depth `depth`, or inside a
region quoted by `q` at that depth, `escaped` telling whether the next codepoint is escaped
by a backslash. -/
inductive BlockState where
  | code (depth : Nat)
  | quote (depth : Nat) (q : Char) (escaped : Bool)

/-- Scan the input that follows an opening brace, codepoint by codepoint.  In code, `{` raises
the depth, `}` lowers it and ends the block when the depth is back to zero, a quote opens a
quoted region.  In a quoted region an escaped codepoint is skipped over, an unescaped
backslash escapes the next codepoint, and the unescaped quote `q` closes the region.  The
result is the text strictly between the opening brace and its closing brace and the input
behind the closing brace; `none` when the input ends first. -/
def blockScan : BlockState → List Char → Option (List Char × List Char)
  | _, [] => none
  | BlockState.code d, c :: cs =>
    if c = '}' then
      if d ≤ 1 then some ([], cs)
      else (blockScan (BlockState.code (d - 1)) cs).map fun r => (c :: r.1, r.2)
    else if c = '{' then (blockScan (BlockState.code (d + 1)) cs).map fun r => (c :: r.1, r.2)
    else if c = '\'' ∨ c = '"' then
      (blockScan (BlockState.quote d c false) cs).map fun r => (c :: r.1, r.2)
    else (blockScan (BlockState.code d) cs).map fun r => (c :: r.1, r.2)
  | BlockState.quote d q esc, c :: cs =>
    if esc then (blockScan (BlockState.quote d q false) cs).map fun r => (c :: r.1, r.2)
    else if c = q then (blockScan (BlockState.code d) cs).map fun r => (c :: r.1, r.2)
    else
      (blockScan (BlockState.quote d q (decide (c = '\\'))) cs).map fun r => (c :: r.1, r.2)

/-- The scan of `blockScan` read the way the claim words it: in a quoted region a quote `q`
closes the region unless the codepoint just before it is a backslash (`prev` is the previous
codepoint of the region, if any). -/
def blockScanLiteral : Nat → Option (Char × Option Char) → List Char →
    Option (List Char × List Char)
  | _, _, [] => none
  | d, none, c :: cs =>
    if c = '}' then
      if d ≤ 1 then some ([], cs)
      else (blockScanLiteral (d - 1) none cs).map fun r => (c :: r.1, r.2)
    else if c = '{' then (blockScanLiteral (d + 1) none cs).map fun r => (c :: r.1, r.2)
    else if c = '\'' ∨ c = '"' then
      (blockScanLiteral d (some (c, none)) cs).map fun r => (c :: r.1, r.2)
    else (blockScanLiteral d none cs).map fun r => (c :: r.1, r.2)
  | d, some (q, prev), c :: cs =>
    if c = q ∧ prev ≠ some '\\' then (blockScanLiteral d none cs).map fun r => (c :: r.1, r.2)
    else (blockScanLiteral d (some (q, some c)) cs).map fun r => (c :: r.1, r.2)

/-- The content of a quoted region up to its closing quote `q`, and the input behind that
quote. -/
def quoteSplit (q : Char) : Bool → List Char → Option (List Char × List Char)
  | _, [] => none
  | esc, c :: cs =>
    if esc then (quoteSplit q false cs).map fun r => (c :: r.1, r.2)
    else if c = q then some ([], cs)
    else (quoteSplit q (decide (c = '\\')) cs).map fun r => (c :: r.1, r.2)

/-- Number of newlines in a text. -/
def countNL (l : List Char) : Nat := (l.filter (fun c => c = '\n')).length

/-- The machine after the tokenizer has read `consumed` from the reader, appended it to the
token and counted its newlines, with `rest` left to read and nothing pushed back. -/
def Machine.advance (m : Machine) (consumed rest : List Char) : Machine :=
  { m with
    lemon := { m.lemon with
      runeBuf := ⟨rest, noRune⟩
      lineno := m.lemon.lineno + countNL consumed }
    token := ⟨m.token.buffer ++ consumed⟩ }

/-- The reader of the machine holds `cs` and nothing is pushed back. -/
def Machine.reads (m : Machine) (cs : List Char) : Prop :=
  m.lemon.runeBuf = ⟨cs, noRune⟩

/-- `ps.startTokLineno = lemon.lineno`. -/
def Machine.startTok (m : Machine) : Machine :=
  { m with ps := { m.ps with startTokLineno := m.lemon.lineno } }

/-- The message of `Parse` for a code block that is not closed. -/
def codeNotTerminated : String :=
  "Code starting on this line is not terminated before the end of the file."

/-! ## Identifier tokens -/

/-- The codepoint may continue an identifier: alphanumeric or `_`. -/
def identRune (u : UnicodeTables) (c : Char) : Bool :=
  util.IsAlphaNum u (some c) || decide (c = '_')

/-- The codepoint starts an identifier token: it is alphanumeric and is none of the
codepoints the main loop of `Parse` treats before it looks for an identifier (as no letter or
digit of Unicode is). -/
def identStart (u : UnicodeTables) (c : Char) : Prop :=
  util.IsAlphaNum u (some c) = true ∧ util.IsSpace (some c) = false
    ∧ c ≠ '/' ∧ c ≠ '\'' ∧ c ≠ '<' ∧ c ≠ '{'

/-- The rune the next `GetRune` returns once `scanToken` has assembled its first token from
the input. -/
def runeAfterFirstToken (input : String) : Option (Option Char) :=
  match scanToken asciiTables (input.data.length + 2)
      ⟨NewLemon "in.y" "in.go" input.data, NewParserState, NewToken, []⟩ with
  | Step.ok (Scanned.token, m) => some m.getRune.1
  | _ => none

/-! ## Line numbers and the tokens handed to the parser -/

/-- The rule without its line numbers. -/
def Rule.noLines (r : Rule) : Rule := { r with ruleLineno := 0, line := 0 }

/-- The machine without its line numbers: the line counter of the tokenizer, the line of
the token in hand, the line of the `%union` code and the lines of the rules. -/
def Machine.noLines (m : Machine) : Machine :=
  { m with
    lemon := { m.lemon with lineno := 0 }
    ps := { m.ps with
      unionCodeLineno := 0
      startTokLineno := 0
      rules := m.ps.rules.map Rule.noLines } }

/-- The outcome without line numbers: `f` removes them from a returned value. -/
def Step.noLines {α : Type} (f : α → α) : Step α → Step α
  | Step.ok a => Step.ok (f a)
  | Step.exit d m => Step.exit { d with lineno := 0 } m.noLines
  | Step.panic msg => Step.panic msg
  | Step.stall => Step.stall

/-- Removes the line numbers from a machine returned along with a value. -/
def pairNoLines {α : Type} (r : α × Machine) : α × Machine := (r.1, r.2.noLines)
/-- The runes the buffer has still to deliver: the rune pushed back, if any, then the
reader; nothing once `EOF` was pushed back. -/
def RuneBuffer.pending (runeBuf : RuneBuffer) : List Char :=
  if runeBuf.peekRune = noRune then runeBuf.reader
  else
    match runeBuf.peekRune with
    | none => []
    | some c => c :: runeBuf.reader

/-- Number of runes the tokenizer has still to get. -/
def Machine.left (m : Machine) : Nat := m.lemon.runeBuf.pending.length
/-- The text contains `*/`, the closer of a block comment. -/
def hasCloser : List Char → Bool
  | [] => false
  | c :: cs => (decide (c = '*') && decide (cs.head? = some '/')) || hasCloser cs

/-- The machine with `rest` left to read, nothing pushed back, and the line counter at
`line`. -/
def Machine.skipTo (m : Machine) (rest : List Char) (line : Nat) : Machine :=
  { m with lemon := { m.lemon with runeBuf := ⟨rest, noRune⟩, lineno := line } }

/-- The machine with another rune buffer. -/
def Machine.withBuffer (m : Machine) (runeBuf : RuneBuffer) : Machine :=
  { m with lemon := { m.lemon with runeBuf := runeBuf } }
/-- The run came to an end: the model did not use up its fuel. -/
def Step.finished {α : Type} (s : Step α) : Prop :=
  match s with
  | Step.stall => False
  | _ => True
/-- Two runs come to an end, hand the same tokens to the parser and end the same way: both
return, or both end in `errorf` with the same message. -/
def sameRun (s1 s2 : Step Machine) : Prop :=
  s1.finished ∧ s2.finished ∧ fedOf s1 = fedOf s2
    ∧ (diagOf s1).map Diag.format = (diagOf s2).map Diag.format
    ∧ s1.returned = s2.returned
/-- The run did not panic. -/
def Step.calm {α : Type} (s : Step α) : Prop :=
  match s with
  | Step.panic _ => False
  | _ => True

/-! ## Code blocks with comments -/

/-- Where a scan through a code block stands when comments are followed too: in code at
nesting depth `depth`; inside a region quoted by `q`, `escaped` telling whether the next
codepoint is escaped by a backslash; right behind a `/` read in code, where a comment has to
start; inside a `//` comment; inside a `/* */` comment, `star` telling whether the previous
codepoint of the comment is `*`. -/
inductive CodeState where
  | code (depth : Nat)
  | quote (depth : Nat) (q : Char) (escaped : Bool)
  | slash (depth : Nat)
  | line (depth : Nat)
  | block (depth : Nat) (star : Bool)

/-- How the scan of the input behind an opening brace ends: at the closing brace, with
`rest` behind it; at the end of the input in the code or in a quoted region of the block; at
a `/` of the code that starts no comment; at the end of the input inside a comment. -/
inductive BlockEnd where
  | closed (rest : List Char)
  | notClosed
  | illegalComment
  | commentNotClosed
  deriving DecidableEq

/-- Scan the input that follows an opening brace, codepoint by codepoint.  In code, `{` raises
the depth, `}` lowers it and closes the block when the depth is back to zero, a quote opens a
quoted region and `/` has to start a comment: `//` up to the next newline, `/*` up to the
next `*/`.  In a quoted region an escaped codepoint is skipped over, an unescaped backslash
escapes the next codepoint, the unescaped quote `q` closes the region, and `/` starts no
comment. -/
def blockEnd : CodeState → List Char → BlockEnd
  | CodeState.code _, [] => BlockEnd.notClosed
  | CodeState.quote _ _ _, [] => BlockEnd.notClosed
  | CodeState.slash _, [] => BlockEnd.illegalComment
  | CodeState.line _, [] => BlockEnd.commentNotClosed
  | CodeState.block _ _, [] => BlockEnd.commentNotClosed
  | CodeState.code d, c :: cs =>
    if c = '}' then
      if d ≤ 1 then BlockEnd.closed cs else blockEnd (CodeState.code (d - 1)) cs
    else if c = '{' then blockEnd (CodeState.code (d + 1)) cs
    else if c = '/' then blockEnd (CodeState.slash d) cs
    else if c = '\'' ∨ c = '"' then blockEnd (CodeState.quote d c false) cs
    else blockEnd (CodeState.code d) cs
  | CodeState.quote d q esc, c :: cs =>
    if esc then blockEnd (CodeState.quote d q false) cs
    else if c = q then blockEnd (CodeState.code d) cs
    else blockEnd (CodeState.quote d q (decide (c = '\\'))) cs
  | CodeState.slash d, c :: cs =>
    if c = '/' then blockEnd (CodeState.line d) cs
    else if c = '*' then blockEnd (CodeState.block d false) cs
    else BlockEnd.illegalComment
  | CodeState.line d, c :: cs =>
    if c = '\n' then blockEnd (CodeState.code d) cs else blockEnd (CodeState.line d) cs
  | CodeState.block d star, c :: cs =>
    if star = true ∧ c = '/' then blockEnd (CodeState.code d) cs
    else blockEnd (CodeState.block d (decide (c = '*'))) cs

/-- The outcome `s` of the code-block loop, entered at line `line` with `cs` to read, is the
one that goes with the end `e` of the scan: the closing brace with the rest left to read; the
end of the input, every newline counted; or the fatal error of the comment. -/
def CodeEnds (line : Nat) (cs : List Char) (e : BlockEnd) (s : Step (Option Char × Machine)) :
    Prop :=
  match e with
  | BlockEnd.closed rest => ∃ m1, s = Step.ok (some '}', m1) ∧ m1.reads rest
  | BlockEnd.notClosed =>
    ∃ m1, s = Step.ok (none, m1) ∧ m1.lemon.lineno = line + countNL cs
  | BlockEnd.illegalComment => ∃ d m1, s = Step.exit d m1 ∧ d.format = "Illegal comment: `%q`"
  | BlockEnd.commentNotClosed => ∃ d m1, s = Step.exit d m1 ∧ d.format = "EOF inside comment."

/-- The state of the scan with comments that goes with a state of `blockScan`. -/
def BlockState.withComments : BlockState → CodeState
  | BlockState.code d => CodeState.code d
  | BlockState.quote d q esc => CodeState.quote d q esc

/-! ## Symbol definitions in a run -/

/-- `parseOneToken` stands at one of its two calls of `defineSymbol`: in
`WaitOptTagOrOpenBrace` when the keyword is not `%union` and the token is no type tag, and in
`WaitSymbolAfterKeyword` when the token is no `%`. -/
def callsDefineSymbol (m : Machine) : Bool :=
  match m.token.FirstRune, m.token.LastRune with
  | some fstRune, some _ =>
    match m.ps.curState with
    | FsmState.WaitOptTagOrOpenBrace =>
      decide (m.ps.prevKeyword ≠ Keyword.KwUnion) && decide (fstRune ≠ '<')
    | FsmState.WaitSymbolAfterKeyword => decide (fstRune ≠ '%')
    | _ => false
  | _, _ => false

/-- The machine states reachable from a state `Parse` starts in by feeding non-empty tokens
to `parseOneToken`, each call returning normally, together with the number of calls of
`defineSymbol` under `%left`, `%right` or `%nonassoc` that returned on the way. -/
inductive ReachableCounting (u : UnicodeTables) : Machine → Nat → Prop where
  | init (infile outfile : String) (input : List Char) :
      ReachableCounting u ⟨NewLemon infile outfile input, NewParserState, NewToken, []⟩ 0
  | feed {m m1 : Machine} {k : Nat} (tok : Token) (line errs : Nat) (rb : RuneBuffer)
      (lineno : Nat) (fed : List String) (hm : ReachableCounting u m k)
      (hne : tok.buffer ≠ [])
      (h : parseOneToken u (m.present tok line errs rb lineno fed) = Step.ok m1) :
      ReachableCounting u m1
        (if callsDefineSymbol (m.present tok line errs rb lineno fed) = true
            ∧ m.ps.prevKeyword.isPrec = true then k + 1 else k)

/-! ## Theorems -/

/-! ### C9: precedence of a new symbol -/

/-- C9 (code disagrees): `NewSymbol` leaves `precedence` at Go's zero value, so every new
symbol, and the symbol a first `Insert` stores, has precedence `0`, not `-1`, and passes the
test `precedence >= 0` of the back-fill. -/
theorem C9_new_symbol_precedence_is_zero (u : UnicodeTables) (name : String) :
    (NewSymbol u name).precedence = 0
    ∧ (NewSymbol u name).precedence ≠ -1
    ∧ ((NewSymbolTable.Insert u name).2.store (NewSymbolTable.Insert u name).1).precedence = 0
    ∧ updatePrecedenceLoop (NewSymbolTable.Insert u name).2.store
        [(NewSymbolTable.Insert u name).1] none = some (NewSymbolTable.Insert u name).1 := by
  refine ⟨rfl, by simp [NewSymbol], ?_, ?_⟩
  · simp [SymbolTable.Insert, SymbolTable.Get, NewSymbolTable, NewSymbol]
  · simp [SymbolTable.Insert, SymbolTable.Get, NewSymbolTable, NewSymbol, updatePrecedenceLoop]

/-! ### C8: precedence back-fill -/

/-- C8 (code disagrees): for `e : e PLUS e ; e : MINUS e %prec UMINUS ;` with
`%left PLUS MINUS UMINUS`, `updateRulePrecedences` leaves the rule without `%prec` without a
precedence symbol and replaces the explicit `UMINUS` of the other rule by `MINUS`: the test
`rp.precSym == nil` skips exactly the rules the back-fill is meant for. -/
theorem C8_backfill_skips_rules_without_prec :
    ruleNamesOf (parseText
        "%{ %} %left PLUS MINUS UMINUS %type e %% e : e PLUS e ; e : MINUS e %prec UMINUS ;")
      = [("e", ["e", "PLUS", "e"], none), ("e", ["MINUS", "e"], some "UMINUS")]
    ∧ ((machineOf (parseText
        "%{ %} %left PLUS MINUS UMINUS %type e %% e : e PLUS e ; e : MINUS e %prec UMINUS ;")).map
        fun m => (updateRulePrecedences m).ruleNames)
      = some [("e", ["e", "PLUS", "e"], none), ("e", ["MINUS", "e"], some "MINUS")] := by
  decide!

/-! ### C1, C3: first sets -/

/-- C1 (code disagrees): for `e : e '+' t | t ; t : NUM ;` the single pass of
`computeFirstSets` leaves `first(e)` empty while `first(t) = {index of NUM}`, and the result
is not a fixed point: `computeFirstSet` on the rule `e -> t` afterwards reports a change. -/
theorem C1_first_sets_single_pass :
    (symbolOf (parseText "%{ %} %token NUM '+' %type e t %% e : e '+' t | t ; t : NUM ;")
        "NUM").map (fun s => s.index) = some 1
    ∧ (symbolOf (parseText "%{ %} %token NUM '+' %type e t %% e : e '+' t | t ; t : NUM ;")
        "t").map (fun s => s.firstset) = some {1}
    ∧ (symbolOf (parseText "%{ %} %token NUM '+' %type e t %% e : e '+' t | t ; t : NUM ;")
        "e").map (fun s => s.firstset) = some ∅
    ∧ ruleNamesOf (parseText "%{ %} %token NUM '+' %type e t %% e : e '+' t | t ; t : NUM ;")
        = [("e", ["e", "'+'", "t"], none), ("e", ["t"], none), ("t", ["NUM"], none)]
    ∧ (machineOf (parseText
        "%{ %} %token NUM '+' %type e t %% e : e '+' t | t ; t : NUM ;")).map
        (fun m => m.ps.rules.map (fun r => (r.computeFirstSet m.ps.symTable).1))
        = some [false, true, false] := by
  decide!

/-- C3 (code disagrees): for `a : | b ; b : 'x' ;` the analysis makes `a` nullable but leaves
`first(a)` empty, although `first(b) = {index of 'x'}`: the rule `a -> b` is visited once,
before `first(b)` is filled. -/
theorem C3_epsilon_grammar_first_set_empty :
    ruleNamesOf (parseText "%{ %} %token 'x' %type a b %% a : | b ; b : 'x' ;")
        = [("a", ["b"], none), ("b", ["'x'"], none)]
    ∧ (symbolOf (parseText "%{ %} %token 'x' %type a b %% a : | b ; b : 'x' ;") "'x'").map
        (fun s => s.index) = some 0
    ∧ (symbolOf (parseText "%{ %} %token 'x' %type a b %% a : | b ; b : 'x' ;") "a").map
        (fun s => (s.nullable, s.firstset)) = some (true, ∅)
    ∧ (symbolOf (parseText "%{ %} %token 'x' %type a b %% a : | b ; b : 'x' ;") "b").map
        (fun s => (s.nullable, s.firstset)) = some (false, {0}) := by
  decide!

theorem defineSymbol_ps {u : UnicodeTables} {m : Machine} {n : String} {r : SymPtr × Machine}
    (h : defineSymbol u m n = Step.ok r) :
    r.2.ps.rules = m.ps.rules ∧ r.2.ps.prevRule = m.ps.prevRule
      ∧ r.2.ps.curState = m.ps.curState ∧ r.2.fed = m.fed ∧ r.2.lemon = m.lemon := by
  unfold defineSymbol at h
  simp only [errorf] at h
  split at h <;> (try split at h) <;> simp at h <;> subst h <;> simp [Machine.setTable]

theorem defineSymbol_no_panic (u : UnicodeTables) (m : Machine) (n msg : String) :
    defineSymbol u m n ≠ Step.panic msg := by
  unfold defineSymbol
  simp only [errorf]
  split <;> (try split) <;> simp

theorem token_runes_some {tok : Token} (h : tok.buffer ≠ []) :
    ∃ a b, tok.FirstRune = some a ∧ tok.LastRune = some b := by
  obtain ⟨buf⟩ := tok
  simp only at h
  have hl : 0 < buf.length := List.length_pos.mpr h
  refine ⟨buf[0], buf[buf.length - 1], ?_, ?_⟩
  · simp [Token.FirstRune, Token.NthRune, hl, h]
  · simp only [Token.LastRune, Token.NthRune, Token.RuneCount]
    have h1 : ¬ ((buf.length : Int) - 1 < 0 ∨ (buf.length : Int) - 1 ≥ (buf.length : Int)) := by omega
    rw [if_neg h1]
    have h2 : ((buf.length : Int) - 1).toNat = buf.length - 1 := by omega
    rw [h2]
    exact List.getElem?_eq_getElem _

theorem onPrevRule_panic {m : Machine} {f : Rule → Rule} {msg : String}
    (h : m.onPrevRule f = Step.panic msg) : msg = "nil pointer dereference" := by
  unfold Machine.onPrevRule at h
  split at h
  · simp at h; exact h.symm
  · split at h
    · simp at h; exact h.symm
    · simp at h

theorem bind_panic {α β : Type} {s : Step α} {f : α → Step β} {msg : String}
    (h : s.bind f = Step.panic msg) :
    s = Step.panic msg ∨ ∃ a, s = Step.ok a ∧ f a = Step.panic msg := by
  cases s <;> simp_all [Step.bind]

theorem brace_token_second_last {tok : Token} (ha : tok.FirstRune = some '{')
    (hb : tok.LastRune = some '}') :
    2 ≤ tok.RuneCount ∧ ∃ r, tok.NthRune ((tok.RuneCount : Int) - 2) = some r := by
  obtain ⟨buf⟩ := tok
  simp only [Token.FirstRune, Token.LastRune, Token.NthRune, Token.RuneCount] at *
  have hl : 2 ≤ buf.length := by
    match buf, ha, hb with
    | [], ha, _ => simp at ha
    | [c], ha, hb => simp at ha hb; rw [ha] at hb; exact absurd hb (by decide)
    | _ :: _ :: _, _, _ => simp
  refine ⟨hl, buf[buf.length - 2], ?_⟩
  have h1 : ¬ ((buf.length : Int) - 2 < 0 ∨ (buf.length : Int) - 2 ≥ (buf.length : Int)) := by
    omega
  rw [if_neg h1]
  have h2 : ((buf.length : Int) - 2).toNat = buf.length - 2 := by omega
  rw [h2]
  exact List.getElem?_eq_getElem _

theorem parseOneToken_panic_msg {u : UnicodeTables} {m : Machine} {msg : String}
    (hne : m.token.buffer ≠ []) (h : parseOneToken u m = Step.panic msg) :
    msg = "nil pointer dereference" := by
  obtain ⟨a, b, ha, hb⟩ := token_runes_some hne
  unfold parseOneToken at h
  simp only [ha, hb] at h
  cases hs : m.ps.curState <;> simp only [hs] at h
  case WaitOpenBrace =>
    split at h
    · simp [errorf] at h
    · rename_i hc
      have hab : a = '{' ∧ b = '}' := by
        constructor <;> by_contra hx <;> simp [hx] at hc
      obtain ⟨hc2, r, hr⟩ := brace_token_second_last (hab.1 ▸ ha) (hab.2 ▸ hb)
      simp only [hr] at h
      split at h
      · simp [errorf] at h
      · split at h
        · omega
        · simp at h
  all_goals
    first
    | (repeat' split at h) <;> first
        | (simp [errorf] at h; done)
        | exact onPrevRule_panic h
        | exact (Step.panic.inj h).symm
        | (obtain h1 | ⟨x, _, h1⟩ := bind_panic h
           · first
             | exact absurd h1 (defineSymbol_no_panic _ _ _ _)
             | exact onPrevRule_panic h1
           · simp at h1)

theorem bind_ok {α β : Type} {s : Step α} {f : α → Step β} {b : β}
    (h : s.bind f = Step.ok b) : ∃ a, s = Step.ok a ∧ f a = Step.ok b := by
  cases s <;> simp_all [Step.bind]

theorem onPrevRule_ok {m m1 : Machine} {f : Rule → Rule} (h : m.onPrevRule f = Step.ok m1) :
    m1.ps.rules.length = m.ps.rules.length ∧ m1.ps.prevRule = m.ps.prevRule
      ∧ m1.ps.curState = m.ps.curState ∧ m1.lemon = m.lemon ∧ m1.fed = m.fed
      ∧ m1.ps.symTable = m.ps.symTable := by
  unfold Machine.onPrevRule at h
  split at h
  · simp at h
  · split at h
    · simp at h
    · simp at h; subst h; simp

theorem parseOneToken_prevRuleLast {u : UnicodeTables} {m m1 : Machine} (hm : PrevRuleLast m)
    (h : parseOneToken u m = Step.ok m1) : PrevRuleLast m1 := by
  unfold parseOneToken at h
  cases ha : m.token.FirstRune with
  | none => simp [ha] at h
  | some a =>
    cases hb : m.token.LastRune with
    | none => simp [ha, hb] at h
    | some b =>
      simp only [ha, hb] at h
      cases hs : m.ps.curState <;> simp only [hs] at h <;>
        simp only [PrevRuleLast, hs, FsmState.inRule] at hm
      all_goals
        (repeat' split at h) <;> first
          | (simp [errorf] at h; done)
          | (simp only [Step.ok.injEq] at h; subst h
             simp_all [PrevRuleLast, FsmState.inRule, Machine.setState, Machine.setTable,
               Machine.addRule, Machine.appendRule]; done)
          | (obtain ⟨h1, h2, h3, -⟩ := onPrevRule_ok h
             simp_all [PrevRuleLast, FsmState.inRule]; done)
          | (obtain ⟨x, hx, h1⟩ := bind_ok h
             simp only [Step.ok.injEq] at h1; subst h1
             first
             | (simp [PrevRuleLast, FsmState.inRule]; done)
             | (obtain ⟨h1, h2, h3, -⟩ := defineSymbol_ps hx
                simp_all [PrevRuleLast, FsmState.inRule, Machine.setState]; done)
             | (obtain ⟨h1, h2, h3, -⟩ := onPrevRule_ok hx
                simp_all [PrevRuleLast, FsmState.inRule, Machine.setState]; done))

theorem reachable_prevRuleLast {u : UnicodeTables} {m : Machine} (hm : Reachable u m) :
    PrevRuleLast m := by
  induction hm with
  | init infile outfile input => simp [PrevRuleLast, NewParserState, FsmState.inRule]
  | feed tok line errs rb lineno fed _ _ h ih =>
    exact parseOneToken_prevRuleLast (by simpa [PrevRuleLast, Machine.present] using ih) h

theorem prevRuleVal_of_last {m : Machine}
    (h : ∃ p, m.ps.prevRule = some p ∧ p + 1 = m.ps.rules.length) :
    ∃ rule, m.prevRuleVal = some rule := by
  obtain ⟨p, hp, hl⟩ := h
  have hlt : p < m.ps.rules.length := by rw [← hl]; exact Nat.lt_succ_self p
  exact ⟨m.ps.rules[p], by simp [Machine.prevRuleVal, hp, List.getElem?_eq_getElem hlt]⟩

theorem onPrevRule_of_last {m : Machine} (f : Rule → Rule)
    (h : ∃ p, m.ps.prevRule = some p ∧ p + 1 = m.ps.rules.length) :
    ∃ m1, m.onPrevRule f = Step.ok m1 := by
  obtain ⟨p, hp, hl⟩ := h
  have hlt : p < m.ps.rules.length := by rw [← hl]; exact Nat.lt_succ_self p
  simp [Machine.onPrevRule, hp, List.getElem?_eq_getElem hlt]

theorem parseOneToken_no_panic {u : UnicodeTables} {m : Machine} (hm : PrevRuleLast m)
    (hne : m.token.buffer ≠ []) (msg : String) : parseOneToken u m ≠ Step.panic msg := by
  intro h
  have hmsg := parseOneToken_panic_msg hne h
  obtain ⟨a, b, ha, hb⟩ := token_runes_some hne
  unfold parseOneToken at h
  simp only [ha, hb] at h
  cases hs : m.ps.curState <;> simp only [hs] at h <;>
    simp only [PrevRuleLast, hs, FsmState.inRule] at hm
  case WaitOpenBrace =>
    split at h
    · simp [errorf] at h
    · rename_i hc
      have hab : a = '{' ∧ b = '}' := by
        constructor <;> by_contra hx <;> simp [hx] at hc
      obtain ⟨hc2, r, hr⟩ := brace_token_second_last (hab.1 ▸ ha) (hab.2 ▸ hb)
      simp only [hr] at h
      split at h
      · simp [errorf] at h
      · split at h
        · omega
        · simp at h
  all_goals
    first
    | (repeat' split at h) <;> first
        | (simp [errorf] at h; done)
        | (obtain ⟨r, hr⟩ := prevRuleVal_of_last (hm trivial); simp_all; done)
        | (obtain ⟨m2, h2⟩ := onPrevRule_of_last _ (hm trivial); rw [h2] at h; simp at h; done)
        | (obtain h1 | ⟨x, _, h1⟩ := bind_panic h
           · first
             | exact absurd h1 (defineSymbol_no_panic _ _ _ _)
             | (obtain ⟨m2, h2⟩ := onPrevRule_of_last _ (hm trivial); rw [h2] at h1
                simp at h1; done)
           · simp at h1)

theorem returned_eq_ok {s : Step Machine} (h : s.returned = true) : s = Step.ok s.machine := by
  cases s <;> simp_all [Step.returned, Step.machine]

theorem reachable_feedAll {u : UnicodeTables} {toks : List String} {m m1 : Machine}
    (hm : Reachable u m) (hne : ∀ t ∈ toks, t.data ≠ []) (h : feedAll u toks m = Step.ok m1) :
    Reachable u m1 := by
  induction toks generalizing m with
  | nil => simp [feedAll] at h; exact h ▸ hm
  | cons t ts ih =>
    simp only [feedAll] at h
    obtain ⟨m2, h2, h3⟩ := bind_ok h
    exact ih (Reachable.feed _ _ _ _ _ _ hm (hne t (List.mem_cons_self _ _)) h2)
      (fun t' ht' => hne t' (List.mem_cons_of_mem _ ht')) h3

/-! ### C31: the rule under construction -/

/-- C31: in every machine state reachable by feeding non-empty tokens to `parseOneToken`, if
the FSM state is `WaitColon`, `WaitRuleRhsSymbol`, `WaitPrecedence`, `WaitPrecedenceTerm` or
`WaitSymbolAfterPrec`, then `prevRule` is not nil and is the last rule of the sequence; and
from a reachable state no call of `parseOneToken` on a non-empty token panics, in particular
none dereferences a nil rule. -/
theorem C31_prev_rule_present (u : UnicodeTables) (m : Machine) (hm : Reachable u m) :
    (m.ps.curState.inRule = true →
        ∃ p rule, m.ps.prevRule = some p ∧ p + 1 = m.ps.rules.length
          ∧ m.prevRuleVal = some rule)
    ∧ ∀ (tok : Token) (line errs : Nat) (rb : RuneBuffer) (lineno : Nat) (fed : List String),
        tok.buffer ≠ [] →
        ∀ msg, parseOneToken u (m.present tok line errs rb lineno fed) ≠ Step.panic msg := by
  have hinv := reachable_prevRuleLast hm
  constructor
  · intro hr
    obtain ⟨p, hp, hl⟩ := hinv hr
    obtain ⟨rule, hrule⟩ := prevRuleVal_of_last ⟨p, hp, hl⟩
    exact ⟨p, rule, hp, hl, hrule⟩
  · intro tok line errs rb lineno fed hne msg
    exact parseOneToken_no_panic (by simpa [PrevRuleLast, Machine.present] using hinv)
      (by simpa [Machine.present] using hne) msg

/-- C31 at the state reached after the tokens `%`, `{%}`, `%`, `%`, `e`, `:`, which is
`WaitRuleRhsSymbol` with one rule. -/
theorem C31_prev_rule_present_witness :
    ((feedAll asciiTables ["%", "\x7b%\x7d", "%", "%", "e", ":"] startMachine).machine.ps.curState
        = FsmState.WaitRuleRhsSymbol)
    ∧ ((feedAll asciiTables ["%", "\x7b%\x7d", "%", "%", "e", ":"]
          startMachine).machine.ps.curState.inRule = true →
        ∃ p rule,
          (feedAll asciiTables ["%", "\x7b%\x7d", "%", "%", "e", ":"]
            startMachine).machine.ps.prevRule = some p
          ∧ p + 1 = (feedAll asciiTables ["%", "\x7b%\x7d", "%", "%", "e", ":"]
            startMachine).machine.ps.rules.length
          ∧ (feedAll asciiTables ["%", "\x7b%\x7d", "%", "%", "e", ":"]
            startMachine).machine.prevRuleVal = some rule) :=
  ⟨by decide!,
   (C31_prev_rule_present asciiTables _
      (reachable_feedAll (Reachable.init "in.y" "in.go" []) (by decide)
        (returned_eq_ok (by decide!)))).1⟩

theorem Scans.refl (m : Machine) : Scans m m :=
  ⟨rfl, rfl, rfl, rfl, ⟨m.ps.errorCnt, m.ps.startTokLineno, rfl⟩, ⟨[], by simp⟩⟩

theorem Scans.trans {a b c : Machine} (h1 : Scans a b) (h2 : Scans b c) : Scans a c := by
  obtain ⟨f1, n1, i1, o1, ⟨e1, l1, p1⟩, ⟨s1, t1⟩⟩ := h1
  obtain ⟨f2, n2, i2, o2, ⟨e2, l2, p2⟩, ⟨s2, t2⟩⟩ := h2
  refine ⟨f2.trans f1, n2.trans n1, i2.trans i1, o2.trans o1, ⟨e2, l2, ?_⟩, ⟨s1 ++ s2, ?_⟩⟩
  · rw [p2, p1]
  · rw [t2, t1, List.append_assoc]

theorem Scans.getRune (m : Machine) : Scans m m.getRune.2 :=
  ⟨rfl, rfl, rfl, rfl, ⟨m.ps.errorCnt, m.ps.startTokLineno, rfl⟩, ⟨[], by simp [Machine.getRune]⟩⟩

theorem Scans.append (m : Machine) (c : Char) : Scans m (m.append c) :=
  ⟨rfl, rfl, rfl, rfl, ⟨m.ps.errorCnt, m.ps.startTokLineno, rfl⟩,
    ⟨[c], by simp [Machine.append, Token.AppendRune]⟩⟩

theorem Scans.incLine (m : Machine) : Scans m m.incLine :=
  ⟨rfl, rfl, rfl, rfl, ⟨m.ps.errorCnt, m.ps.startTokLineno, rfl⟩, ⟨[], by simp [Machine.incLine]⟩⟩

theorem Scans.countLine (m : Machine) (c : Char) : Scans m (m.countLine c) := by
  unfold Machine.countLine
  split
  · exact Scans.incLine m
  · exact Scans.refl m

theorem Scans.incErr (m : Machine) : Scans m m.incErr :=
  ⟨rfl, rfl, rfl, rfl, ⟨m.ps.errorCnt + 1, m.ps.startTokLineno, rfl⟩, ⟨[], by simp [Machine.incErr]⟩⟩

theorem Scans.startLine (m : Machine) (l : Nat) :
    Scans m { m with ps := { m.ps with startTokLineno := l } } :=
  ⟨rfl, rfl, rfl, rfl, ⟨m.ps.errorCnt, l, rfl⟩, ⟨[], by simp⟩⟩

theorem holds_bind {α β : Type} {s : Step α} {f : α → Step β} {P : α → Prop}
    {R : β → Prop} {Q : Machine → Prop} (hs : s.holds P Q)
    (hf : ∀ a, P a → (f a).holds R Q) : (s.bind f).holds R Q := by
  cases s with
  | ok a => exact hf a hs
  | exit d m => exact hs
  | panic msg => trivial
  | stall => trivial

theorem holds_mono {α : Type} {s : Step α} {P R : α → Prop} {Q S : Machine → Prop}
    (hs : s.holds P Q) (hp : ∀ a, P a → R a) (hq : ∀ m, Q m → S m) : s.holds R S := by
  cases s with
  | ok a => exact hp a hs
  | exit d m => exact hq m hs
  | panic msg => trivial
  | stall => trivial

theorem lineCommentLoop_scans (fuel : Nat) (cur : Option Char) (m : Machine) :
    (lineCommentLoop fuel cur m).holds (Scans m) (Scans m) := by
  induction fuel generalizing cur m with
  | zero => trivial
  | succ n ih =>
    unfold lineCommentLoop
    split
    · exact Scans.refl m
    · split
      · exact Scans.incLine m
      · exact holds_mono (ih _ _) (fun _ h => (Scans.getRune m).trans h)
          (fun _ h => (Scans.getRune m).trans h)

theorem blockCommentLoop_scans (fuel : Nat) (prev : Option Char) (m : Machine) :
    (blockCommentLoop fuel prev m).holds (Scans m) (Scans m) := by
  induction fuel generalizing prev m with
  | zero => trivial
  | succ n ih =>
    unfold blockCommentLoop
    simp only
    split
    · exact Scans.getRune m
    · split
      · exact holds_mono (ih _ _) (fun _ h => ((Scans.getRune m).trans (Scans.countLine _ _)).trans h)
          (fun _ h => ((Scans.getRune m).trans (Scans.countLine _ _)).trans h)
      · exact Scans.getRune m

theorem skipComment_scans (fuel : Nat) (m : Machine) :
    (skipComment fuel m).holds (Scans m) (Scans m) := by
  unfold skipComment
  simp only
  split
  · exact holds_mono (lineCommentLoop_scans _ _ _) (fun _ h => (Scans.getRune m).trans h)
      (fun _ h => (Scans.getRune m).trans h)
  · split
    · exact Scans.getRune m
    · exact holds_mono (blockCommentLoop_scans _ _ _) (fun _ h => (Scans.getRune m).trans h)
        (fun _ h => (Scans.getRune m).trans h)

theorem untilLoop_scans (fuel : Nat) (stop : Char) (m : Machine) :
    (untilLoop fuel stop m).holds (fun r => Scans m r.2) (Scans m) := by
  induction fuel generalizing m with
  | zero => trivial
  | succ n ih =>
    unfold untilLoop
    simp only
    split
    · exact Scans.getRune m
    · split
      · exact holds_mono (ih _)
          (fun _ h => ((Scans.getRune m).trans (Scans.append _ _)).trans h)
          (fun _ h => ((Scans.getRune m).trans (Scans.append _ _)).trans h)
      · exact Scans.getRune m

theorem identLoop_scans (u : UnicodeTables) (fuel : Nat) (m : Machine) :
    (identLoop u fuel m).holds (fun r => Scans m r.2) (Scans m) := by
  induction fuel generalizing m with
  | zero => trivial
  | succ n ih =>
    unfold identLoop
    simp only
    split
    · exact Scans.getRune m
    · split
      · exact holds_mono (ih _)
          (fun _ h => ((Scans.getRune m).trans (Scans.append _ _)).trans h)
          (fun _ h => ((Scans.getRune m).trans (Scans.append _ _)).trans h)
      · exact Scans.getRune m

theorem codeQuoteLoop_scans (fuel : Nat) (e : Char) (prev : Option Char) (m : Machine) :
    (codeQuoteLoop fuel e prev m).holds (fun r => Scans m r.2) (Scans m) := by
  induction fuel generalizing prev m with
  | zero => trivial
  | succ n ih =>
    unfold codeQuoteLoop
    simp only
    split
    · exact Scans.getRune m
    · split
      · exact holds_mono (ih _ _)
          (fun _ h => (((Scans.getRune m).trans (Scans.append _ _)).trans
            (Scans.countLine _ _)).trans h)
          (fun _ h => (((Scans.getRune m).trans (Scans.append _ _)).trans
            (Scans.countLine _ _)).trans h)
      · exact Scans.getRune m

theorem codeLoop_scans (fuel : Nat) (level : Nat) (m : Machine) :
    (codeLoop fuel level m).holds (fun r => Scans m r.2) (Scans m) := by
  induction fuel generalizing level m with
  | zero => trivial
  | succ n ih =>
    unfold codeLoop
    simp only
    have h1 : ∀ c, Scans m (m.getRune.2.append c) :=
      fun c => (Scans.getRune m).trans (Scans.append _ _)
    split
    · exact Scans.getRune m
    · rename_i c _
      split
      · split
        · exact holds_mono (ih _ _) (fun _ h => ((h1 c).trans (Scans.incLine _)).trans h)
            (fun _ h => ((h1 c).trans (Scans.incLine _)).trans h)
        · split
          · exact holds_mono (ih _ _) (fun _ h => (h1 c).trans h) (fun _ h => (h1 c).trans h)
          · split
            · exact holds_mono (ih _ _) (fun _ h => (h1 c).trans h) (fun _ h => (h1 c).trans h)
            · split
              · refine holds_bind (holds_mono (skipComment_scans _ _)
                  (fun _ h => (h1 c).trans h) (fun _ h => (h1 c).trans h)) ?_
                intro a ha
                exact holds_mono (ih _ _) (fun _ h => ha.trans h) (fun _ h => ha.trans h)
              · split
                · refine holds_bind (P := fun r => Scans m r.2) (holds_mono
                    (codeQuoteLoop_scans _ _ _ _)
                    (fun _ h => (h1 c).trans h) (fun _ h => (h1 c).trans h)) ?_
                  intro a ha
                  split
                  · exact holds_mono (ih _ _) (fun _ h => ha.trans h) (fun _ h => ha.trans h)
                  · exact holds_mono (ih _ _)
                      (fun _ h => (ha.trans (Scans.append _ _)).trans h)
                      (fun _ h => (ha.trans (Scans.append _ _)).trans h)
                · exact holds_mono (ih _ _) (fun _ h => (h1 c).trans h)
                    (fun _ h => (h1 c).trans h)
      · exact Scans.getRune m

theorem Scans.nonempty {a b : Machine} (h : Scans a b) (ha : a.token.buffer ≠ []) :
    b.token.buffer ≠ [] := by
  obtain ⟨-, -, -, -, -, ⟨suf, hs⟩⟩ := h
  rw [hs]
  simp [ha]

theorem append_nonempty (m : Machine) (c : Char) : (m.append c).token.buffer ≠ [] := by
  simp [Machine.append, Token.AppendRune]

theorem scanToken_scans (u : UnicodeTables) (fuel : Nat) (m : Machine) :
    (scanToken u fuel m).holds
      (fun r => Scans m r.2 ∧ (r.1 = Scanned.token → r.2.token.buffer ≠ [])) (Scans m) := by
  unfold scanToken
  simp only
  split
  · exact ⟨Scans.getRune m, by simp⟩
  · rename_i c _
    have h1 : Scans m (m.getRune.2.countLine c) := (Scans.getRune m).trans (Scans.countLine _ _)
    have h2 : Scans m (Machine.append { (m.getRune.2.countLine c) with
        ps := { (m.getRune.2.countLine c).ps with
          startTokLineno := (m.getRune.2.countLine c).lemon.lineno } } c) :=
      (h1.trans (Scans.startLine _ _)).trans (Scans.append _ _)
    have h3 := append_nonempty { (m.getRune.2.countLine c) with
        ps := { (m.getRune.2.countLine c).ps with
          startTokLineno := (m.getRune.2.countLine c).lemon.lineno } } c
    split
    · exact ⟨h1, by simp⟩
    · split
      · refine holds_bind (holds_mono (skipComment_scans _ _) (fun _ h => h1.trans h)
          (fun _ h => h1.trans h)) ?_
        intro a ha
        exact ⟨ha, by simp⟩
      · split
        · refine holds_bind (P := fun r => Scans m r.2 ∧ r.2.token.buffer ≠ [])
            (holds_mono (untilLoop_scans _ _ _)
              (fun _ h => ⟨h2.trans h, h.nonempty h3⟩) (fun _ h => h2.trans h)) ?_
          intro a ha
          split
          · exact ha.1.trans (Scans.incErr _)
          · exact ⟨ha.1.trans (Scans.append _ _), fun _ => append_nonempty _ _⟩
        · split
          · refine holds_bind (P := fun r => Scans m r.2 ∧ r.2.token.buffer ≠ [])
              (holds_mono (untilLoop_scans _ _ _)
                (fun _ h => ⟨h2.trans h, h.nonempty h3⟩) (fun _ h => h2.trans h)) ?_
            intro a ha
            split
            · exact ha.1.trans (Scans.incErr _)
            · exact ⟨ha.1.trans (Scans.append _ _), fun _ => append_nonempty _ _⟩
          · split
            · refine holds_bind (P := fun r => Scans m r.2 ∧ r.2.token.buffer ≠ [])
                (holds_mono (codeLoop_scans _ _ _)
                  (fun _ h => ⟨h2.trans h, h.nonempty h3⟩) (fun _ h => h2.trans h)) ?_
              intro a ha
              split
              · exact ha.1.trans (Scans.incErr _)
              · exact ⟨ha.1.trans (Scans.append _ _), fun _ => append_nonempty _ _⟩
            · split
              · refine holds_bind (P := fun r => Scans m r.2 ∧ r.2.token.buffer ≠ [])
                  (holds_mono (identLoop_scans _ _ _)
                    (fun _ h => ⟨h2.trans h, h.nonempty h3⟩) (fun _ h => h2.trans h)) ?_
                intro a ha
                split
                · exact ⟨ha.1, fun _ => ha.2⟩
                · split
                  · trivial
                  · exact ⟨ha.1.trans ⟨rfl, rfl, rfl, rfl,
                      ⟨a.2.ps.errorCnt, a.2.ps.startTokLineno, rfl⟩, ⟨[], by simp⟩⟩,
                      fun _ => ha.2⟩
              · exact ⟨h2, fun _ => h3⟩

theorem defineSymbol_fed (u : UnicodeTables) (m : Machine) (n : String) :
    (defineSymbol u m n).holds (fun r => r.2.fed = m.fed) (fun m1 => m1.fed = m.fed) := by
  unfold defineSymbol
  simp only [errorf]
  split <;> (try split) <;> simp [Step.holds, Machine.setTable]

theorem onPrevRule_fed (m : Machine) (f : Rule → Rule) :
    (m.onPrevRule f).holds (fun m1 => m1.fed = m.fed) (fun m1 => m1.fed = m.fed) := by
  unfold Machine.onPrevRule
  split
  · trivial
  · split <;> simp [Step.holds]

theorem parseOneToken_fed (u : UnicodeTables) (m : Machine) :
    (parseOneToken u m).holds (fun m1 => m1.fed = m.fed) (fun m1 => m1.fed = m.fed) := by
  unfold parseOneToken
  cases ha : m.token.FirstRune with
  | none => simp only [ha]; trivial
  | some a =>
    cases hb : m.token.LastRune with
    | none => simp only [ha, hb]; trivial
    | some b =>
      simp only [ha, hb]
      cases hs : m.ps.curState <;> simp only [hs]
      all_goals
        (repeat' split) <;> first
          | (simp [errorf, Step.holds, Machine.incErr, Machine.setState, Machine.setTable,
              Machine.addRule, Machine.appendRule]; done)
          | exact onPrevRule_fed _ _
          | (refine holds_bind (defineSymbol_fed _ _ _) ?_
             intro r hr
             simpa [Step.holds, Machine.setState] using hr)
          | (refine holds_bind (onPrevRule_fed _ _) ?_
             intro r hr
             simpa [Step.holds, Machine.setState] using hr)

theorem feedToken_fed (u : UnicodeTables) (m : Machine) :
    (feedToken u m).holds (fun m1 => m1.fed = m.fed ++ [m.token.String])
      (fun m1 => m1.fed = m.fed ++ [m.token.String]) := by
  unfold feedToken
  refine holds_bind (parseOneToken_fed u _) ?_
  intro a ha
  exact ha

theorem fedOf_holds {s : Step Machine} {P : List String → Prop}
    (h : s.holds (fun m => P m.fed) (fun m => P m.fed)) (h0 : P []) : P (fedOf s) := by
  cases s <;> simp_all [Step.holds, fedOf]

theorem parseLoop_fed (u : UnicodeTables) (fuel : Nat) (m : Machine)
    (hm : ∀ s ∈ m.fed, s.data ≠ []) :
    (parseLoop u fuel m).holds (fun m1 => ∀ s ∈ m1.fed, s.data ≠ [])
      (fun m1 => ∀ s ∈ m1.fed, s.data ≠ []) := by
  induction fuel generalizing m with
  | zero => trivial
  | succ n ih =>
    unfold parseLoop
    refine holds_bind (holds_mono (scanToken_scans u n m)
      (R := fun r => (∀ s ∈ r.2.fed, s.data ≠ []) ∧ (r.1 = Scanned.token → r.2.token.buffer ≠ []))
      (fun r h => ⟨by rw [h.1.1]; exact hm, h.2⟩) (fun m1 h => by rw [h.1]; exact hm)) ?_
    intro r hr
    split
    · exact hr.1
    · exact ih _ hr.1
    · rename_i htok
      have hne := hr.2 htok
      have hfed : ∀ s ∈ r.2.fed ++ [r.2.token.String], s.data ≠ [] := by
        intro s hs
        rcases List.mem_append.mp hs with h | h
        · exact hr.1 s h
        · simp only [List.mem_singleton] at h
          subst h
          simpa [Token.String, Token.RuneCount] using hne
      refine holds_bind (P := fun m1 => ∀ s ∈ m1.fed, s.data ≠ [])
        (holds_mono (feedToken_fed u r.2) (fun m1 h => by simp only [h]; exact hfed)
          (fun m1 h => by simp only [h]; exact hfed)) ?_
      intro a ha
      exact ih _ ha

theorem PrintFirstSets_fed (m : Machine) :
    (PrintFirstSets m).holds (fun m1 => m1.fed = m.fed) (fun m1 => m1.fed = m.fed) := by
  unfold PrintFirstSets
  split <;> simp [Step.holds, Machine.setTable]

/-! ### C11: syntax errors -/

/-- C11 (code disagrees): `errorf` ends the process.  A token other than `:` in `WaitColon`
makes `parseOneToken` end the run; for the input `%{ %} %% e x ; f : ;` the run ends at the
token `x` with one error counted, and the tokens after it are never fed. -/
theorem C11_syntax_error_ends_run :
    exited (parseOneToken asciiTables (machineAt FsmState.WaitColon "x")) = true
    ∧ (parseOneToken asciiTables (machineAt FsmState.WaitColon "x")).returned = false
    ∧ exited (parseOneToken asciiTables (machineAt FsmState.WaitKwDefOrRule2 "foo")) = true
    ∧ exited (parseOneToken asciiTables (machineAt FsmState.WaitPrecedenceTerm "X")) = true
    ∧ exited (parseText "%{ %} %% e x ; f : ;") = true
    ∧ (diagOf (parseText "%{ %} %% e x ; f : ;")).map (fun d => d.format)
        = some "Expect `:` after non-terminal: `%s`"
    ∧ fedOf (parseText "%{ %} %% e x ; f : ;") = ["%", "\x7b %\x7d", "%", "%", "e", "x"] := by
  decide!

/-! ### C12: keyword recognition -/

/-- C12 (code disagrees): after `%union {int x;}` the previous keyword is still `KwUnion` when
the FSM is back in `WaitKwDefOrRule2`; the unknown keyword `foo` then reports no error and the
state becomes `WaitOptTagOrOpenBrace`. -/
theorem C12_unknown_keyword_after_union :
    findKeyword (toUpperStr asciiTables "foo") = none
    ∧ (machineOf (feedAll asciiTables ["%", "\x7b%\x7d", "%", "union", "\x7bint x;\x7d", "%"]
        startMachine)).map (fun m => (m.ps.curState, m.ps.prevKeyword, m.ps.errorCnt))
        = some (FsmState.WaitKwDefOrRule2, Keyword.KwUnion, 0)
    ∧ (machineOf (feedAll asciiTables
        ["%", "\x7b%\x7d", "%", "union", "\x7bint x;\x7d", "%", "foo"]
        startMachine)).map (fun m => (m.ps.curState, m.ps.prevKeyword, m.ps.errorCnt))
        = some (FsmState.WaitOptTagOrOpenBrace, Keyword.KwUnion, 0) := by
  decide!

/-! ### C14: left-hand sides -/

/-- C14 (code disagrees): the token `1` has no letter, so it passes `IsLower` and is accepted
as a left-hand side, while `NewSymbol` makes it a terminal; likewise the declared terminal
`'x'` is accepted.  The rule sequence then holds a rule whose left-hand symbol is of kind
`Terminal`. -/
theorem C14_terminal_accepted_as_lhs :
    ruleNamesOf (parseText "%{ %} %% 1 : ;") = [("1", [], none)]
    ∧ (symbolOf (parseText "%{ %} %% 1 : ;") "1").map (fun s => s.symType)
        = some SymbolType.Terminal
    ∧ ruleNamesOf (parseText "%{ %} %token 'x' %% 'x' : ;") = [("'x'", [], none)]
    ∧ (symbolOf (parseText "%{ %} %token 'x' %% 'x' : ;") "'x'").map (fun s => s.symType)
        = some SymbolType.Terminal := by
  decide!

/-! ### C16: quoted literals -/

/-- C16 (code disagrees): outside a code block the quote loop stops at the next `'` whatever
precedes it: from the five codepoints quote, backslash, quote, quote, space the token is the
three codepoints quote, backslash, quote, and the fourth codepoint starts another token. -/
theorem C16_quote_ignores_backslash :
    firstToken "'\\'' " = some ("'\\'", "' ")
    ∧ ("'\\'".data.length = 3 ∧ "'\\'' ".data.length = 5) := by
  decide!

/-! ### C25: first-set walk -/

/-- C25 (code disagrees): the terminal branch of `computeFirstSet` has no `break`: for the
rule `a -> X Y` with terminals `X` (index 0) and `Y` (index 1), `first(a)` becomes `{0, 1}`,
not `{0}`. -/
theorem C25_walk_continues_after_terminal :
    ruleNamesOf (parseText "%{ %} %token X Y %type a %% a : X Y ;") = [("a", ["X", "Y"], none)]
    ∧ (symbolOf (parseText "%{ %} %token X Y %type a %% a : X Y ;") "X").map
        (fun s => (s.index, s.symType)) = some (0, SymbolType.Terminal)
    ∧ (symbolOf (parseText "%{ %} %token X Y %type a %% a : X Y ;") "Y").map
        (fun s => (s.index, s.symType)) = some (1, SymbolType.Terminal)
    ∧ (symbolOf (parseText "%{ %} %token X Y %type a %% a : X Y ;") "a").map
        (fun s => (decide (0 ∈ s.firstset), decide (1 ∈ s.firstset), s.firstset.card))
        = some (true, true, 2) := by
  decide!

/-! ### C27: terminal and nonterminal counts -/

/-- C27 (code disagrees): `%token 'x'` first interns `'x'` as a nonterminal (it has a
lower-case letter), counting it as such, and `defineSymbol` then turns it into a terminal
without touching the counts: the table holds one terminal and no nonterminal, while
`TerminalCount` is 0 and `NonTerminalCount` is 1. -/
theorem C27_counts_not_updated_by_defineSymbol :
    (machineOf (feedAll asciiTables ["%", "\x7b%\x7d", "%", "token", "'x'"] startMachine)).map
      (fun m => (m.ps.symTable.TerminalCount, m.ps.symTable.NonTerminalCount,
        m.ps.symTable.symbols.map (fun e => (e.1, (m.ps.symTable.store e.2).symType))))
      = some (0, 1, [("'x'", SymbolType.Terminal)]) := by
  decide!

/-! ### C28: alternatives after %prec -/

/-- C28 (code disagrees): in `WaitSymbolAfterPrec` the token `|` falls through to the case of
`;`: the state becomes `WaitRuleLhsSymbol` and no rule is started.  For
`a : b %prec X | c ;` the token `c` is then taken as a new left-hand side and the run ends at
`;` with the error that `:` is expected; the rules are `a -> b` and `c ->`, not `a -> b` and
`a -> c`. -/
theorem C28_bar_after_prec_ends_rule :
    (machineOf (feedAll asciiTables
        ["%", "\x7b%\x7d", "%", "token", "X", "%", "type", "a", "b", "c", "%", "%",
          "a", ":", "b", "%", "prec", "X", "|"] startMachine)).map
        (fun m => (m.ps.curState, m.ps.prevRule)) = some (FsmState.WaitRuleLhsSymbol, none)
    ∧ (machineOf (feedAll asciiTables
        ["%", "\x7b%\x7d", "%", "token", "X", "%", "type", "a", "b", "c", "%", "%",
          "a", ":", "b", "%", "prec", "X", "|"] startMachine)).map
        (fun m => m.ruleNames) = some [("a", ["b"], some "X")]
    ∧ (machineOf (feedAll asciiTables
        ["%", "\x7b%\x7d", "%", "token", "X", "%", "type", "a", "b", "c", "%", "%",
          "a", ":", "b", "|"] startMachine)).map
        (fun m => (m.ps.curState, m.ps.prevRule)) = some (FsmState.WaitRuleRhsSymbol, some 1)
    ∧ (machineOf (feedAll asciiTables
        ["%", "\x7b%\x7d", "%", "token", "X", "%", "type", "a", "b", "c", "%", "%",
          "a", ":", "b", "|"] startMachine)).map
        (fun m => m.ruleNames) = some [("a", ["b"], none), ("a", [], none)]
    ∧ (diagOf (parseText "%{ %} %token X %type a b c %% a : b %prec X | c ;")).map
        (fun d => d.format) = some "Expect `:` after non-terminal: `%s`"
    ∧ fedOf (parseText "%{ %} %token X %type a b c %% a : b %prec X | c ;")
        = ["%", "\x7b %\x7d", "%", "token", "X", "%", "type", "a", "b", "c", "%", "%",
            "a", ":", "b", "%", "prec", "X", "|", "c", ";"] := by
  decide!

/-! ### C29: type tags -/

/-- C29 (code disagrees): the slice `[1:runeCount]` of the tag token drops `<` but keeps `>`:
`%type <int> expr` gives `expr` the data type `int>`. -/
theorem C29_tag_keeps_closing_bracket :
    (machineOf (feedAll asciiTables ["%", "\x7b%\x7d", "%", "type", "<int>"] startMachine)).map
        (fun m => m.ps.prevTag) = some "int>"
    ∧ (symbolOf (parseText "%{ %} %type <int> expr %%") "expr").map (fun s => s.datatype)
        = some "int>" := by
  decide!

/-! ### C30: line tracking -/

/-- C30 (code disagrees): the loops of the quote branch and of the type-tag branch do not
look for newlines: the inputs below are consumed to the end without error and contain one
newline, yet the line counter ends at 1, and the token after the newline starts on line 1. -/
theorem C30_newline_in_quote_not_counted :
    (machineOf (parseText "%{ %} %token 'a\nb' %%")).map (fun m => m.lemon.lineno) = some 1
    ∧ ("%{ %} %token 'a\nb' %%".data.filter (fun c => c = '\n')).length = 1
    ∧ (machineOf (parseText "%{ %} %type <a\nb> e %%")).map
        (fun m => (m.lemon.lineno, m.ps.startTokLineno)) = some (1, 1)
    ∧ (machineOf (parseText "%{ %} %type e\n%%")).map
        (fun m => (m.lemon.lineno, m.ps.startTokLineno)) = some (2, 2) := by
  decide!

/-! ### C6: Insert is idempotent -/

theorem lookup_append_new {l : List (String × SymPtr)} {name : String} (p : SymPtr)
    (h : l.lookup name = none) : (l ++ [(name, p)]).lookup name = some p := by
  induction l with
  | nil => simp [List.lookup]
  | cons e l ih =>
    obtain ⟨k, v⟩ := e
    cases hk : (name == k) with
    | true => simp [List.lookup, hk] at h
    | false =>
      simp only [List.cons_append, List.lookup, hk] at h ⊢
      exact ih h

theorem insert_of_get (u : UnicodeTables) {t : SymbolTable} {name : String} {p : SymPtr}
    (h : t.Get name = some p) : t.Insert u name = (p, t) := by
  simp [SymbolTable.Insert, h]

theorem get_after_insert (u : UnicodeTables) (t : SymbolTable) (name : String) :
    (t.Insert u name).2.Get name = some (t.Insert u name).1 := by
  unfold SymbolTable.Insert
  split
  · rename_i p hp
    exact hp
  · rename_i hn
    exact lookup_append_new _ hn

/-- C6: when `name` is present with symbol `p`, `Insert(name)` returns `p` and the very same
table, so `Len`, `TerminalCount`, `NonTerminalCount`, the stored symbols and the flag
`hasNewInsert` are unchanged; and an `Insert` of a name directly after an `Insert` of the same
name returns the symbol the first call returned and changes nothing. -/
theorem C6_insert_idempotent (u : UnicodeTables) (t : SymbolTable) (name : String)
    (p : SymPtr) (h : t.Get name = some p) :
    t.Insert u name = (p, t)
    ∧ (t.Insert u name).2.Len = t.Len
    ∧ (t.Insert u name).2.TerminalCount = t.TerminalCount
    ∧ (t.Insert u name).2.NonTerminalCount = t.NonTerminalCount
    ∧ (t.Insert u name).2.store = t.store
    ∧ (t.Insert u name).2.hasNewInsert = t.hasNewInsert
    ∧ ∀ t0 : SymbolTable, (t0.Insert u name).2.Insert u name = t0.Insert u name := by
  have h1 : t.Insert u name = (p, t) := insert_of_get u h
  refine ⟨h1, ?_, ?_, ?_, ?_, ?_, ?_⟩
  · rw [h1]
  · rw [h1]
  · rw [h1]
  · rw [h1]
  · rw [h1]
  · intro t0
    exact insert_of_get u (get_after_insert u t0 name)

/-- C6 for the name `a` in the table that holds `a` and `B`. -/
theorem C6_insert_idempotent_witness :
    (insertAll asciiTables ["a", "B"] NewSymbolTable).2.Get "a" = some 0
    ∧ (insertAll asciiTables ["a", "B"] NewSymbolTable).2.Insert asciiTables "a"
        = (0, (insertAll asciiTables ["a", "B"] NewSymbolTable).2) :=
  ⟨by decide, (C6_insert_idempotent asciiTables _ "a" 0 (by decide)).1⟩

/-! ### C21: sorting twice -/

/-- C21: a second call of `SortedSymbols` directly after a first one returns the same
sequence and leaves the table, hence every symbol's index, as the first call left it. -/
theorem C21_second_sort_is_noop (t : SymbolTable) :
    t.SortedSymbols.2.SortedSymbols.1 = t.SortedSymbols.1
    ∧ t.SortedSymbols.2.SortedSymbols.2 = t.SortedSymbols.2
    ∧ ∀ p, (t.SortedSymbols.2.SortedSymbols.2.store p).index
        = (t.SortedSymbols.2.store p).index := by
  have key : t.SortedSymbols.2.SortedSymbols = (t.SortedSymbols.1, t.SortedSymbols.2) := by
    unfold SymbolTable.SortedSymbols
    by_cases h : t.hasNewInsert = true
    · simp [h, SymbolTable.Len]
    · simp [h, SymbolTable.Len]
  refine ⟨by rw [key], by rw [key], fun p => by rw [key]⟩

/-! ### C22: token accumulation -/

theorem appendAll_buffer (tok : Token) (l : List Char) :
    (l.foldl Token.AppendRune tok).buffer = tok.buffer ++ l := by
  induction l generalizing tok with
  | nil => simp
  | cons c cs ih => simp [List.foldl, ih, Token.AppendRune]

/-- C22: appending the codepoints of `s` in order to a new token, or to any token after
`Reset`, makes `String()` return `s` and `RuneCount()` the number of codepoints of `s`; in
particular for `abc`. -/
theorem C22_token_round_trip (s : String) (tok : Token) :
    (appendAll NewToken s).String = s
    ∧ (appendAll NewToken s).RuneCount = s.length
    ∧ (appendAll tok.Reset s).String = s
    ∧ (appendAll tok.Reset s).RuneCount = s.length
    ∧ (appendAll NewToken "abc").String = "abc" := by
  have h : ∀ s : String, (appendAll NewToken s).buffer = s.data := by
    intro s
    simp [appendAll, appendAll_buffer, NewToken]
  have h1 : ∀ s : String, (appendAll NewToken s).String = s := by
    intro s
    unfold Token.String Token.RuneCount
    rw [h s, List.take_length]
  have h2 : ∀ s : String, (appendAll NewToken s).RuneCount = s.length := by
    intro s
    unfold Token.RuneCount
    rw [h s]
    rfl
  exact ⟨h1 s, h2 s, h1 s, h2 s, h1 "abc"⟩

/-! ### C23: pushback -/

/-- C23 fails for the codepoint U+0000: pushing it back on a reader that still holds `a`
leaves nothing pending, and the following `GetRune` returns `a` and consumes it. -/
theorem C23_pushback_of_nul_is_lost :
    ((NewRuneBuffer ['a']).UngetRune (some (Char.ofNat 0))).map (fun rb => rb.GetRune)
      = some (some 'a', ⟨[], noRune⟩) := by
  decide

/-- C23, amended: for every reader state with no pending pushback and every codepoint `c`
other than U+0000, `UngetRune(c)` succeeds and the following `GetRune` returns `c` and leaves
the reader state exactly as it was before the two calls (nothing consumed, nothing
pending). -/
theorem C23_pushback_round_trip (rb : RuneBuffer) (c : Char) (hrb : rb.peekRune = noRune)
    (hc : c ≠ Char.ofNat 0) :
    ∃ rb1, rb.UngetRune (some c) = some rb1 ∧ rb1.GetRune = (some c, rb) := by
  refine ⟨{ rb with peekRune := some c }, by simp [RuneBuffer.UngetRune, hrb], ?_⟩
  have h1 : (some c : Option Char) ≠ noRune := by
    simp only [noRune, ne_eq, Option.some.injEq]
    exact hc
  obtain ⟨rd, pk⟩ := rb
  simp only at hrb
  subst hrb
  simp [RuneBuffer.GetRune, h1]

/-- C23, amended, for the codepoint `x` on a reader that holds `ab`. -/
theorem C23_pushback_round_trip_witness :
    ∃ rb1, (NewRuneBuffer ['a', 'b']).UngetRune (some 'x') = some rb1
      ∧ rb1.GetRune = (some 'x', NewRuneBuffer ['a', 'b']) :=
  C23_pushback_round_trip (NewRuneBuffer ['a', 'b']) 'x' rfl (by decide)

/-! ### C24: the trailing subroutine section -/

/-- C24 fails: for `%{ %} %% e : ; %% int  x; /* c */ y` the input text after the second
`%%` is ` int  x; /* c */ y`, but the trailing code accumulated when the input ends is
`intx;y`: the spaces and the comment between the tokens are not copied. -/
theorem C24_subroutine_drops_spaces :
    (machineOf (parseText "%{ %} %% e : ; %% int  x; /* c */ y")).map
      (fun m => m.ps.subroutine) = some "intx;y"
    ∧ "intx;y" ≠ " int  x; /* c */ y" := by
  decide!

theorem subroutine_step (u : UnicodeTables) (m : Machine) (t : String)
    (hst : m.ps.curState = FsmState.WaitSubRoutine2) (hne : t.data ≠ []) :
    ∃ m2, parseOneToken u
        (m.present ⟨t.data⟩ m.ps.startTokLineno m.ps.errorCnt m.lemon.runeBuf m.lemon.lineno
          m.fed) = Step.ok m2
      ∧ m2.ps.subroutine = m.ps.subroutine ++ t
      ∧ m2.ps.curState = FsmState.WaitSubRoutine2 := by
  obtain ⟨a, b, ha, hb⟩ := @token_runes_some ⟨t.data⟩ hne
  unfold parseOneToken
  simp only [Machine.present, ha, hb, hst]
  refine ⟨_, rfl, ?_, rfl⟩
  simp only [Token.String, Token.RuneCount, List.take_length]

/-- C24, amended: once the FSM is in `WaitSubRoutine2` (after the second `%%`), feeding any
non-empty tokens returns normally, stays in `WaitSubRoutine2`, and the trailing code is its
former content followed by the tokens, in order and with nothing between them. -/
theorem C24_subroutine_is_token_concatenation (u : UnicodeTables) (toks : List String)
    (m : Machine) (hst : m.ps.curState = FsmState.WaitSubRoutine2)
    (hne : ∀ t ∈ toks, t.data ≠ []) :
    ∃ m1, feedAll u toks m = Step.ok m1
      ∧ m1.ps.subroutine = toks.foldl (fun acc t => acc ++ t) m.ps.subroutine
      ∧ m1.ps.curState = FsmState.WaitSubRoutine2 := by
  induction toks generalizing m with
  | nil => exact ⟨m, rfl, rfl, hst⟩
  | cons t ts ih =>
    obtain ⟨m2, h1, hsub, hst2⟩ := subroutine_step u m t hst (hne t (List.mem_cons_self _ _))
    obtain ⟨m1, h2, h3, h4⟩ := ih m2 hst2 (fun t' ht' => hne t' (List.mem_cons_of_mem _ ht'))
    refine ⟨m1, ?_, ?_, h4⟩
    · simp only [feedAll, h1, Step.bind]
      exact h2
    · rw [h3, hsub]
      rfl

/-- C24, amended, for the tokens `int`, `x`, `;` fed in `WaitSubRoutine2`. -/
theorem C24_subroutine_is_token_concatenation_witness :
    ∃ m1, feedAll asciiTables ["int", "x", ";"] (machineAt FsmState.WaitSubRoutine2 "") = Step.ok m1
      ∧ m1.ps.subroutine
          = ["int", "x", ";"].foldl (fun acc t => acc ++ t)
              (machineAt FsmState.WaitSubRoutine2 "").ps.subroutine
      ∧ m1.ps.curState = FsmState.WaitSubRoutine2 :=
  C24_subroutine_is_token_concatenation asciiTables ["int", "x", ";"]
    (machineAt FsmState.WaitSubRoutine2 "") rfl (by decide)

/-! ### C13: alternatives -/

theorem parseOneToken_ruleCount {u : UnicodeTables} {m m1 : Machine} (hm : RuleCountExact m)
    (h : parseOneToken u m = Step.ok m1) : RuleCountExact m1 := by
  unfold parseOneToken at h
  unfold RuleCountExact Machine.RuleCount at hm
  cases ha : m.token.FirstRune with
  | none => simp [ha] at h
  | some a =>
    cases hb : m.token.LastRune with
    | none => simp [ha, hb] at h
    | some b =>
      simp only [ha, hb] at h
      cases hs : m.ps.curState <;> simp only [hs] at h
      all_goals
        (repeat' split at h) <;> first
          | (simp [errorf] at h; done)
          | (simp only [Step.ok.injEq] at h; subst h
             simp_all [RuleCountExact, Machine.RuleCount, Machine.setState, Machine.setTable,
               Machine.addRule, Machine.appendRule]; done)
          | (obtain ⟨h1, -, -, h4, -⟩ := onPrevRule_ok h
             simp_all [RuleCountExact, Machine.RuleCount]; done)
          | (obtain ⟨x, hx, h1⟩ := bind_ok h
             simp only [Step.ok.injEq] at h1; subst h1
             first
             | (obtain ⟨h1, -, -, -, h5⟩ := defineSymbol_ps hx
                simp_all [RuleCountExact, Machine.RuleCount, Machine.setState]; done)
             | (obtain ⟨h1, -, -, h4, -⟩ := onPrevRule_ok hx
                simp_all [RuleCountExact, Machine.RuleCount, Machine.setState]; done))

theorem reachable_ruleCount {u : UnicodeTables} {m : Machine} (hm : Reachable u m) :
    RuleCountExact m := by
  induction hm with
  | init infile outfile input => simp [RuleCountExact, Machine.RuleCount, NewLemon, NewParserState]
  | feed tok line errs rb lineno fed _ _ h ih =>
    exact parseOneToken_ruleCount
      (by simpa [RuleCountExact, Machine.RuleCount, Machine.present] using ih) h

theorem first_some_nonempty {tok : Token} {a : Char} (h : tok.FirstRune = some a) :
    tok.buffer ≠ [] := by
  intro hb
  simp [Token.FirstRune, Token.NthRune, hb] at h

/-- C13: in `WaitRuleRhsSymbol`, on a token starting with `|`: when the rule being built has
an empty right-hand side and its left-hand symbol is not yet nullable, the symbol is marked
nullable and no rule is added; when it is already nullable the error is reported (the run
ends in `errorf`) and no rule is added; when the right-hand side is not empty, exactly one
new rule with the same left-hand symbol and an empty right-hand side is appended at the end
of the rule sequence, becomes `prevRule`, and `RuleCount` grows by one.  In every reachable
state `RuleCount` is the length of the rule sequence, and
`expr : expr '+' expr | expr '-' expr` yields 2 rules. -/
theorem C13_alternatives (u : UnicodeTables) (m : Machine) (rule : Rule)
    (hst : m.ps.curState = FsmState.WaitRuleRhsSymbol) (hbar : m.token.FirstRune = some '|')
    (hrule : m.prevRuleVal = some rule) :
    (rule.rhs = [] → (m.ps.symTable.store rule.lhs).nullable = false →
        ∃ m1, parseOneToken u m = Step.ok m1 ∧ m1.ps.rules = m.ps.rules
          ∧ m1.RuleCount = m.RuleCount ∧ (m1.ps.symTable.store rule.lhs).nullable = true
          ∧ m1.ps.prevRule = m.ps.prevRule ∧ m1.ps.curState = FsmState.WaitRuleRhsSymbol)
    ∧ (rule.rhs = [] → (m.ps.symTable.store rule.lhs).nullable = true →
        ∃ d m1, parseOneToken u m = Step.exit d m1 ∧ m1.ps.rules = m.ps.rules
          ∧ m1.RuleCount = m.RuleCount ∧ m1.ps.errorCnt = m.ps.errorCnt + 1
          ∧ d.format = "Find multiple empty expression for: `%s`")
    ∧ (rule.rhs ≠ [] →
        ∃ m1 new, parseOneToken u m = Step.ok m1 ∧ m1.ps.rules = m.ps.rules ++ [new]
          ∧ new.lhs = rule.lhs ∧ new.rhs = [] ∧ m1.ps.prevRule = some m.ps.rules.length
          ∧ m1.RuleCount = m.RuleCount + 1 ∧ m1.ps.curState = FsmState.WaitRuleRhsSymbol)
    ∧ (∀ m0, Reachable u m0 → m0.RuleCount = m0.ps.rules.length)
    ∧ ((machineOf (parseText
          "%{ %} %token '+' '-' %% expr : expr '+' expr | expr '-' expr ;")).map
          (fun m1 => (m1.RuleCount, m1.ps.rules.length)) = some (2, 2)
        ∧ ruleNamesOf (parseText
          "%{ %} %token '+' '-' %% expr : expr '+' expr | expr '-' expr ;")
          = [("expr", ["expr", "'+'", "expr"], none), ("expr", ["expr", "'-'", "expr"], none)]) := by
  obtain ⟨a, b, ha, hb⟩ := token_runes_some (first_some_nonempty hbar)
  have hstep : parseOneToken u m =
      if rule.GetRhsSymbolCount = 0 then
        if (m.ps.symTable.store rule.GetLhsSymbol).nullable = true then
          errorf m.incErr m.ps.startTokLineno "Find multiple empty expression for: `%s`"
        else
          Step.ok (m.setTable (m.ps.symTable.write rule.GetLhsSymbol
            { m.ps.symTable.store rule.GetLhsSymbol with nullable := true }))
      else Step.ok (m.addRule rule.GetLhsSymbol m.ps.startTokLineno) := by
    unfold parseOneToken
    simp only [hbar, hb, hst, hrule, if_true]
  refine ⟨?_, ?_, ?_, fun m0 h0 => reachable_ruleCount h0, by decide!⟩
  · intro h1 h2
    rw [hstep]
    simp [Rule.GetRhsSymbolCount, Rule.GetLhsSymbol, h1, h2, Machine.setTable,
      SymbolTable.write, Machine.RuleCount, hst]
  · intro h1 h2
    rw [hstep]
    simp only [Rule.GetRhsSymbolCount, Rule.GetLhsSymbol, h1, h2, errorf, List.length_nil,
      if_true]
    exact ⟨_, _, rfl, rfl, rfl, rfl, rfl⟩
  · intro h1
    rw [hstep]
    simp [Rule.GetRhsSymbolCount, Rule.GetLhsSymbol, h1, Machine.addRule, Machine.appendRule,
      Machine.setTable, NewRule, Machine.RuleCount, hst]

/-- C13 for the token `|` after `e :`, where the rule `e ->` has an empty right-hand side and
`e` is not nullable yet. -/
theorem C13_alternatives_witness :
    barMachine.ps.curState = FsmState.WaitRuleRhsSymbol
    ∧ barMachine.token.FirstRune = some '|'
    ∧ barMachine.prevRuleVal = some ⟨0, 0, [], 0, "", none, 0, false, none⟩
    ∧ ∃ m1, parseOneToken asciiTables barMachine = Step.ok m1
        ∧ m1.ps.rules = barMachine.ps.rules
        ∧ m1.RuleCount = barMachine.RuleCount
        ∧ (m1.ps.symTable.store (0 : SymPtr)).nullable = true
        ∧ m1.ps.prevRule = barMachine.ps.prevRule
        ∧ m1.ps.curState = FsmState.WaitRuleRhsSymbol :=
  ⟨by decide!, by decide!, by decide!,
    (C13_alternatives asciiTables barMachine ⟨0, 0, [], 0, "", none, 0, false, none⟩
      (by decide!) (by decide!) (by decide!)).1 rfl (by decide!)⟩

/-! ### Nullable analysis -/

theorem computeNullable_spec (rp : Rule) (t : SymbolTable) :
    ((∀ s ∈ rp.rhs, Nullable t s) →
        rp.computeNullable t
          = (true, t.write rp.lhs { t.store rp.lhs with nullable := true }))
    ∧ (¬ (∀ s ∈ rp.rhs, Nullable t s) → rp.computeNullable t = (false, t)) := by
  unfold Rule.computeNullable Nullable
  constructor
  · intro h
    have : (rp.rhs.all fun s => (t.store s).nullable) = true := by
      simpa [List.all_eq_true] using h
    simp [this]
  · intro h
    have : ¬ (rp.rhs.all fun s => (t.store s).nullable) = true := by
      simpa [List.all_eq_true] using h
    simp [this]

theorem nullable_write_mono (t : SymbolTable) (q p : SymPtr) (h : Nullable t p) :
    Nullable (t.write q { t.store q with nullable := true }) p := by
  unfold Nullable SymbolTable.write at *
  simp only
  split
  · rfl
  · exact h

theorem nullablePass_true (rules : List Rule) (t : SymbolTable) :
    nullablePass rules true t = (true, t) := by
  induction rules with
  | nil => rfl
  | cons rp rest ih =>
    unfold nullablePass
    split
    · exact ih
    · simp [ih]

theorem nullablePass_false (rules : List Rule) (t : SymbolTable) :
    (nullablePass rules false t = (false, t) ∧ NullableClosed rules t)
    ∨ ∃ rp ∈ rules, ¬ Nullable t rp.lhs ∧ (∀ s ∈ rp.rhs, Nullable t s)
        ∧ nullablePass rules false t
            = (true, t.write rp.lhs { t.store rp.lhs with nullable := true }) := by
  induction rules with
  | nil => exact Or.inl ⟨rfl, fun r hr => by simp at hr⟩
  | cons rp rest ih =>
    unfold nullablePass
    by_cases hl : (t.store rp.GetLhsSymbol).nullable = true
    · simp only [hl, if_true]
      rcases ih with ⟨h1, h2⟩ | ⟨r, hr, h1, h2, h3⟩
      · refine Or.inl ⟨h1, ?_⟩
        intro r hr hall
        rcases List.mem_cons.mp hr with h | h
        · subst h; exact hl
        · exact h2 r h hall
      · exact Or.inr ⟨r, List.mem_cons_of_mem _ hr, h1, h2, h3⟩
    · simp only [hl]
      by_cases hall : ∀ s ∈ rp.rhs, Nullable t s
      · refine Or.inr ⟨rp, List.mem_cons_self _ _, hl, hall, ?_⟩
        rw [(computeNullable_spec rp t).1 hall]
        simp [nullablePass_true]
      · rw [(computeNullable_spec rp t).2 hall]
        simp only [Bool.false_eq_true, if_false]
        rcases ih with ⟨h1, h2⟩ | ⟨r, hr, h1, h2, h3⟩
        · refine Or.inl ⟨h1, ?_⟩
          intro r hr hall2
          rcases List.mem_cons.mp hr with h | h
          · subst h; exact absurd hall2 hall
          · exact h2 r h hall2
        · exact Or.inr ⟨r, List.mem_cons_of_mem _ hr, h1, h2, h3⟩

theorem openLhs_write_lt (rules : List Rule) (t : SymbolTable) (rp : Rule) (hr : rp ∈ rules)
    (hn : ¬ Nullable t rp.lhs) :
    (openLhs rules (t.write rp.lhs { t.store rp.lhs with nullable := true })).card
      < (openLhs rules t).card := by
  apply Finset.card_lt_card
  rw [Finset.ssubset_iff_of_subset]
  · refine ⟨rp.lhs, ?_, ?_⟩
    · simp only [openLhs, Finset.mem_filter, List.mem_toFinset, List.mem_map]
      exact ⟨⟨rp, hr, rfl⟩, by simpa [Nullable] using hn⟩
    · simp [openLhs, SymbolTable.write]
  · intro p hp
    simp only [openLhs, Finset.mem_filter, List.mem_toFinset, List.mem_map,
      SymbolTable.write] at hp ⊢
    refine ⟨hp.1, ?_⟩
    have h2 := hp.2
    split at h2
    · simp at h2
    · exact h2

theorem openLhs_card_le (rules : List Rule) (t : SymbolTable) :
    (openLhs rules t).card ≤ rules.length := by
  unfold openLhs
  calc ((rules.map (fun r => r.lhs)).toFinset.filter _).card
      ≤ (rules.map (fun r => r.lhs)).toFinset.card := Finset.card_filter_le _ _
    _ ≤ (rules.map (fun r => r.lhs)).length := List.toFinset_card_le _
    _ = rules.length := by simp

/-- The outcome of the outer loop, for any number of passes above the number of open
left-hand symbols. -/
theorem nullableLoop_spec (rules : List Rule) (fuel : Nat) (t : SymbolTable)
    (hf : (openLhs rules t).card < fuel) :
    ∃ t1, nullableLoop fuel rules t = some t1 ∧ NullableClosed rules t1
      ∧ (∀ p, Nullable t p → Nullable t1 p)
      ∧ (∀ S : SymPtr → Prop, (∀ p, Nullable t p → S p) →
          (∀ r ∈ rules, (∀ s ∈ r.rhs, S s) → S r.lhs) → ∀ p, Nullable t1 p → S p) := by
  induction fuel generalizing t with
  | zero => omega
  | succ n ih =>
    unfold nullableLoop
    rcases nullablePass_false rules t with ⟨h1, h2⟩ | ⟨rp, hr, h1, h2, h3⟩
    · simp only [h1, Bool.false_eq_true, if_false]
      exact ⟨t, rfl, h2, fun p hp => hp, fun S hS _ p hp => hS p hp⟩
    · simp only [h3, if_true]
      have hlt := openLhs_write_lt rules t rp hr h1
      obtain ⟨t1, e1, c1, m1, s1⟩ := ih (t.write rp.lhs { t.store rp.lhs with nullable := true })
        (by omega)
      refine ⟨t1, e1, c1, fun p hp => m1 p (nullable_write_mono t rp.lhs p hp), ?_⟩
      intro S hS hcl p hp
      refine s1 S ?_ hcl p hp
      intro q hq
      unfold Nullable SymbolTable.write at hq
      simp only at hq
      split at hq
      · rename_i heq
        subst heq
        exact hcl rp hr (fun s hs => hS s (h2 s hs))
      · exact hS q hq

theorem computeNullableSets_spec (rules : List Rule) (t : SymbolTable) :
    ∃ t1, computeNullableSets rules t = some t1 ∧ NullableClosed rules t1
      ∧ (∀ p, Nullable t p → Nullable t1 p)
      ∧ (∀ S : SymPtr → Prop, (∀ p, Nullable t p → S p) →
          (∀ r ∈ rules, (∀ s ∈ r.rhs, S s) → S r.lhs) → ∀ p, Nullable t1 p → S p) :=
  nullableLoop_spec rules (rules.length + 1) t
    (Nat.lt_succ_of_le (openLhs_card_le rules t))

theorem computeNullableSets_closed (rules : List Rule) (t : SymbolTable)
    (h : NullableClosed rules t) : computeNullableSets rules t = some t := by
  unfold computeNullableSets nullableLoop
  rcases nullablePass_false rules t with ⟨h1, -⟩ | ⟨rp, hr, h1, h2, -⟩
  · simp [h1]
  · exact absurd (h rp hr h2) h1

/-- C2: `computeNullableSets` returns, and the nullable flags it leaves are the least fixed
point above the flags before the call: they are closed under the rules (a rule all of whose
right-hand-side symbols are nullable, in particular one with an empty right-hand side, has
a nullable left-hand symbol), they contain the symbols nullable before the call, and they are
contained in every set `S` of symbols that contains those and is closed under the rules. -/
theorem C2_nullable_least_fixed_point (rules : List Rule) (t : SymbolTable) :
    ∃ t1, computeNullableSets rules t = some t1
      ∧ (∀ r ∈ rules, (∀ s ∈ r.rhs, Nullable t1 s) → Nullable t1 r.lhs)
      ∧ (∀ r ∈ rules, r.rhs = [] → Nullable t1 r.lhs)
      ∧ (∀ p, Nullable t p → Nullable t1 p)
      ∧ (∀ S : SymPtr → Prop, (∀ p, Nullable t p → S p) →
          (∀ r ∈ rules, (∀ s ∈ r.rhs, S s) → S r.lhs) → ∀ p, Nullable t1 p → S p) := by
  obtain ⟨t1, h1, h2, h3, h4⟩ := computeNullableSets_spec rules t
  refine ⟨t1, h1, h2, ?_, h3, h4⟩
  intro r hr he
  exact h2 r hr (by simp [he])

/-- C2 on the chain `2 -> 1 0`, `1 -> 0`, `0 ->`, which needs three changing passes: all
three symbols end nullable, and symbol 3, which heads no rule, does not. -/
theorem C2_nullable_least_fixed_point_witness :
    (∃ t1, computeNullableSets chainRules NewSymbolTable = some t1
      ∧ (∀ r ∈ chainRules, (∀ s ∈ r.rhs, Nullable t1 s) → Nullable t1 r.lhs)
      ∧ (∀ r ∈ chainRules, r.rhs = [] → Nullable t1 r.lhs)
      ∧ (∀ p, Nullable NewSymbolTable p → Nullable t1 p)
      ∧ (∀ S : SymPtr → Prop, (∀ p, Nullable NewSymbolTable p → S p) →
          (∀ r ∈ chainRules, (∀ s ∈ r.rhs, S s) → S r.lhs) → ∀ p, Nullable t1 p → S p))
    ∧ (computeNullableSets chainRules NewSymbolTable).map
        (fun t1 => [0, 1, 2, 3].map (fun p => (t1.store p).nullable))
        = some [true, true, true, false] :=
  ⟨C2_nullable_least_fixed_point chainRules NewSymbolTable, by decide!⟩

/-! ### C18: idempotence and monotonicity -/

theorem nullablePass_mono (rules : List Rule) (c : Bool) (t : SymbolTable) (p : SymPtr)
    (h : Nullable t p) : Nullable (nullablePass rules c t).2 p := by
  cases c with
  | true => rw [nullablePass_true]; exact h
  | false =>
    rcases nullablePass_false rules t with ⟨h1, -⟩ | ⟨rp, -, -, -, h3⟩
    · rw [h1]; exact h
    · rw [h3]; exact nullable_write_mono t rp.lhs p h

theorem computeNullable_mono (rp : Rule) (t : SymbolTable) (p : SymPtr)
    (h : Nullable t p) : Nullable (rp.computeNullable t).2 p := by
  by_cases hall : ∀ s ∈ rp.rhs, Nullable t s
  · rw [(computeNullable_spec rp t).1 hall]; exact nullable_write_mono t rp.lhs p h
  · rw [(computeNullable_spec rp t).2 hall]; exact h

theorem computeFirstSetLoop_nullable (lhs : SymPtr) (rhs : List SymPtr) (c : Bool)
    (t : SymbolTable) (p : SymPtr) :
    ((computeFirstSetLoop lhs rhs c t).2.store p).nullable = (t.store p).nullable := by
  induction rhs generalizing c t with
  | nil => rfl
  | cons s rest ih =>
    unfold computeFirstSetLoop
    simp only
    split
    · split
      · rw [ih]
        simp only [SymbolTable.write]
        split
        · rename_i h; rw [h]
        · rfl
      · rw [ih]
    · split
      · split
        · rfl
        · rw [ih]
      · split
        · simp only [SymbolTable.write]
          split
          · rename_i h; rw [h]
          · rfl
        · rw [ih]
          simp only [SymbolTable.write]
          split
          · rename_i h; rw [h]
          · rfl

/-- C18: `computeNullableSets` returns, and a second run on its result returns the very same
table (every nullable flag as the first run left it).  A flag that is true stays true through
every operation of the analysis: through `computeNullable`, through a pass of the inner loop,
through a whole run; and `computeFirstSet` changes no nullable flag at all. -/
theorem C18_nullable_idempotent_monotone (rules : List Rule) (t : SymbolTable) :
    (∃ t1, computeNullableSets rules t = some t1 ∧ computeNullableSets rules t1 = some t1
      ∧ ∀ p, Nullable t p → Nullable t1 p)
    ∧ (∀ (rp : Rule) (p : SymPtr), Nullable t p → Nullable (rp.computeNullable t).2 p)
    ∧ (∀ (rs : List Rule) (c : Bool) (p : SymPtr),
        Nullable t p → Nullable (nullablePass rs c t).2 p)
    ∧ (∀ (rp : Rule) (p : SymPtr),
        ((rp.computeFirstSet t).2.store p).nullable = (t.store p).nullable) := by
  refine ⟨?_, fun rp p h => computeNullable_mono rp t p h,
    fun rs c p h => nullablePass_mono rs c t p h,
    fun rp p => computeFirstSetLoop_nullable _ _ _ _ _⟩
  obtain ⟨t1, h1, h2, h3, -⟩ := computeNullableSets_spec rules t
  exact ⟨t1, h1, computeNullableSets_closed rules t1 h2, h3⟩

/-- C18 on the chain `2 -> 1 0`, `1 -> 0`, `0 ->`. -/
theorem C18_nullable_idempotent_monotone_witness :
    ∃ t1, computeNullableSets chainRules NewSymbolTable = some t1
      ∧ computeNullableSets chainRules t1 = some t1
      ∧ ∀ p, Nullable NewSymbolTable p → Nullable t1 p :=
  (C18_nullable_idempotent_monotone chainRules NewSymbolTable).1

/-! ### C19: termination -/

/-- C19: a pass of the inner loop that reports a change has made exactly one left-hand symbol
nullable that was not nullable before, so the number of such symbols (`openLhs`) drops; hence
the outer loop returns within any number of passes above the number of distinct left-hand
symbols not nullable at entry, and within the `len(rules) + 1` passes of the model. -/
theorem C19_nullable_terminates (rules : List Rule) (t : SymbolTable) (fuel : Nat)
    (hf : (openLhs rules t).card + 1 ≤ fuel) :
    (∃ t1, nullableLoop fuel rules t = some t1)
    ∧ (∃ t1, computeNullableSets rules t = some t1)
    ∧ ((nullablePass rules false t).1 = true →
        (∃ p, ¬ Nullable t p ∧ Nullable (nullablePass rules false t).2 p)
        ∧ (openLhs rules (nullablePass rules false t).2).card < (openLhs rules t).card) := by
  refine ⟨?_, ?_, ?_⟩
  · obtain ⟨t1, h1, -⟩ := nullableLoop_spec rules fuel t (by omega)
    exact ⟨t1, h1⟩
  · obtain ⟨t1, h1, -⟩ := computeNullableSets_spec rules t
    exact ⟨t1, h1⟩
  · intro hc
    rcases nullablePass_false rules t with ⟨h1, -⟩ | ⟨rp, hr, h1, h2, h3⟩
    · rw [h1] at hc; simp at hc
    · rw [h3]
      refine ⟨⟨rp.lhs, h1, ?_⟩, openLhs_write_lt rules t rp hr h1⟩
      simp [Nullable, SymbolTable.write]

/-- C19 on the chain `2 -> 1 0`, `1 -> 0`, `0 ->` with three open left-hand symbols: four
passes are enough. -/
theorem C19_nullable_terminates_witness :
    (openLhs chainRules NewSymbolTable).card + 1 ≤ 4
    ∧ (∃ t1, nullableLoop 4 chainRules NewSymbolTable = some t1)
    ∧ (nullableLoop 3 chainRules NewSymbolTable).isNone = true :=
  ⟨by decide, (C19_nullable_terminates chainRules NewSymbolTable 4 (by decide)).1, by decide!⟩

/-! ### C26: what `computeFirstSet` changes -/

/-- What one run of the loop of `computeFirstSet` does to the table. -/
theorem computeFirstSetLoop_spec (lhs : SymPtr) (rhs : List SymPtr) (c : Bool)
    (t : SymbolTable) :
    (∀ p, p ≠ lhs → (computeFirstSetLoop lhs rhs c t).2.store p = t.store p)
    ∧ (t.store lhs).firstset ⊆ ((computeFirstSetLoop lhs rhs c t).2.store lhs).firstset
    ∧ ((computeFirstSetLoop lhs rhs c t).1 = true ↔
        (c = true ∨ (t.store lhs).firstset
          ≠ ((computeFirstSetLoop lhs rhs c t).2.store lhs).firstset)) := by
  induction rhs generalizing c t with
  | nil => simp [computeFirstSetLoop]
  | cons s rest ih =>
    have step : ∀ (fs : IntSet) (c1 : Bool), (t.store lhs).firstset ⊆ fs →
        (c1 = true ↔ (c = true ∨ (t.store lhs).firstset ≠ fs)) →
        (∀ p, p ≠ lhs → (computeFirstSetLoop lhs rest c1
            (t.write lhs { t.store lhs with firstset := fs })).2.store p = t.store p)
        ∧ (t.store lhs).firstset ⊆ ((computeFirstSetLoop lhs rest c1
            (t.write lhs { t.store lhs with firstset := fs })).2.store lhs).firstset
        ∧ ((computeFirstSetLoop lhs rest c1
            (t.write lhs { t.store lhs with firstset := fs })).1 = true ↔
          (c = true ∨ (t.store lhs).firstset ≠ ((computeFirstSetLoop lhs rest c1
            (t.write lhs { t.store lhs with firstset := fs })).2.store lhs).firstset)) := by
      intro fs c1 hsub hc1
      obtain ⟨a1, a2, a3⟩ := ih c1 (t.write lhs { t.store lhs with firstset := fs })
      have hw : ((t.write lhs { t.store lhs with firstset := fs }).store lhs).firstset = fs := by
        simp [SymbolTable.write]
      rw [hw] at a2 a3
      refine ⟨?_, hsub.trans a2, ?_⟩
      · intro p hp
        rw [a1 p hp]
        simp [SymbolTable.write, hp]
      · rw [a3, hc1]
        constructor
        · rintro ((h | h) | h)
          · exact Or.inl h
          · exact Or.inr (fun e => h (Finset.Subset.antisymm hsub (e ▸ a2)))
          · exact Or.inr (fun e => h (Finset.Subset.antisymm a2 (e ▸ hsub)))
        · rintro (h | h)
          · exact Or.inl (Or.inl h)
          · by_cases e : (t.store lhs).firstset = fs
            · exact Or.inr (e ▸ h)
            · exact Or.inl (Or.inr e)
    unfold computeFirstSetLoop
    simp only
    split
    · split
      · rename_i hnot
        refine step _ true (Finset.subset_insert _ _) ?_
        simp only [true_iff]
        right
        intro e
        exact hnot (e ▸ Finset.mem_insert_self _ _)
      · exact ih c t
    · split
      · split
        · simp
        · exact ih c t
      · rename_i hne
        have hsub : (t.store lhs).firstset ⊆ (t.store lhs).firstset ∪ (t.store s).firstset :=
          Finset.subset_union_left
        have hw : ((t.write lhs { t.store lhs with
            firstset := (t.store lhs).firstset ∪ (t.store s).firstset }).store lhs).firstset
              = (t.store lhs).firstset ∪ (t.store s).firstset := by
          simp [SymbolTable.write]
        have hc1 : ((if ((t.write lhs { t.store lhs with
              firstset := (t.store lhs).firstset ∪ (t.store s).firstset }).store lhs).firstset.card
              ≠ (t.store lhs).firstset.card then true else c) = true) ↔
            (c = true ∨ (t.store lhs).firstset
              ≠ (t.store lhs).firstset ∪ (t.store s).firstset) := by
          rw [hw]
          by_cases e : (t.store lhs).firstset = (t.store lhs).firstset ∪ (t.store s).firstset
          · rw [← e]; simp
          · have : ((t.store lhs).firstset ∪ (t.store s).firstset).card
                ≠ (t.store lhs).firstset.card := by
              intro hcard
              exact e (Finset.eq_of_subset_of_card_le hsub (le_of_eq hcard))
            simp [this, e]
        split
        · refine ⟨?_, ?_, ?_⟩
          · intro p hp
            simp [SymbolTable.write, hp]
          · rw [hw]; exact hsub
          · rw [hc1, hw]
        · exact step _ _ hsub hc1

/-- C26: after `computeFirstSet` on a rule, the first-set of every symbol contains its
first-set before the call, every symbol other than the rule's left-hand symbol is unchanged,
no nullable flag has changed, and the returned flag is true exactly when the first-set of the
left-hand symbol has become strictly larger. -/
theorem C26_first_sets_grow_at_lhs (rule : Rule) (t : SymbolTable) :
    (∀ p, (t.store p).firstset ⊆ ((rule.computeFirstSet t).2.store p).firstset)
    ∧ (∀ p, p ≠ rule.lhs → (rule.computeFirstSet t).2.store p = t.store p)
    ∧ (∀ p, ((rule.computeFirstSet t).2.store p).nullable = (t.store p).nullable)
    ∧ ((rule.computeFirstSet t).1 = true ↔
        (t.store rule.lhs).firstset ⊂ ((rule.computeFirstSet t).2.store rule.lhs).firstset) := by
  obtain ⟨h1, h2, h3⟩ := computeFirstSetLoop_spec rule.lhs rule.rhs false t
  refine ⟨?_, h1, fun p => computeFirstSetLoop_nullable _ _ _ _ _, ?_⟩
  · intro p
    by_cases hp : p = rule.lhs
    · subst hp; exact h2
    · unfold Rule.computeFirstSet
      rw [h1 p hp]
  · unfold Rule.computeFirstSet
    rw [h3, Finset.ssubset_iff_subset_ne]
    simp only [Bool.false_eq_true, false_or]
    exact ⟨fun h => ⟨h2, h⟩, fun h => h.2⟩

/-! ### C20: inserting distinct names -/

theorem lookup_append_other {l : List (String × SymPtr)} {name n : String} (p : SymPtr)
    (hne : name ≠ n) : (l ++ [(n, p)]).lookup name = l.lookup name := by
  induction l with
  | nil =>
    have : (name == n) = false := by simpa using hne
    simp [List.lookup, this]
  | cons e l ih =>
    obtain ⟨k, v⟩ := e
    cases hk : (name == k) with
    | true => simp [List.lookup, hk]
    | false => simp only [List.cons_append, List.lookup, hk]; exact ih

theorem insert_fresh (u : UnicodeTables) (t : SymbolTable) (name : String)
    (h : t.Get name = none) :
    (t.Insert u name).1 = t.nalloc
    ∧ (t.Insert u name).2.nalloc = t.nalloc + 1
    ∧ (t.Insert u name).2.Len = t.Len + 1
    ∧ (t.Insert u name).2.symbols = t.symbols ++ [(name, t.nalloc)]
    ∧ (t.Insert u name).2.sortedSymbols = t.sortedSymbols ++ [t.nalloc]
    ∧ (t.Insert u name).2.hasNewInsert = true
    ∧ (t.Insert u name).2.store t.nalloc = NewSymbol u name
    ∧ ∀ p, p ≠ t.nalloc → (t.Insert u name).2.store p = t.store p := by
  unfold SymbolTable.Insert
  rw [h]
  refine ⟨rfl, rfl, ?_, rfl, rfl, rfl, ?_, ?_⟩
  · simp [SymbolTable.Len]
  · simp
  · intro p hp
    simp [hp]

theorem insertAll_fresh (u : UnicodeTables) (names : List String) (t : SymbolTable)
    (hnd : names.Nodup) (hfresh : ∀ n ∈ names, t.Get n = none) :
    (insertAll u names t).1 = List.range' t.nalloc names.length
    ∧ (insertAll u names t).2.Len = t.Len + names.length
    ∧ (insertAll u names t).2.nalloc = t.nalloc + names.length
    ∧ (∀ p, p < t.nalloc → (insertAll u names t).2.store p = t.store p)
    ∧ (List.range' t.nalloc names.length).map
        (fun p => ((insertAll u names t).2.store p).name) = names := by
  induction names generalizing t with
  | nil => simp [insertAll]
  | cons n ns ih =>
    obtain ⟨hn, hns⟩ := List.nodup_cons.mp hnd
    obtain ⟨f1, f2, f3, f4, -, -, f7, f8⟩ :=
      insert_fresh u t n (hfresh n (List.mem_cons_self _ _))
    have hfresh2 : ∀ n' ∈ ns, (t.Insert u n).2.Get n' = none := by
      intro n' hn'
      unfold SymbolTable.Get
      rw [f4, lookup_append_other _ (fun (e : n' = n) => hn (e ▸ hn'))]
      exact hfresh n' (List.mem_cons_of_mem _ hn')
    obtain ⟨i1, i2, i3, i4, i5⟩ := ih (t.Insert u n).2 hns hfresh2
    simp only [insertAll, List.length_cons]
    rw [f2] at i1 i3 i4 i5
    refine ⟨?_, ?_, ?_, ?_, ?_⟩
    · rw [i1, f1, List.range'_succ]
    · rw [i2, f3]; omega
    · rw [i3]; omega
    · intro p hp
      rw [i4 p (by omega), f8 p (by omega)]
    · rw [List.range'_succ, List.map_cons, i5, i4 t.nalloc (by omega), f7]
      rfl

/-- C20: when pairwise distinct names are inserted one by one into a new symbol table, the
symbol each `Insert` returned carries the name just inserted (also at the end, where the test
looks), and `Len` is the number of names. -/
theorem C20_insert_distinct_names (u : UnicodeTables) (names : List String)
    (hnd : names.Nodup) :
    (insertAll u names NewSymbolTable).1.map
        (fun p => ((insertAll u names NewSymbolTable).2.store p).name) = names
    ∧ (insertAll u names NewSymbolTable).2.Len = names.length
    ∧ ∀ (t : SymbolTable) (n : String), t.Get n = none →
        ((t.Insert u n).2.store (t.Insert u n).1).name = n := by
  obtain ⟨i1, i2, -, -, i5⟩ := insertAll_fresh u names NewSymbolTable hnd
    (by intro n _; rfl)
  refine ⟨?_, ?_, ?_⟩
  · rw [i1]; exact i5
  · rw [i2]; simp [SymbolTable.Len, NewSymbolTable]
  · intro t n h
    obtain ⟨f1, -, -, -, -, -, f7, -⟩ := insert_fresh u t n h
    rw [f1, f7]
    rfl

/-- C20 for the names `name = 0`, `name = 1`, `name = 2`. -/
theorem C20_insert_distinct_names_witness :
    (insertAll asciiTables ["name = 0", "name = 1", "name = 2"] NewSymbolTable).1.map
        (fun p => ((insertAll asciiTables ["name = 0", "name = 1", "name = 2"]
          NewSymbolTable).2.store p).name) = ["name = 0", "name = 1", "name = 2"]
    ∧ (insertAll asciiTables ["name = 0", "name = 1", "name = 2"] NewSymbolTable).2.Len = 3 :=
  ⟨(C20_insert_distinct_names asciiTables ["name = 0", "name = 1", "name = 2"] (by decide)).1,
   (C20_insert_distinct_names asciiTables ["name = 0", "name = 1", "name = 2"] (by decide)).2.1⟩

theorem nameLe_iff (store : SymPtr → Symbol) (a b : SymPtr) :
    nameLe store a b ↔ (store a).name.data ≤ (store b).name.data := by
  unfold nameLe
  exact not_lt

theorem name_lt_iff (x y : String) : x < y ↔ x.data < y.data := String.lt_iff_toList_lt

theorem name_eq_iff (x y : String) : x = y ↔ x.data = y.data := by
  constructor
  · intro h; rw [h]
  · intro h; exact String.ext h

theorem sorted_by_name (store : SymPtr → Symbol) (l : List SymPtr) :
    (l.insertionSort (nameLe store)).Sorted (nameLe store) := by
  haveI : IsTotal SymPtr (nameLe store) :=
    ⟨fun a b => by simp only [nameLe_iff]; exact le_total _ _⟩
  haveI : IsTrans SymPtr (nameLe store) :=
    ⟨fun a b c => by simp only [nameLe_iff]; exact le_trans⟩
  exact List.sorted_insertionSort _ l

theorem assignIndex_spec (l : List SymPtr) (k : Nat) (store : SymPtr → Symbol)
    (hnd : l.Nodup) :
    (∀ p, (assignIndex l k store p).name = (store p).name)
    ∧ (∀ i (h : i < l.length), (assignIndex l k store (l.get ⟨i, h⟩)).index = k + i)
    ∧ (∀ p, p ∉ l → assignIndex l k store p = store p) := by
  induction l generalizing k store with
  | nil => simp [assignIndex]
  | cons q qs ih =>
    obtain ⟨hq, hqs⟩ := List.nodup_cons.mp hnd
    obtain ⟨i1, i2, i3⟩ := ih (k + 1)
      (fun x => if x = q then { store q with index := k } else store x) hqs
    simp only [assignIndex]
    refine ⟨?_, ?_, ?_⟩
    · intro p
      rw [i1 p]
      split
      · rename_i h; rw [h]
      · rfl
    · intro i h
      cases i with
      | zero =>
        simp only [List.get_eq_getElem, List.getElem_cons_zero]
        rw [i3 q hq]
        simp
      | succ j =>
        simp only [List.get_eq_getElem, List.getElem_cons_succ]
        have := i2 j (by simpa using h)
        simp only [List.get_eq_getElem] at this
        rw [this]
        omega
    · intro p hp
      have hp1 : p ≠ q := fun e => hp (e ▸ List.mem_cons_self _ _)
      have hp2 : p ∉ qs := fun e => hp (List.mem_cons_of_mem _ e)
      rw [i3 p hp2]
      simp [hp1]

theorem TableInv.ptr_nodup {t : SymbolTable} (h : TableInv t) :
    (t.symbols.map (fun e => e.2)).Nodup := by
  have e : (t.symbols.map (fun e => e.2)).map (fun p => (t.store p).name)
      = t.symbols.map (fun e => e.1) := by
    rw [List.map_map]
    exact List.map_congr_left (fun x hx => h.names x hx)
  exact List.Nodup.of_map _ (e ▸ h.keys)

theorem TableInv.name_nodup {t : SymbolTable} (h : TableInv t) {l : List SymPtr}
    (hl : l.Perm (t.symbols.map (fun e => e.2))) :
    (l.map (fun p => (t.store p).name)).Nodup := by
  have e : (t.symbols.map (fun e => e.2)).map (fun p => (t.store p).name)
      = t.symbols.map (fun e => e.1) := by
    rw [List.map_map]
    exact List.map_congr_left (fun x hx => h.names x hx)
  exact ((hl.map _).nodup_iff).mpr (e ▸ h.keys)

theorem TableInv.length_eq {t : SymbolTable} (h : TableInv t) :
    t.sortedSymbols.length = t.Len := by
  rw [h.perm.length_eq]
  simp [SymbolTable.Len]

theorem sortedSymbols_dirty (t : SymbolTable) (h : TableInv t) (hd : t.hasNewInsert = true) :
    t.SortedSymbols
      = (t.sortedSymbols.insertionSort (nameLe t.store),
         { t with sortedSymbols := t.sortedSymbols.insertionSort (nameLe t.store)
                  store := assignIndex (t.sortedSymbols.insertionSort (nameLe t.store)) 0 t.store
                  hasNewInsert := false }) := by
  unfold SymbolTable.SortedSymbols
  have hl := h.length_eq
  simp only [hd, Bool.not_true, Bool.false_eq_true, if_false]
  rw [← hl]
  simp [List.length_insertionSort]

theorem sortedSymbols_clean (t : SymbolTable) (h : TableInv t) (hd : t.hasNewInsert = false) :
    t.SortedSymbols = (t.sortedSymbols, t) := by
  unfold SymbolTable.SortedSymbols
  have hl := h.length_eq
  simp only [hd, Bool.not_false, if_true]
  rw [← hl]
  simp

theorem strict_of_sorted_nodup (store : SymPtr → Symbol) (l : List SymPtr)
    (hs : l.Sorted (nameLe store)) (hn : (l.map (fun p => (store p).name)).Nodup) :
    l.Pairwise (fun a b => (store a).name < (store b).name) := by
  have h1 : l.Pairwise (fun a b => (store a).name ≠ (store b).name) := by
    rw [List.Nodup, List.pairwise_map] at hn
    exact hn
  have h2 : l.Pairwise (fun a b => nameLe store a b ∧ (store a).name ≠ (store b).name) :=
    hs.and h1
  refine h2.imp ?_
  intro a b ⟨hle, hne⟩
  rw [name_lt_iff]
  rw [nameLe_iff] at hle
  exact lt_of_le_of_ne hle (fun e => hne ((name_eq_iff _ _).mpr e))

theorem sortedSymbols_spec (t : SymbolTable) (h : TableInv t) :
    t.SortedSymbols.1.Perm (t.symbols.map (fun e => e.2))
    ∧ t.SortedSymbols.1.Pairwise
        (fun a b => (t.SortedSymbols.2.store a).name < (t.SortedSymbols.2.store b).name)
    ∧ (∀ i (hi : i < t.SortedSymbols.1.length),
        (t.SortedSymbols.2.store (t.SortedSymbols.1.get ⟨i, hi⟩)).index = i)
    ∧ TableInv t.SortedSymbols.2 := by
  cases hd : t.hasNewInsert with
  | false =>
    rw [sortedSymbols_clean t h hd]
    exact ⟨h.perm, (h.sorted hd).1, (h.sorted hd).2, h⟩
  | true =>
    rw [sortedSymbols_dirty t h hd]
    have hperm : (t.sortedSymbols.insertionSort (nameLe t.store)).Perm
        (t.symbols.map (fun e => e.2)) :=
      (List.perm_insertionSort _ _).trans h.perm
    have hnd : (t.sortedSymbols.insertionSort (nameLe t.store)).Nodup :=
      (hperm.nodup_iff).mpr h.ptr_nodup
    obtain ⟨a1, a2, a3⟩ := assignIndex_spec _ 0 t.store hnd
    have hstrict := strict_of_sorted_nodup t.store _ (sorted_by_name t.store t.sortedSymbols)
      (h.name_nodup hperm)
    have hstrict2 : (t.sortedSymbols.insertionSort (nameLe t.store)).Pairwise
        (fun a b => (assignIndex (t.sortedSymbols.insertionSort (nameLe t.store)) 0 t.store a).name
          < (assignIndex (t.sortedSymbols.insertionSort (nameLe t.store)) 0 t.store b).name) :=
      hstrict.imp (fun {a b} hab => by rw [a1 a, a1 b]; exact hab)
    have hidx : ∀ i (hi : i < (t.sortedSymbols.insertionSort (nameLe t.store)).length),
        (assignIndex (t.sortedSymbols.insertionSort (nameLe t.store)) 0 t.store
          ((t.sortedSymbols.insertionSort (nameLe t.store)).get ⟨i, hi⟩)).index = i := by
      intro i hi
      rw [a2 i hi]
      omega
    refine ⟨hperm, hstrict2, hidx, ?_⟩
    exact
      { keys := h.keys
        names := fun e he => by simp only; rw [a1 e.2]; exact h.names e he
        alloc := h.alloc
        perm := hperm
        sorted := fun _ => ⟨hstrict2, hidx⟩ }

theorem tableInv_new : TableInv NewSymbolTable :=
  { keys := by simp [NewSymbolTable]
    names := by simp [NewSymbolTable]
    alloc := by simp [NewSymbolTable]
    perm := by simp [NewSymbolTable]
    sorted := fun _ => by simp [NewSymbolTable] }

theorem get_none_not_key {l : List (String × SymPtr)} {name : String}
    (h : l.lookup name = none) : name ∉ l.map (fun e => e.1) := by
  induction l with
  | nil => simp
  | cons e l ih =>
    obtain ⟨k, v⟩ := e
    cases hk : (name == k) with
    | true => simp [List.lookup, hk] at h
    | false =>
      simp only [List.lookup, hk] at h
      have hne : name ≠ k := by simpa using hk
      simp only [List.map_cons, List.mem_cons, not_or]
      exact ⟨hne, ih h⟩

theorem tableInv_insert (u : UnicodeTables) (t : SymbolTable) (name : String)
    (h : TableInv t) : TableInv (t.Insert u name).2 := by
  cases hg : t.Get name with
  | some p => rw [insert_of_get u hg]; exact h
  | none =>
    obtain ⟨-, f2, -, f4, f5, f6, f7, f8⟩ := insert_fresh u t name hg
    have hold : ∀ e ∈ t.symbols, (t.Insert u name).2.store e.2 = t.store e.2 :=
      fun e he => f8 e.2 (Nat.ne_of_lt (h.alloc e he))
    exact
      { keys := by
          rw [f4, List.map_append, List.map_singleton]
          exact List.Nodup.append h.keys (List.nodup_singleton _)
            (by
              intro a ha hb
              simp only [List.mem_singleton] at hb
              exact get_none_not_key hg (hb ▸ ha))
        names := by
          intro e he
          rw [f4] at he
          rcases List.mem_append.mp he with h1 | h1
          · rw [hold e h1]; exact h.names e h1
          · simp only [List.mem_singleton] at h1
            subst h1
            simp only
            rw [f7]
            rfl
        alloc := by
          intro e he
          rw [f4] at he
          rw [f2]
          rcases List.mem_append.mp he with h1 | h1
          · exact Nat.lt_succ_of_lt (h.alloc e h1)
          · simp only [List.mem_singleton] at h1
            subst h1
            exact Nat.lt_succ_self _
        perm := by
          rw [f4, f5, List.map_append, List.map_singleton]
          exact h.perm.append_right _
        sorted := fun hc => by rw [f6] at hc; simp at hc }

/-- C5: for every well-formed symbol table (`TableInv`, which holds for `NewSymbolTable` and
is kept by `Insert` and by `SortedSymbols`), `SortedSymbols` returns the interned symbols,
each exactly once, in strictly ascending order of name, and afterwards the symbol at
position `i` of the result has index `i`.  Inserting `z`, `a`, `M`, `b` gives `M`, `a`, `b`,
`z` with indices 0 to 3, and the 26 lower-case letters followed by the 26 upper-case letters
give `A`..`Z` followed by `a`..`z`. -/
theorem C5_sorted_symbols (t : SymbolTable) (h : TableInv t) :
    (t.SortedSymbols.1.Perm (t.symbols.map (fun e => e.2)) ∧ t.SortedSymbols.1.Nodup)
    ∧ t.SortedSymbols.1.Pairwise
        (fun a b => (t.SortedSymbols.2.store a).name < (t.SortedSymbols.2.store b).name)
    ∧ (∀ i (hi : i < t.SortedSymbols.1.length),
        (t.SortedSymbols.2.store (t.SortedSymbols.1.get ⟨i, hi⟩)).index = i)
    ∧ (TableInv NewSymbolTable ∧ (∀ u name, TableInv (t.Insert u name).2)
        ∧ TableInv t.SortedSymbols.2)
    ∧ namesAndIndices
        (insertAll asciiTables ["z", "a", "M", "b"] NewSymbolTable).2.SortedSymbols.2
        (insertAll asciiTables ["z", "a", "M", "b"] NewSymbolTable).2.SortedSymbols.1
        = [("M", 0), ("a", 1), ("b", 2), ("z", 3)]
    ∧ ((insertAll asciiTables testLetters NewSymbolTable).2.SortedSymbols.1.map
        (fun p => ((insertAll asciiTables testLetters NewSymbolTable).2.SortedSymbols.2.store
          p).name)) = testLettersSorted := by
  obtain ⟨h1, h2, h3, h4⟩ := sortedSymbols_spec t h
  exact ⟨⟨h1, (h1.nodup_iff).mpr h.ptr_nodup⟩, h2, h3,
    ⟨tableInv_new, fun u name => tableInv_insert u t name h, h4⟩, by decide!, by decide!⟩

theorem tableInv_insertAll (u : UnicodeTables) (names : List String) (t : SymbolTable)
    (h : TableInv t) : TableInv (insertAll u names t).2 := by
  induction names generalizing t with
  | nil => exact h
  | cons n ns ih => exact ih _ (tableInv_insert u t n h)

/-- C5 for the table obtained by inserting `z`, `a`, `M`, `b`. -/
theorem C5_sorted_symbols_witness :
    ((insertAll asciiTables ["z", "a", "M", "b"] NewSymbolTable).2.SortedSymbols.1.Perm
        ((insertAll asciiTables ["z", "a", "M", "b"] NewSymbolTable).2.symbols.map (fun e => e.2))
      ∧ (insertAll asciiTables ["z", "a", "M", "b"] NewSymbolTable).2.SortedSymbols.1.Nodup)
    ∧ (insertAll asciiTables ["z", "a", "M", "b"] NewSymbolTable).2.SortedSymbols.1.Pairwise
        (fun a b =>
          ((insertAll asciiTables ["z", "a", "M", "b"] NewSymbolTable).2.SortedSymbols.2.store
            a).name
          < ((insertAll asciiTables ["z", "a", "M", "b"] NewSymbolTable).2.SortedSymbols.2.store
            b).name) :=
  ⟨(C5_sorted_symbols _ (tableInv_insertAll asciiTables ["z", "a", "M", "b"] NewSymbolTable
      tableInv_new)).1,
   (C5_sorted_symbols _ (tableInv_insertAll asciiTables ["z", "a", "M", "b"] NewSymbolTable
      tableInv_new)).2.1⟩

/-! ### Code blocks -/

theorem advance_nil (m : Machine) (cs : List Char) (h : m.reads cs) : m.advance [] cs = m := by
  obtain ⟨⟨nr, inf, outf, rb, ln⟩, ps, ⟨buf⟩, fed⟩ := m
  simp only [Machine.reads] at h
  subst h
  simp [Machine.advance, countNL]

theorem getRune_reads {m : Machine} {c : Char} {cs : List Char} (h : m.reads (c :: cs)) :
    m.getRune = (some c, { m with lemon := { m.lemon with runeBuf := ⟨cs, noRune⟩ } }) := by
  simp only [Machine.reads] at h
  simp [Machine.getRune, RuneBuffer.GetRune, h]

theorem getRune_reads_nil {m : Machine} (h : m.reads []) : m.getRune = (none, m) := by
  obtain ⟨⟨nr, inf, outf, rb, ln⟩, ps, tok, fed⟩ := m
  simp only [Machine.reads] at h
  subst h
  simp [Machine.getRune, RuneBuffer.GetRune]

theorem advance_cons (m : Machine) (rb : RuneBuffer) (c : Char) (l rest : List Char) :
    ((({ m with lemon := { m.lemon with runeBuf := rb } } : Machine).append c).countLine
      c).advance l rest = m.advance (c :: l) rest := by
  unfold Machine.countLine
  split
  · rename_i h
    simp [Machine.advance, Machine.append, Machine.incLine, Token.AppendRune, countNL, h,
      List.filter_cons]
    omega
  · rename_i h
    simp [Machine.advance, Machine.append, Token.AppendRune, countNL, h, List.filter_cons]

theorem reads_after (m : Machine) (rb : RuneBuffer) (c : Char) (cs : List Char)
    (h : rb = ⟨cs, noRune⟩) :
    ((({ m with lemon := { m.lemon with runeBuf := rb } } : Machine).append c).countLine
      c).reads cs := by
  subst h
  unfold Machine.countLine
  split <;> simp [Machine.reads, Machine.append, Machine.incLine]

theorem codeQuoteLoop_eq (q : Char) (cs : List Char) :
    ∀ (fuel : Nat) (prev : Option Char) (m : Machine), m.reads cs → cs.length < fuel →
      codeQuoteLoop fuel q prev m =
        match quoteSplit q (decide (prev = some '\\')) cs with
        | some r => Step.ok (some q, m.advance r.1 r.2)
        | none => Step.ok (none, m.advance cs []) := by
  induction cs with
  | nil =>
    intro fuel prev m hm hf
    cases fuel with
    | zero => simp at hf
    | succ n =>
      simp only [codeQuoteLoop, quoteSplit, getRune_reads_nil hm]
      rw [advance_nil m [] hm]
  | cons c cs ih =>
    intro fuel prev m hm hf
    cases fuel with
    | zero => simp at hf
    | succ n =>
      have hn : cs.length < n := by simpa using hf
      simp only [codeQuoteLoop, getRune_reads hm]
      by_cases hesc : prev = some '\\'
      · simp only [hesc, or_true, if_true, quoteSplit, decide_True]
        rw [ih n noRune _ (reads_after m _ c cs rfl) hn]
        have : decide (noRune = some '\\') = false := by decide
        rw [this]
        cases hq : quoteSplit q false cs with
        | none => simp only [Option.map_none']; rw [advance_cons]
        | some r => simp only [Option.map_some']; rw [advance_cons]
      · by_cases hc : c = q
        · subst hc
          simp only [hesc, or_false, ne_eq, not_true_eq_false, if_false, quoteSplit,
            decide_False, Bool.false_eq_true, if_true]
          simp [Machine.advance, countNL]
        · simp only [hesc, hc, ne_eq, not_false_eq_true, true_or, if_true, if_false, quoteSplit,
            decide_False, Bool.false_eq_true]
          rw [ih n (some c) _ (reads_after m _ c cs rfl) hn]
          have : decide ((some c : Option Char) = some '\\') = decide (c = '\\') := by simp
          rw [this]
          cases hq : quoteSplit q (decide (c = '\\')) cs with
          | none => simp only [Option.map_none']; rw [advance_cons]
          | some r => simp only [Option.map_some']; rw [advance_cons]

theorem quoteSplit_eq (q : Char) (cs : List Char) :
    ∀ (esc : Bool) (r : List Char × List Char), quoteSplit q esc cs = some r →
      cs = r.1 ++ q :: r.2 := by
  induction cs with
  | nil => intro esc r h; simp [quoteSplit] at h
  | cons c cs ih =>
    intro esc r h
    simp only [quoteSplit] at h
    split at h
    · obtain ⟨r1, h1, h2⟩ := Option.map_eq_some'.mp h
      subst h2
      simp [← ih _ _ h1]
    · split at h
      · rename_i hc
        simp only [Option.some.injEq] at h
        subst h
        simp [hc]
      · obtain ⟨r1, h1, h2⟩ := Option.map_eq_some'.mp h
        subst h2
        simp [← ih _ _ h1]

theorem blockScan_quote (d : Nat) (q : Char) (cs : List Char) :
    ∀ esc : Bool, blockScan (BlockState.quote d q esc) cs =
      (quoteSplit q esc cs).bind fun r =>
        (blockScan (BlockState.code d) r.2).map fun r2 => (r.1 ++ q :: r2.1, r2.2) := by
  induction cs with
  | nil => intro esc; simp [blockScan, quoteSplit]
  | cons c cs ih =>
    intro esc
    simp only [blockScan, quoteSplit]
    split
    · rw [ih]
      cases quoteSplit q false cs with
      | none => simp
      | some r =>
        simp only [Option.map_some', Option.some_bind]
        cases blockScan (BlockState.code d) r.2 <;> simp
    · split
      · rename_i hc
        subst hc
        simp only [Option.some_bind]
        cases blockScan (BlockState.code d) cs <;> simp
      · rw [ih]
        cases quoteSplit q (decide (c = '\\')) cs with
        | none => simp
        | some r =>
          simp only [Option.map_some', Option.some_bind]
          cases blockScan (BlockState.code d) r.2 <;> simp

theorem advance_advance (m : Machine) (a b r1 r2 : List Char) :
    (m.advance a r1).advance b r2 = m.advance (a ++ b) r2 := by
  simp [Machine.advance, countNL, List.filter_append, Nat.add_assoc]

theorem advance_reads (m : Machine) (a r : List Char) : (m.advance a r).reads r := rfl

theorem advance_append (m : Machine) (a r : List Char) (c : Char) (hc : c ≠ '\n') :
    (m.advance a r).append c = m.advance (a ++ [c]) r := by
  simp [Machine.advance, Machine.append, Token.AppendRune, countNL, List.filter_append, hc]

theorem advance_one (m : Machine) (rb : RuneBuffer) (c : Char) (rest : List Char) :
    ((({ m with lemon := { m.lemon with runeBuf := rb } } : Machine).append c).countLine
      c) = (m.advance [c] rest : Machine) ↔ rb = ⟨rest, noRune⟩ := by
  constructor
  · intro h
    have := congrArg (fun x => x.lemon.runeBuf) h
    unfold Machine.countLine at this
    split at this <;> simpa [Machine.advance, Machine.append, Machine.incLine] using this
  · intro h
    subst h
    have := advance_cons m ⟨rest, noRune⟩ c [] rest
    rw [← this]
    exact (advance_nil _ rest (reads_after m _ c rest rfl)).symm

theorem append_eq_advance (m : Machine) (_rb : RuneBuffer) (c : Char) (cs : List Char)
    (hc : c ≠ '\n') :
    (({ m with lemon := { m.lemon with runeBuf := ⟨cs, noRune⟩ } } : Machine).append c)
      = m.advance [c] cs := by
  simp [Machine.advance, Machine.append, Token.AppendRune, countNL, hc]

theorem append_incLine_eq_advance (m : Machine) (cs : List Char) :
    (({ m with lemon := { m.lemon with runeBuf := ⟨cs, noRune⟩ } } : Machine).append
      '\n').incLine = m.advance ['\n'] cs := by
  simp [Machine.advance, Machine.append, Machine.incLine, Token.AppendRune, countNL]

theorem codeLoop_eq :
    ∀ (fuel : Nat) (cs : List Char) (level : Nat) (m : Machine), 1 ≤ level → m.reads cs →
      cs.length < fuel → '/' ∉ cs →
      codeLoop fuel level m =
        match blockScan (BlockState.code level) cs with
        | some r => Step.ok (some '}', m.advance r.1 r.2)
        | none => Step.ok (none, m.advance cs []) := by
  intro fuel
  induction fuel with
  | zero => intro cs level m _ _ hf; simp at hf
  | succ n ih =>
    intro cs level m hl hm hf hs
    cases cs with
    | nil =>
      simp only [codeLoop, blockScan, getRune_reads_nil hm]
      rw [advance_nil m [] hm]
    | cons c cs =>
      have hn : cs.length < n := by simpa using hf
      have hs2 : '/' ∉ cs := fun h => hs (List.mem_cons_of_mem _ h)
      have hc0 : c ≠ '/' := fun h => hs (h ▸ List.mem_cons_self _ _)
      simp only [codeLoop, getRune_reads hm]
      by_cases hcb : c = '}'
      · subst hcb
        by_cases hl1 : level ≤ 1
        · have : ¬ (level > 1 ∨ '}' ≠ '}') := by simp; omega
          simp only [this, if_false, blockScan, if_true, hl1]
          simp [Machine.advance, countNL]
        · have h1 : (level > 1 ∨ '}' ≠ '}') := Or.inl (by omega)
          have h2 : ¬ ('}' = '\n') := by decide
          simp only [h1, if_true, h2, if_false, blockScan, hl1]
          rw [append_eq_advance m ⟨cs, noRune⟩ '}' cs (by decide),
            ih cs (level - 1) _ (by omega) (advance_reads _ _ _) hn hs2]
          cases blockScan (BlockState.code (level - 1)) cs with
          | none => simp [advance_advance]
          | some r => simp [advance_advance]
      · have h1 : (level > 1 ∨ c ≠ '}') := Or.inr hcb
        simp only [h1, if_true, hcb, if_false, blockScan]
        by_cases hnl : c = '\n'
        · subst hnl
          have h3 : ¬ ('\n' = '{') := by decide
          have h4 : ¬ ('\n' = '\'' ∨ '\n' = '"') := by decide
          simp only [if_true, h3, h4, if_false]
          rw [append_incLine_eq_advance,
            ih cs level _ hl (advance_reads _ _ _) hn hs2]
          cases blockScan (BlockState.code level) cs with
          | none => simp [advance_advance]
          | some r => simp [advance_advance]
        · simp only [hnl, if_false]
          rw [append_eq_advance m ⟨cs, noRune⟩ c cs hnl]
          by_cases hob : c = '{'
          · subst hob
            simp only [if_true]
            rw [ih cs (level + 1) _ (by omega) (advance_reads _ _ _) hn hs2]
            cases blockScan (BlockState.code (level + 1)) cs with
            | none => simp [advance_advance]
            | some r => simp [advance_advance]
          · simp only [hob, if_false, hc0]
            by_cases hq : c = '\'' ∨ c = '"'
            · simp only [hq, if_true]
              rw [codeQuoteLoop_eq c cs n noRune _ (advance_reads _ _ _) hn]
              have hd : decide (noRune = some '\\') = false := by decide
              rw [hd, blockScan_quote]
              cases hqs : quoteSplit c false cs with
              | none =>
                simp only [Step.bind, Option.none_bind, Option.map_none']
                rw [ih [] level _ hl (advance_reads _ _ _) (by simp only [List.length_nil]; omega)
                  (by simp)]
                simp [blockScan, advance_advance]
              | some r =>
                have hcs := quoteSplit_eq c cs false r hqs
                have hlen : r.2.length < n := by
                  have := congrArg List.length hcs
                  simp at this
                  omega
                have hs3 : '/' ∉ r.2 := by
                  intro h
                  apply hs2
                  rw [hcs]
                  simp [h]
                have hcn : c ≠ '\n' := hnl
                simp only [Step.bind, Option.some_bind]
                rw [advance_advance, advance_append _ _ _ _ hcn,
                  ih r.2 level _ hl (advance_reads _ _ _) hlen hs3]
                cases blockScan (BlockState.code level) r.2 with
                | none =>
                  simp only [Option.map_none']
                  rw [advance_advance]
                  simp [hcs]
                | some r2 =>
                  simp only [Option.map_some']
                  rw [advance_advance]
                  simp
            · simp only [hq, if_false]
              rw [ih cs level _ hl (advance_reads _ _ _) hn hs2]
              cases blockScan (BlockState.code level) cs with
              | none => simp [advance_advance]
              | some r => simp [advance_advance]

theorem blockScan_eq (cs : List Char) :
    ∀ (st : BlockState) (r : List Char × List Char), blockScan st cs = some r →
      cs = r.1 ++ '}' :: r.2 := by
  induction cs with
  | nil => intro st r h; cases st <;> simp [blockScan] at h
  | cons c cs ih =>
    intro st r h
    cases st with
    | code d =>
      simp only [blockScan] at h
      split at h
      · rename_i hc
        split at h
        · simp only [Option.some.injEq] at h
          subst h
          simp [hc]
        · obtain ⟨r1, h1, h2⟩ := Option.map_eq_some'.mp h
          subst h2
          simp [← ih _ _ h1]
      · split at h
        · obtain ⟨r1, h1, h2⟩ := Option.map_eq_some'.mp h
          subst h2
          simp [← ih _ _ h1]
        · split at h
          · obtain ⟨r1, h1, h2⟩ := Option.map_eq_some'.mp h
            subst h2
            simp [← ih _ _ h1]
          · obtain ⟨r1, h1, h2⟩ := Option.map_eq_some'.mp h
            subst h2
            simp [← ih _ _ h1]
    | quote d q esc =>
      simp only [blockScan] at h
      split at h
      · obtain ⟨r1, h1, h2⟩ := Option.map_eq_some'.mp h
        subst h2
        simp [← ih _ _ h1]
      · split at h
        · obtain ⟨r1, h1, h2⟩ := Option.map_eq_some'.mp h
          subst h2
          simp [← ih _ _ h1]
        · obtain ⟨r1, h1, h2⟩ := Option.map_eq_some'.mp h
          subst h2
          simp [← ih _ _ h1]

theorem scanToken_block (u : UnicodeTables) (fuel : Nat) (m : Machine) (rest : List Char)
    (hm : m.reads ('{' :: rest)) (hf : rest.length < fuel) (hs : '/' ∉ rest) :
    scanToken u fuel m =
      match blockScan (BlockState.code 1) rest with
      | some r => Step.ok (Scanned.token, m.startTok.advance ('{' :: r.1 ++ ['}']) r.2)
      | none =>
        errorf (m.startTok.advance ('{' :: rest) []).incErr (m.lemon.lineno + countNL rest)
          codeNotTerminated := by
  have h0 : util.IsSpace (some '{') = false := by decide
  have e1 : ('{' : Char) ≠ '/' := by decide
  have e2 : ('{' : Char) ≠ '\'' := by decide
  have e3 : ('{' : Char) ≠ '<' := by decide
  have e4 : ('{' : Char) ≠ '\n' := by decide
  have hm2 : (Machine.append
      { lemon := { m.lemon with runeBuf := ⟨rest, noRune⟩ }
        ps := { m.ps with startTokLineno := m.lemon.lineno }
        token := m.token, fed := m.fed } '{') = m.startTok.advance ['{'] rest := by
    simp [Machine.advance, Machine.append, Machine.startTok, Token.AppendRune, countNL]
  simp only [scanToken, getRune_reads hm, Machine.countLine, e4, if_false, h0, e1, e2, e3,
    Bool.false_eq_true, if_true]
  rw [hm2, codeLoop_eq fuel rest 1 _ (le_refl 1) (advance_reads _ _ _) hf hs]
  cases blockScan (BlockState.code 1) rest with
  | none =>
    simp only [Step.bind, advance_advance, codeNotTerminated]
    simp [Machine.advance, Machine.startTok, countNL, errorf, Machine.incErr]
  | some r =>
    simp only [Step.bind, advance_advance]
    rw [advance_append _ _ _ _ (by decide)]
    simp

/-! ### C4: code-block tokens -/

/-- C4 fails as worded: in the input `{'\\'}'}` the second quote is preceded by a backslash
and yet closes its region (the backslash is itself escaped), so the token ends at the first
closing brace; read with "a quote preceded by a backslash does not close its region" the
region would run on to the third quote and the token would be the whole input. -/
theorem C4_escaped_backslash_closes_region :
    firstToken "\x7b'\\\\'\x7d'\x7d" = some ("\x7b'\\\\'\x7d", "'\x7d")
    ∧ blockScanLiteral 1 none "'\\\\'\x7d'\x7d".data = some ("'\\\\'\x7d'".data, [])
    ∧ blockScan (BlockState.code 1) "'\\\\'\x7d'\x7d".data = some ("'\\\\'".data, "'\x7d".data) := by
  decide!

/-- C4, amended: when the reader stands at `{` followed by `rest`, `rest` holds no `/`, and
the block is terminated (`blockScan` finds the closing brace: the first `}` outside any
quoted region that brings the nesting back to zero, where inside a region a backslash escapes
the next codepoint, be it a quote or a backslash), the tokenizer assembles as one token
exactly `{`, the text up to that brace, and `}`: appended to what the token held (nothing for
a fresh token), followed by the unread input it is the input itself, nothing added, dropped
or reordered.  For `{ a { b } 'c}' "d\"e" }` the token is the whole input. -/
theorem C4_code_block_verbatim (u : UnicodeTables) (fuel : Nat) (m : Machine)
    (rest : List Char) (r : List Char × List Char) (hm : m.reads ('{' :: rest))
    (hf : rest.length < fuel) (hs : '/' ∉ rest)
    (ht : blockScan (BlockState.code 1) rest = some r) :
    (∃ m1, scanToken u fuel m = Step.ok (Scanned.token, m1)
      ∧ m1.token.buffer = m.token.buffer ++ ('{' :: r.1 ++ ['}'])
      ∧ m1.reads r.2
      ∧ m1.fed = m.fed)
    ∧ ('{' :: r.1 ++ ['}']) ++ r.2 = '{' :: rest
    ∧ firstToken "\x7b a \x7b b \x7d 'c\x7d' \"d\\\"e\" \x7d"
        = some ("\x7b a \x7b b \x7d 'c\x7d' \"d\\\"e\" \x7d", "")
    ∧ ("\x7b a \x7b b \x7d 'c\x7d' \"d\\\"e\" \x7d".data.drop 1).dropLast
        = " a \x7b b \x7d 'c\x7d' \"d\\\"e\" ".data := by
  refine ⟨?_, ?_, by decide!, by decide⟩
  · refine ⟨m.startTok.advance ('{' :: r.1 ++ ['}']) r.2, ?_, rfl, rfl, rfl⟩
    rw [scanToken_block u fuel m rest hm hf hs, ht]
  · rw [blockScan_eq rest _ r ht]
    simp

/-- C4, amended, for the input `{a'}'}b` read with a fresh token: the token is `{a'}'}` and
`b` is left unread. -/
theorem C4_code_block_verbatim_witness :
    ∃ m1, scanToken asciiTables 8
        ⟨NewLemon "in.y" "in.go" "\x7ba'\x7d'\x7db".data, NewParserState, NewToken, []⟩
        = Step.ok (Scanned.token, m1)
      ∧ m1.token.buffer
          = (⟨NewLemon "in.y" "in.go" "\x7ba'\x7d'\x7db".data, NewParserState, NewToken,
              []⟩ : Machine).token.buffer ++ ('{' :: "a'\x7d'".data ++ ['}'])
      ∧ m1.reads "b".data
      ∧ m1.fed = (⟨NewLemon "in.y" "in.go" "\x7ba'\x7d'\x7db".data, NewParserState, NewToken,
              []⟩ : Machine).fed :=
  (C4_code_block_verbatim asciiTables 8
    ⟨NewLemon "in.y" "in.go" "\x7ba'\x7d'\x7db".data, NewParserState, NewToken, []⟩
    "a'\x7d'\x7db".data ("a'\x7d'".data, "b".data) rfl (by decide) (by decide)
    (by decide)).1

/-! ### C15: identifier tokens -/

/-- C15 fails for the codepoint U+0000: after the identifier `a` in the input `a`, U+0000,
`b`, the pushed-back U+0000 is lost and the next rune read is `b`; after `a` in `a b` it is
the space. -/
theorem C15_nul_after_identifier_is_lost :
    firstToken "a\x00b" = some ("a", "b")
    ∧ runeAfterFirstToken "a\x00b" = some (some 'b')
    ∧ runeAfterFirstToken "a b" = some (some ' ') := by
  decide!

theorem identLoop_eq (u : UnicodeTables) (run : List Char) :
    ∀ (fuel : Nat) (m : Machine) (after : List Char), m.reads (run ++ after) →
      (run ++ after).length < fuel → (∀ c ∈ run, identRune u c = true) →
      (∀ e rest, after = e :: rest → identRune u e = false) →
      identLoop u fuel m =
        Step.ok (after.head?,
          { m with
            lemon := { m.lemon with runeBuf := ⟨after.tail, noRune⟩ }
            token := ⟨m.token.buffer ++ run⟩ }) := by
  induction run with
  | nil =>
    intro fuel m after hm hf _ ha
    cases fuel with
    | zero => simp at hf
    | succ n =>
      cases after with
      | nil =>
        simp only [List.append_nil] at hm
        simp only [identLoop, getRune_reads_nil hm, List.head?, List.tail, List.append_nil]
        obtain ⟨⟨nr, inf, outf, rb, ln⟩, ps, ⟨buf⟩, fed⟩ := m
        simp only [Machine.reads] at hm
        subst hm
        rfl
      | cons e rest =>
        simp only [List.nil_append] at hm
        have he := ha e rest rfl
        simp only [identRune] at he
        simp only [identLoop, getRune_reads hm, he, Bool.false_eq_true, if_false, List.head?,
          List.tail, List.append_nil]
  | cons c run ih =>
    intro fuel m after hm hf hr ha
    cases fuel with
    | zero => simp at hf
    | succ n =>
      have hc := hr c (List.mem_cons_self _ _)
      simp only [identRune] at hc
      simp only [List.cons_append] at hm
      simp only [identLoop, getRune_reads hm, hc, if_true]
      rw [ih n _ after (by simp [Machine.reads, Machine.append])
        (by simpa using hf) (fun x hx => hr x (List.mem_cons_of_mem _ hx)) ha]
      simp [Machine.append, Token.AppendRune]

theorem not_space_ne_newline {c : Char} (h : util.IsSpace (some c) = false) : c ≠ '\n' := by
  intro e
  subst e
  exact absurd h (by decide)

/-- C15, amended: when the main loop stands at a codepoint `c0` that starts an identifier,
followed by a run of codepoints that are alphanumeric or `_` and then by `after`, which is
empty or starts with a codepoint that is neither and is not U+0000, the token assembled is
`c0` with the whole run (the longest such run), and the reader is left so that the next
`GetRune` behaves exactly as on the unread input `after` with nothing pushed back: the first
codepoint of `after` has not been consumed. -/
theorem C15_identifier_token (u : UnicodeTables) (fuel : Nat) (m : Machine) (c0 : Char)
    (run after : List Char) (hm : m.reads (c0 :: run ++ after))
    (hf : (run ++ after).length < fuel) (h0 : identStart u c0)
    (hr : ∀ c ∈ run, identRune u c = true)
    (ha : ∀ e rest, after = e :: rest → identRune u e = false ∧ e ≠ Char.ofNat 0) :
    ∃ m1, scanToken u fuel m = Step.ok (Scanned.token, m1)
      ∧ m1.token.buffer = m.token.buffer ++ c0 :: run
      ∧ m1.lemon.runeBuf.GetRune = (⟨after, noRune⟩ : RuneBuffer).GetRune
      ∧ m1.fed = m.fed := by
  obtain ⟨a1, a2, a3, a4, a5, a6⟩ := h0
  have hnl := not_space_ne_newline a2
  have hloop := identLoop_eq u run fuel
    (Machine.append
      { lemon := { m.lemon with runeBuf := ⟨run ++ after, noRune⟩ }
        ps := { m.ps with startTokLineno := m.lemon.lineno }
        token := m.token, fed := m.fed } c0) after
    (by simp [Machine.reads, Machine.append]) hf hr (fun e rest h => (ha e rest h).1)
  simp only [List.cons_append] at hm
  simp only [scanToken, getRune_reads hm, Machine.countLine, hnl, if_false, a2, a3, a4, a5,
    a6, a1, Bool.false_eq_true, if_true]
  rw [hloop]
  cases after with
  | nil =>
    simp only [Step.bind, List.head?]
    refine ⟨_, rfl, ?_, ?_, rfl⟩
    · simp [Machine.append, Token.AppendRune]
    · simp [Machine.append]
  | cons e rest =>
    have hne : (some e : Option Char) ≠ noRune := by
      simp only [noRune, ne_eq, Option.some.injEq]
      exact (ha e rest rfl).2
    simp only [Step.bind, List.head?, List.tail, RuneBuffer.UngetRune, Machine.append,
      ne_eq, not_true_eq_false, if_false]
    refine ⟨_, rfl, ?_, ?_, rfl⟩
    · simp [Token.AppendRune]
    · simp [RuneBuffer.GetRune, hne]

/-- C15, amended, for the identifier `ab_1` followed by `;x`. -/
theorem C15_identifier_token_witness :
    ∃ m1, scanToken asciiTables 7
        ⟨NewLemon "in.y" "in.go" "ab_1;x".data, NewParserState, NewToken, []⟩
        = Step.ok (Scanned.token, m1)
      ∧ m1.token.buffer
          = (⟨NewLemon "in.y" "in.go" "ab_1;x".data, NewParserState, NewToken, []⟩
              : Machine).token.buffer ++ 'a' :: "b_1".data
      ∧ m1.lemon.runeBuf.GetRune = (⟨";x".data, noRune⟩ : RuneBuffer).GetRune
      ∧ m1.fed = (⟨NewLemon "in.y" "in.go" "ab_1;x".data, NewParserState, NewToken, []⟩
              : Machine).fed :=
  C15_identifier_token asciiTables 7
    ⟨NewLemon "in.y" "in.go" "ab_1;x".data, NewParserState, NewToken, []⟩ 'a' "b_1".data
    ";x".data rfl (by decide)
    ⟨by decide, by decide, by decide, by decide, by decide, by decide⟩ (by decide)
    (by
      intro e rest h
      have h1 : e = ';' := by
        have := congrArg List.head? h
        simpa using this.symm
      subst h1
      decide)

/-! ### Line numbers do not steer the run -/

theorem noLines_noLines (m : Machine) : m.noLines.noLines = m.noLines := by
  simp [Machine.noLines, Rule.noLines, Function.comp_def]

theorem noLines_bind {α β : Type} (g : α → α) (h : β → β) (s s' : Step α)
    (f f' : α → Step β) (hs : s.noLines g = s'.noLines g)
    (hf : ∀ a a', g a = g a' → (f a).noLines h = (f' a').noLines h) :
    (s.bind f).noLines h = (s'.bind f').noLines h := by
  cases s <;> cases s' <;> simp only [Step.noLines, Step.bind, reduceCtorEq] at hs ⊢ <;>
    first
    | exact hf _ _ (Step.ok.inj hs)
    | (injection hs with h1 h2; rw [h1, h2])
    | (injection hs with h1; rw [h1])

theorem getRune_noLines (m : Machine) :
    m.noLines.getRune = (m.getRune.1, m.getRune.2.noLines) := rfl

theorem append_noLines (m : Machine) (c : Char) : (m.append c).noLines = m.noLines.append c := rfl

theorem incLine_noLines (m : Machine) : m.incLine.noLines = m.noLines := rfl

theorem countLine_noLines (m : Machine) (c : Char) : (m.countLine c).noLines = m.noLines := by
  unfold Machine.countLine; split <;> rfl

theorem lineCommentLoop_noLines (fuel : Nat) (cur : Option Char) (m : Machine) :
    (lineCommentLoop fuel cur m).noLines Machine.noLines
      = (lineCommentLoop fuel cur m.noLines).noLines Machine.noLines := by
  induction fuel generalizing cur m with
  | zero => rfl
  | succ n ih =>
    unfold lineCommentLoop
    cases cur with
    | none => simp only [Step.noLines, errorf, noLines_noLines]; rfl
    | some c =>
      simp only []
      by_cases hc : c = '\n'
      · simp only [hc, if_true, Step.noLines, incLine_noLines, noLines_noLines]
      · simp only [hc, if_false]
        rw [ih, ih m.noLines.getRune.1, getRune_noLines, noLines_noLines]

theorem blockCommentLoop_noLines (fuel : Nat) (prev : Option Char) (m : Machine) :
    (blockCommentLoop fuel prev m).noLines Machine.noLines
      = (blockCommentLoop fuel prev m.noLines).noLines Machine.noLines := by
  induction fuel generalizing prev m with
  | zero => rfl
  | succ n ih =>
    unfold blockCommentLoop
    simp only [getRune_noLines]
    cases hr : m.getRune.1 with
    | none => simp only [Step.noLines, errorf, noLines_noLines]; rfl
    | some c =>
      simp only []
      by_cases hc : prev ≠ some '*' ∨ c ≠ '/'
      · simp only [hc, if_true]
        rw [ih, ih _ (m.getRune.2.noLines.countLine c), countLine_noLines, countLine_noLines,
          noLines_noLines]
      · simp only [hc, if_false, Step.noLines, noLines_noLines]

theorem skipComment_noLines (fuel : Nat) (m : Machine) :
    (skipComment fuel m).noLines Machine.noLines
      = (skipComment fuel m.noLines).noLines Machine.noLines := by
  unfold skipComment
  simp only [getRune_noLines]
  split
  · rw [lineCommentLoop_noLines, lineCommentLoop_noLines _ _ m.getRune.2.noLines, noLines_noLines]
  · split
    · simp only [Step.noLines, errorf, noLines_noLines]; rfl
    · rw [blockCommentLoop_noLines, blockCommentLoop_noLines _ _ m.getRune.2.noLines,
        noLines_noLines]
theorem untilLoop_noLines (fuel : Nat) (stop : Char) (m : Machine) :
    (untilLoop fuel stop m).noLines pairNoLines
      = (untilLoop fuel stop m.noLines).noLines pairNoLines := by
  induction fuel generalizing m with
  | zero => rfl
  | succ n ih =>
    unfold untilLoop
    simp only [getRune_noLines]
    cases hr : m.getRune.1 with
    | none => simp only [Step.noLines, pairNoLines, noLines_noLines]
    | some c =>
      simp only []
      split
      · rw [ih, ih (m.getRune.2.noLines.append c), append_noLines, append_noLines, noLines_noLines]
      · simp only [Step.noLines, pairNoLines, noLines_noLines]

theorem identLoop_noLines (u : UnicodeTables) (fuel : Nat) (m : Machine) :
    (identLoop u fuel m).noLines pairNoLines
      = (identLoop u fuel m.noLines).noLines pairNoLines := by
  induction fuel generalizing m with
  | zero => rfl
  | succ n ih =>
    unfold identLoop
    simp only [getRune_noLines]
    cases hr : m.getRune.1 with
    | none => simp only [Step.noLines, pairNoLines, noLines_noLines]
    | some c =>
      simp only []
      split
      · rw [ih, ih (m.getRune.2.noLines.append c), append_noLines, append_noLines, noLines_noLines]
      · simp only [Step.noLines, pairNoLines, noLines_noLines]

theorem codeQuoteLoop_noLines (fuel : Nat) (e : Char) (prev : Option Char) (m : Machine) :
    (codeQuoteLoop fuel e prev m).noLines pairNoLines
      = (codeQuoteLoop fuel e prev m.noLines).noLines pairNoLines := by
  induction fuel generalizing prev m with
  | zero => rfl
  | succ n ih =>
    unfold codeQuoteLoop
    simp only [getRune_noLines]
    cases hr : m.getRune.1 with
    | none => simp only [Step.noLines, pairNoLines, noLines_noLines]
    | some c =>
      simp only []
      split
      · rw [ih, ih _ ((m.getRune.2.noLines.append c).countLine c), countLine_noLines,
          countLine_noLines, append_noLines, append_noLines, noLines_noLines]
      · simp only [Step.noLines, pairNoLines, noLines_noLines]

theorem codeLoop_noLines (fuel level : Nat) (m : Machine) :
    (codeLoop fuel level m).noLines pairNoLines
      = (codeLoop fuel level m.noLines).noLines pairNoLines := by
  induction fuel generalizing level m with
  | zero => rfl
  | succ n ih =>
    unfold codeLoop
    simp only [getRune_noLines]
    cases hr : m.getRune.1 with
    | none => simp only [Step.noLines, pairNoLines, noLines_noLines]
    | some c =>
      simp only []
      have key : ∀ (l : Nat) (a b : Machine), a.noLines = b.noLines →
          (codeLoop n l a).noLines pairNoLines = (codeLoop n l b).noLines pairNoLines := by
        intro l a b hab
        rw [ih l a, ih l b, hab]
      split
      · split
        · exact key _ _ _ (by simp only [incLine_noLines, append_noLines, noLines_noLines])
        · split
          · exact key _ _ _ (by simp only [append_noLines, noLines_noLines])
          · split
            · exact key _ _ _ (by simp only [append_noLines, noLines_noLines])
            · split
              · refine noLines_bind Machine.noLines pairNoLines _ _ _ _ ?_ ?_
                · rw [skipComment_noLines, skipComment_noLines _ (m.getRune.2.noLines.append c),
                    append_noLines, append_noLines, noLines_noLines]
                · intro a b hab
                  exact key _ _ _ hab
              · split
                · refine noLines_bind pairNoLines pairNoLines _ _ _ _ ?_ ?_
                  · rw [codeQuoteLoop_noLines,
                      codeQuoteLoop_noLines _ _ _ (m.getRune.2.noLines.append c),
                      append_noLines, append_noLines, noLines_noLines]
                  · intro a b hab
                    have h1 : a.1 = b.1 :=
                      (congrArg Prod.fst hab : (pairNoLines a).1 = (pairNoLines b).1)
                    have h2 : a.2.noLines = b.2.noLines :=
                      (congrArg Prod.snd hab : (pairNoLines a).2 = (pairNoLines b).2)
                    rw [h1]
                    cases b.1 with
                    | none => exact key _ _ _ h2
                    | some e => exact key _ _ _ (by simp only [append_noLines, h2])
                · exact key _ _ _ (by simp only [append_noLines, noLines_noLines])
      · simp only [Step.noLines, pairNoLines, noLines_noLines]
theorem noLines_infile {a b : Machine} (h : a.noLines = b.noLines) :
    a.lemon.infile = b.lemon.infile :=
  (congrArg (fun x : Machine => x.lemon.infile) h : a.noLines.lemon.infile = b.noLines.lemon.infile)

theorem noLines_runeBuf {a b : Machine} (h : a.noLines = b.noLines) :
    a.lemon.runeBuf = b.lemon.runeBuf :=
  (congrArg (fun x : Machine => x.lemon.runeBuf) h :
    a.noLines.lemon.runeBuf = b.noLines.lemon.runeBuf)

theorem errorf_noLines {α : Type} (g : α → α) {a b : Machine} (h : a.noLines = b.noLines)
    (l l' : Nat) (f : String) :
    (errorf a l f : Step α).noLines g = (errorf b l' f : Step α).noLines g := by
  simp only [errorf, Step.noLines, h, noLines_infile h]

theorem incErr_noLines (m : Machine) : m.incErr.noLines = m.noLines.incErr := rfl

theorem pairNoLines_eq {α : Type} {a b : α × Machine} (h : pairNoLines a = pairNoLines b) :
    a.1 = b.1 ∧ a.2.noLines = b.2.noLines :=
  ⟨(congrArg Prod.fst h : (pairNoLines a).1 = (pairNoLines b).1),
   (congrArg Prod.snd h : (pairNoLines a).2 = (pairNoLines b).2)⟩

theorem scanToken_noLines (u : UnicodeTables) (fuel : Nat) (m : Machine) :
    (scanToken u fuel m).noLines pairNoLines
      = (scanToken u fuel m.noLines).noLines pairNoLines := by
  unfold scanToken
  simp only [getRune_noLines]
  cases hr : m.getRune.1 with
  | none => simp only [Step.noLines, pairNoLines, noLines_noLines]
  | some c =>
    simp only []
    have hAB : (m.getRune.2.countLine c).noLines = (m.getRune.2.noLines.countLine c).noLines := by
      rw [countLine_noLines, countLine_noLines, noLines_noLines]
    generalize m.getRune.2.countLine c = A at hAB ⊢
    generalize m.getRune.2.noLines.countLine c = B at hAB ⊢
    have htok : (({ A with ps := { A.ps with startTokLineno := A.lemon.lineno } } :
          Machine).append c).noLines
        = (({ B with ps := { B.ps with startTokLineno := B.lemon.lineno } } :
          Machine).append c).noLines := by
      show A.noLines.append c = B.noLines.append c
      rw [hAB]
    generalize (({ A with ps := { A.ps with startTokLineno := A.lemon.lineno } } :
          Machine).append c) = TA at htok ⊢
    generalize (({ B with ps := { B.ps with startTokLineno := B.lemon.lineno } } :
          Machine).append c) = TB at htok ⊢
    have hend : ∀ (f : String) (a b : Option Char × Machine), pairNoLines a = pairNoLines b →
        (match a.1 with
          | none => (errorf a.2.incErr a.2.lemon.lineno f : Step (Scanned × Machine))
          | some e => Step.ok (Scanned.token, a.2.append e)).noLines pairNoLines
        = (match b.1 with
          | none => (errorf b.2.incErr b.2.lemon.lineno f : Step (Scanned × Machine))
          | some e => Step.ok (Scanned.token, b.2.append e)).noLines pairNoLines := by
      intro f a b hab
      obtain ⟨h1, h2⟩ := pairNoLines_eq hab
      rw [h1]
      cases b.1 with
      | none => exact errorf_noLines _ (by rw [incErr_noLines, incErr_noLines, h2]) _ _ _
      | some e => simp only [Step.noLines, pairNoLines, append_noLines, h2]
    split
    · simp only [Step.noLines, pairNoLines, hAB]
    · split
      · refine noLines_bind Machine.noLines pairNoLines _ _ _ _ ?_ ?_
        · rw [skipComment_noLines, skipComment_noLines _ B, hAB]
        · intro a b hab
          simp only [Step.noLines, pairNoLines, hab]
      · split
        · refine noLines_bind pairNoLines pairNoLines _ _ _ _ ?_ (hend _)
          rw [untilLoop_noLines, untilLoop_noLines _ _ TB, htok]
        · split
          · refine noLines_bind pairNoLines pairNoLines _ _ _ _ ?_ (hend _)
            rw [untilLoop_noLines, untilLoop_noLines _ _ TB, htok]
          · split
            · refine noLines_bind pairNoLines pairNoLines _ _ _ _ ?_ (hend _)
              rw [codeLoop_noLines, codeLoop_noLines _ _ TB, htok]
            · split
              · refine noLines_bind pairNoLines pairNoLines _ _ _ _ ?_ ?_
                · rw [identLoop_noLines, identLoop_noLines _ _ TB, htok]
                · intro a b hab
                  obtain ⟨h1, h2⟩ := pairNoLines_eq hab
                  rw [h1, noLines_runeBuf h2]
                  cases b.1 with
                  | none => simp only [Step.noLines, pairNoLines, h2]
                  | some e =>
                    simp only []
                    cases b.2.lemon.runeBuf.UngetRune (some e) with
                    | none => rfl
                    | some rb =>
                      simp only [Step.noLines, pairNoLines]
                      have : ∀ x : Machine,
                          ({ x with lemon := { x.lemon with runeBuf := rb } } : Machine).noLines
                            = { x.noLines with lemon := { x.noLines.lemon with runeBuf := rb } } :=
                        fun _ => rfl
                      rw [this, this, h2]
              · simp only [Step.noLines, pairNoLines, htok]
theorem ruleNoLines_idem (r : Rule) : r.noLines.noLines = r.noLines := rfl

theorem defineSymbol_noLines (u : UnicodeTables) (m : Machine) (n : String) :
    (defineSymbol u m n).noLines pairNoLines
      = (defineSymbol u m.noLines n).noLines pairNoLines := by
  unfold defineSymbol
  have h1 : m.noLines.ps.prevKeyword = m.ps.prevKeyword := rfl
  have h2 : m.noLines.ps.symTable = m.ps.symTable := rfl
  have h3 : m.noLines.ps.prevTag = m.ps.prevTag := rfl
  have h4 : m.noLines.ps.precCounter = m.ps.precCounter := rfl
  simp only [h1, h2, h3, h4]
  have hst : ∀ (x : Machine) (t : SymbolTable), x.noLines.setTable t = (x.setTable t).noLines :=
    fun _ _ => rfl
  have hpc : ∀ (x : Machine) (t : SymbolTable) (k : Nat),
      ({ x.noLines with ps := { x.noLines.ps with symTable := t, precCounter := k } } : Machine)
        = ({ x with ps := { x.ps with symTable := t, precCounter := k } } : Machine).noLines :=
    fun _ _ _ => rfl
  have hin : m.noLines.lemon.infile = m.lemon.infile := rfl
  cases m.ps.prevKeyword <;> simp only [] <;>
    first
    | (split <;> (simp only [Step.noLines, pairNoLines, errorf, hst, hpc, noLines_noLines]; done))
    | (simp only [Step.noLines, pairNoLines, errorf, hst, hpc, noLines_noLines]; done)
    | (split <;> simp only [Step.noLines, pairNoLines, errorf, hst, hpc, noLines_noLines] <;> rfl)

theorem onPrevRule_noLines (m : Machine) (f f' : Rule → Rule)
    (hf : ∀ r, (f r).noLines = (f' r.noLines).noLines) :
    (m.onPrevRule f).noLines Machine.noLines
      = (m.noLines.onPrevRule f').noLines Machine.noLines := by
  unfold Machine.onPrevRule
  have h1 : m.noLines.ps.prevRule = m.ps.prevRule := rfl
  have h2 : m.noLines.ps.rules = m.ps.rules.map Rule.noLines := rfl
  simp only [h1, h2]
  cases m.ps.prevRule with
  | none => rfl
  | some p =>
    simp only [List.getElem?_map]
    cases m.ps.rules[p]? with
    | none => rfl
    | some rule =>
      simp only [Option.map_some', Step.noLines, Machine.noLines, List.map_set, hf,
        List.map_map, Function.comp_def, ruleNoLines_idem]

theorem prevRuleVal_noLines (m : Machine) :
    m.noLines.prevRuleVal = m.prevRuleVal.map Rule.noLines := by
  unfold Machine.prevRuleVal
  have h1 : m.noLines.ps.prevRule = m.ps.prevRule := rfl
  have h2 : m.noLines.ps.rules = m.ps.rules.map Rule.noLines := rfl
  rw [h1, h2]
  cases m.ps.prevRule with
  | none => rfl
  | some p => simp only [Option.some_bind, List.getElem?_map]

theorem addRule_noLines (m : Machine) (s : SymPtr) (l l' : Nat) :
    (m.addRule s l).noLines = (m.noLines.addRule s l').noLines := by
  simp only [Machine.addRule, Machine.noLines, Machine.setTable, Machine.appendRule, NewRule,
    List.map_append, List.map_map, List.length_map, Function.comp_def, Rule.noLines,
    List.map_cons, List.map_nil]
  rfl
theorem map_noLines_idem (rs : List Rule) :
    (rs.map Rule.noLines).map Rule.noLines = rs.map Rule.noLines := by
  rw [List.map_map]; rfl

theorem ok_noLines (a b : Machine) (h : a.noLines = b.noLines) :
    (Step.ok a).noLines Machine.noLines = (Step.ok b).noLines Machine.noLines := by
  simp only [Step.noLines, h]

theorem parseOneToken_noLines (u : UnicodeTables) (m : Machine) :
    (parseOneToken u m).noLines Machine.noLines
      = (parseOneToken u m.noLines).noLines Machine.noLines := by
  unfold parseOneToken
  have h1 : m.noLines.token = m.token := rfl
  have h2 : m.noLines.ps.curState = m.ps.curState := rfl
  have h3 : m.noLines.ps.prevKeyword = m.ps.prevKeyword := rfl
  have h4 : m.noLines.ps.unionCode = m.ps.unionCode := rfl
  have h5 : m.noLines.RuleCount = m.RuleCount := rfl
  have h6 : m.noLines.ps.symTable = m.ps.symTable := rfl
  have h7 : m.noLines.ps.subroutine = m.ps.subroutine := rfl
  have h8 : m.noLines.ps.startTokLineno = 0 := rfl
  simp only [h1, h2, h3, h4, h5, h6, h7, h8, prevRuleVal_noLines]
  cases ha : m.token.FirstRune with
  | none => rfl
  | some a =>
    cases hb : m.token.LastRune with
    | none => rfl
    | some b =>
      simp only []
      cases hs : m.ps.curState <;> simp only []
      case WaitKwDefOrRule2 =>
        by_cases hp : a = '%'
        · simp only [hp, if_true]
          exact ok_noLines _ _ (by simp only [Machine.noLines, Machine.setState, Machine.incErr,
              Machine.setTable, map_noLines_idem])
        · simp only [hp, if_false]
          cases findKeyword (toUpperStr u m.token.String) with
          | none =>
            simp only [h3]
            split_ifs
            · exact errorf_noLines _ (by simp only [Machine.noLines, Machine.setState, Machine.incErr,
              Machine.setTable, map_noLines_idem]) _ _ _
            · exact ok_noLines _ _ (by simp only [Machine.noLines, Machine.setState, Machine.incErr,
              Machine.setTable, map_noLines_idem])
          | some k =>
            simp only []
            split_ifs
            · exact errorf_noLines _ (by simp only [Machine.noLines, Machine.setState, Machine.incErr,
              Machine.setTable, map_noLines_idem]) _ _ _
            · exact ok_noLines _ _ (by simp only [Machine.noLines, Machine.setState, Machine.incErr,
              Machine.setTable, map_noLines_idem])
      case WaitOpenBrace =>
        by_cases hp : a ≠ '{' ∨ b ≠ '}'
        · rw [if_pos hp, if_pos hp]
          exact errorf_noLines _ (by simp only [Machine.noLines, Machine.setState, Machine.incErr,
              Machine.setTable, map_noLines_idem]) _ _ _
        · rw [if_neg hp, if_neg hp]
          cases m.token.NthRune ((m.token.RuneCount : Int) - 2) with
          | none => rfl
          | some r =>
            simp only []
            split_ifs
            · exact errorf_noLines _ (by simp only [Machine.noLines, Machine.setState, Machine.incErr,
              Machine.setTable, map_noLines_idem]) _ _ _
            · rfl
            · exact ok_noLines _ _ (by simp only [Machine.noLines, Machine.setState, Machine.incErr,
              Machine.setTable, map_noLines_idem])
      case WaitOptTagOrOpenBrace =>
        split_ifs
        · exact errorf_noLines _ (by simp only [Machine.noLines, Machine.setState, Machine.incErr,
              Machine.setTable, map_noLines_idem]) _ _ _
        · exact errorf_noLines _ (by simp only [Machine.noLines, Machine.setState, Machine.incErr,
              Machine.setTable, map_noLines_idem]) _ _ _
        · exact ok_noLines _ _ (by simp only [Machine.noLines, Machine.setState, Machine.incErr,
              Machine.setTable, map_noLines_idem])
        · exact ok_noLines _ _ (by simp only [Machine.noLines, Machine.setState, Machine.incErr,
              Machine.setTable, map_noLines_idem])
        · refine noLines_bind pairNoLines Machine.noLines _ _ _ _ (defineSymbol_noLines u m _) ?_
          intro x y hxy
          exact ok_noLines _ _ (by
            show x.2.noLines.setState FsmState.WaitSymbolAfterKeyword
              = y.2.noLines.setState FsmState.WaitSymbolAfterKeyword
            rw [(pairNoLines_eq hxy).2])
      case WaitSymbolAfterKeyword =>
        split_ifs
        · exact ok_noLines _ _ (by simp only [Machine.noLines, Machine.setState, Machine.incErr,
              Machine.setTable, map_noLines_idem])
        · refine noLines_bind pairNoLines Machine.noLines _ _ _ _ (defineSymbol_noLines u m _) ?_
          intro x y hxy
          exact ok_noLines _ _ (pairNoLines_eq hxy).2
      case WaitRuleLhsSymbol =>
        split_ifs
        · exact errorf_noLines _ (by simp only [Machine.noLines, Machine.setState, Machine.incErr,
              Machine.setTable, map_noLines_idem]) _ _ _
        · exact ok_noLines _ _ (by simp only [Machine.noLines, Machine.setState, Machine.incErr,
              Machine.setTable, map_noLines_idem])
        · exact errorf_noLines _ (by simp only [Machine.noLines, Machine.setState, Machine.incErr,
              Machine.setTable, map_noLines_idem]) _ _ _
        · refine ok_noLines _ _ ?_
          show ((m.setTable _).addRule _ _).noLines.setState _
            = ((m.noLines.setTable _).addRule _ _).noLines.setState _
          rw [addRule_noLines _ _ _ 0]
          rfl
      case WaitRuleRhsSymbol =>
        split_ifs
        · cases m.prevRuleVal with
          | none => rfl
          | some r =>
            simp only [Option.map_some']
            have e1 : r.noLines.GetRhsSymbolCount = r.GetRhsSymbolCount := rfl
            have e2 : r.noLines.GetLhsSymbol = r.GetLhsSymbol := rfl
            rw [e1, e2]
            split_ifs
            · exact errorf_noLines _ (by simp only [Machine.noLines, Machine.setState, Machine.incErr,
              Machine.setTable, map_noLines_idem]) _ _ _
            · exact ok_noLines _ _ (by simp only [Machine.noLines, Machine.setState, Machine.incErr,
              Machine.setTable, map_noLines_idem])
            · exact ok_noLines _ _ (addRule_noLines _ _ _ _)
        · exact onPrevRule_noLines _ _ _ (fun _ => rfl)
        · exact ok_noLines _ _ (by simp only [Machine.noLines, Machine.setState, Machine.incErr,
              Machine.setTable, map_noLines_idem])
        · exact ok_noLines _ _ (by simp only [Machine.noLines, Machine.setState, Machine.incErr,
              Machine.setTable, map_noLines_idem])
        · cases m.ps.symTable.Get m.token.String with
          | none => exact ok_noLines _ _ (by simp only [Machine.noLines, Machine.setState, Machine.incErr,
              Machine.setTable, map_noLines_idem])
          | some sy => exact onPrevRule_noLines _ _ _ (fun _ => rfl)
      case WaitPrecedenceTerm =>
        cases m.ps.symTable.Get m.token.String with
        | none => exact errorf_noLines _ (by simp only [Machine.noLines, Machine.setState, Machine.incErr,
              Machine.setTable, map_noLines_idem]) _ _ _
        | some sy =>
          refine noLines_bind Machine.noLines Machine.noLines _ _ _ _
            (onPrevRule_noLines _ _ _ (fun _ => rfl)) ?_
          intro x y hxy
          exact ok_noLines _ _ (by
            show x.noLines.setState FsmState.WaitSymbolAfterPrec
              = y.noLines.setState FsmState.WaitSymbolAfterPrec
            rw [hxy])
      case WaitSymbolAfterPrec =>
        split_ifs
        · refine noLines_bind Machine.noLines Machine.noLines _ _ _ _
            (onPrevRule_noLines _ _ _ (fun _ => rfl)) ?_
          intro x y hxy
          refine ok_noLines _ _ ?_
          show ({ x.noLines with ps := { x.noLines.ps with
              prevRule := none, curState := FsmState.WaitRuleLhsSymbol } } : Machine)
            = { y.noLines with ps := { y.noLines.ps with
              prevRule := none, curState := FsmState.WaitRuleLhsSymbol } }
          rw [hxy]
        · exact ok_noLines _ _ (by simp only [Machine.noLines, Machine.setState, Machine.incErr,
              Machine.setTable, map_noLines_idem])
        · exact errorf_noLines _ (by simp only [Machine.noLines, Machine.setState, Machine.incErr,
              Machine.setTable, map_noLines_idem]) _ _ _
      case WaitSubRoutine2 => exact ok_noLines _ _ (by simp only [Machine.noLines, Machine.setState, Machine.incErr,
              Machine.setTable, map_noLines_idem])
      all_goals
        split_ifs <;>
        first
        | exact errorf_noLines _ (by simp only [Machine.noLines, Machine.setState, Machine.incErr,
              Machine.setTable, map_noLines_idem]) _ _ _
        | exact ok_noLines _ _ (by simp only [Machine.noLines, Machine.setState, Machine.incErr,
              Machine.setTable, map_noLines_idem])
theorem feedToken_noLines (u : UnicodeTables) (a b : Machine) (h : a.noLines = b.noLines) :
    (feedToken u a).noLines Machine.noLines = (feedToken u b).noLines Machine.noLines := by
  unfold feedToken
  refine noLines_bind Machine.noLines Machine.noLines _ _ _ _ ?_ ?_
  · rw [parseOneToken_noLines, parseOneToken_noLines u { b with fed := b.fed ++ [b.token.String] }]
    have e : ∀ x : Machine, ({ x with fed := x.fed ++ [x.token.String] } : Machine).noLines
        = { x.noLines with fed := x.noLines.fed ++ [x.noLines.token.String] } := fun _ => rfl
    rw [e, e, h]
  · intro x y hxy
    refine ok_noLines _ _ ?_
    show ({ x.noLines with token := x.noLines.token.Reset } : Machine)
      = { y.noLines with token := y.noLines.token.Reset }
    rw [hxy]

theorem parseLoop_noLines (u : UnicodeTables) (fuel : Nat) (a b : Machine)
    (h : a.noLines = b.noLines) :
    (parseLoop u fuel a).noLines Machine.noLines
      = (parseLoop u fuel b).noLines Machine.noLines := by
  induction fuel generalizing a b with
  | zero => rfl
  | succ n ih =>
    unfold parseLoop
    refine noLines_bind pairNoLines Machine.noLines _ _ _ _ ?_ ?_
    · rw [scanToken_noLines, scanToken_noLines u n b, h]
    · intro x y hxy
      obtain ⟨h1, h2⟩ := pairNoLines_eq hxy
      rw [h1]
      cases y.1 with
      | eof => exact ok_noLines _ _ h2
      | skip => exact ih _ _ h2
      | token =>
        exact noLines_bind Machine.noLines Machine.noLines _ _ _ _ (feedToken_noLines u _ _ h2)
          (fun _ _ hab => ih _ _ hab)

theorem fedOf_noLines (s : Step Machine) : fedOf (s.noLines Machine.noLines) = fedOf s := by
  cases s <;> rfl

theorem exited_noLines {α : Type} (g : α → α) (s : Step α) : exited (s.noLines g) = exited s := by
  cases s <;> rfl

/-! ### Runes left to read, and fuel -/

theorem left_getRune_le (m : Machine) : m.getRune.2.left ≤ m.left := by
  unfold Machine.getRune Machine.left RuneBuffer.GetRune RuneBuffer.pending
  simp only []
  by_cases h : m.lemon.runeBuf.peekRune = noRune
  · simp only [h, ne_eq, not_true_eq_false, if_false, if_true]
    cases hr : m.lemon.runeBuf.reader with
    | nil => simp [h, hr]
    | cons c cs => simp [h, hr]
  · simp only [h, ne_eq, not_false_eq_true, if_true, if_false]
    cases hp : m.lemon.runeBuf.peekRune with
    | none => simp [hp, noRune]
    | some c => simp [hp]

theorem left_getRune_lt {m : Machine} {c : Char} (hc : m.getRune.1 = some c) :
    m.getRune.2.left < m.left := by
  revert hc
  unfold Machine.getRune Machine.left RuneBuffer.GetRune RuneBuffer.pending
  simp only []
  by_cases h : m.lemon.runeBuf.peekRune = noRune
  · simp only [h, ne_eq, not_true_eq_false, if_false, if_true]
    cases hr : m.lemon.runeBuf.reader with
    | nil => simp [hr]
    | cons c cs => simp [h, hr]
  · simp only [h, ne_eq, not_false_eq_true, if_true, if_false]
    cases hp : m.lemon.runeBuf.peekRune with
    | none => simp [hp]
    | some c => simp [hp]

theorem left_append (m : Machine) (c : Char) : (m.append c).left = m.left := rfl

theorem left_incLine (m : Machine) : m.incLine.left = m.left := rfl

theorem left_incErr (m : Machine) : m.incErr.left = m.left := rfl

theorem left_countLine (m : Machine) (c : Char) : (m.countLine c).left = m.left := by
  unfold Machine.countLine; split <;> rfl
theorem lineCommentLoop_left (fuel : Nat) (cur : Option Char) (m : Machine) :
    (lineCommentLoop fuel cur m).holds (fun r => r.left ≤ m.left) (fun _ => True) := by
  induction fuel generalizing cur m with
  | zero => trivial
  | succ n ih =>
    unfold lineCommentLoop
    split
    · trivial
    · split
      · exact Nat.le_refl _
      · exact holds_mono (ih _ _) (fun _ h => Nat.le_trans h (left_getRune_le m)) (fun _ _ => trivial)

theorem blockCommentLoop_left (fuel : Nat) (prev : Option Char) (m : Machine) :
    (blockCommentLoop fuel prev m).holds (fun r => r.left ≤ m.left) (fun _ => True) := by
  induction fuel generalizing prev m with
  | zero => trivial
  | succ n ih =>
    unfold blockCommentLoop
    simp only
    split
    · trivial
    · split
      · exact holds_mono (ih _ _)
          (fun _ h => Nat.le_trans h (by rw [left_countLine]; exact left_getRune_le m))
          (fun _ _ => trivial)
      · exact left_getRune_le m

theorem skipComment_left (fuel : Nat) (m : Machine) :
    (skipComment fuel m).holds (fun r => r.left ≤ m.left) (fun _ => True) := by
  unfold skipComment
  simp only
  split
  · exact holds_mono (lineCommentLoop_left _ _ _) (fun _ h => Nat.le_trans h (left_getRune_le m))
      (fun _ _ => trivial)
  · split
    · trivial
    · exact holds_mono (blockCommentLoop_left _ _ _)
        (fun _ h => Nat.le_trans h (left_getRune_le m)) (fun _ _ => trivial)

theorem untilLoop_left (fuel : Nat) (stop : Char) (m : Machine) :
    (untilLoop fuel stop m).holds (fun r => r.2.left ≤ m.left) (fun _ => True) := by
  induction fuel generalizing m with
  | zero => trivial
  | succ n ih =>
    unfold untilLoop
    simp only
    split
    · exact left_getRune_le m
    · split
      · exact holds_mono (ih _)
          (fun _ h => Nat.le_trans h (by rw [left_append]; exact left_getRune_le m))
          (fun _ _ => trivial)
      · exact left_getRune_le m

/-- The identifier loop leaves fewer runes when it ends at a rune. -/
theorem identLoop_left (u : UnicodeTables) (fuel : Nat) (m : Machine) :
    (identLoop u fuel m).holds
      (fun r => r.2.left ≤ m.left ∧ (r.1 ≠ none → r.2.left < m.left)) (fun _ => True) := by
  induction fuel generalizing m with
  | zero => trivial
  | succ n ih =>
    unfold identLoop
    simp only
    split
    · rename_i h
      exact ⟨left_getRune_le m, fun h2 => absurd rfl h2⟩
    · rename_i c h
      have hlt := left_getRune_lt h
      split
      · refine holds_mono (ih _) ?_ (fun _ _ => trivial)
        intro r hr
        rw [left_append] at hr
        exact ⟨Nat.le_trans hr.1 (Nat.le_of_lt hlt), fun _ => Nat.lt_of_le_of_lt hr.1 hlt⟩
      · exact ⟨Nat.le_of_lt hlt, fun _ => hlt⟩

theorem codeQuoteLoop_left (fuel : Nat) (e : Char) (prev : Option Char) (m : Machine) :
    (codeQuoteLoop fuel e prev m).holds (fun r => r.2.left ≤ m.left) (fun _ => True) := by
  induction fuel generalizing prev m with
  | zero => trivial
  | succ n ih =>
    unfold codeQuoteLoop
    simp only
    split
    · exact left_getRune_le m
    · split
      · exact holds_mono (ih _ _)
          (fun _ h => Nat.le_trans h (by
            rw [left_countLine, left_append]; exact left_getRune_le m))
          (fun _ _ => trivial)
      · exact left_getRune_le m

theorem codeLoop_left (fuel level : Nat) (m : Machine) :
    (codeLoop fuel level m).holds (fun r => r.2.left ≤ m.left) (fun _ => True) := by
  induction fuel generalizing level m with
  | zero => trivial
  | succ n ih =>
    unfold codeLoop
    simp only
    have key : ∀ (l : Nat) (a : Machine), a.left ≤ m.left →
        (codeLoop n l a).holds (fun r => r.2.left ≤ m.left) (fun _ => True) :=
      fun l a ha => holds_mono (ih l a) (fun _ h => Nat.le_trans h ha) (fun _ _ => trivial)
    have h0 := left_getRune_le m
    split
    · exact h0
    · rename_i c hc
      split
      · split
        · exact key _ _ (by rw [left_incLine, left_append]; exact h0)
        · split
          · exact key _ _ (by rw [left_append]; exact h0)
          · split
            · exact key _ _ (by rw [left_append]; exact h0)
            · split
              · refine holds_bind (holds_mono (skipComment_left n _)
                  (R := fun r => r.left ≤ m.left)
                  (fun _ h => Nat.le_trans h (by rw [left_append]; exact h0))
                  (fun _ h => h)) ?_
                intro a ha
                exact key _ _ ha
              · split
                · refine holds_bind (holds_mono (codeQuoteLoop_left n _ _ _)
                    (R := fun r => r.2.left ≤ m.left)
                    (fun _ h => Nat.le_trans h (by rw [left_append]; exact h0))
                    (fun _ h => h)) ?_
                  intro a ha
                  split
                  · exact key _ _ ha
                  · exact key _ _ (by rw [left_append]; exact ha)
                · exact key _ _ (by rw [left_append]; exact h0)
      · exact h0
theorem pending_unget {rb rb1 : RuneBuffer} {c : Option Char} (h : rb.UngetRune c = some rb1) :
    rb1.pending.length ≤ rb.pending.length + 1 := by
  unfold RuneBuffer.UngetRune at h
  by_cases hp : rb.peekRune = noRune
  · simp only [hp, ne_eq, not_true_eq_false, if_false, Option.some.injEq] at h
    subst h
    unfold RuneBuffer.pending
    simp only [hp, if_true]
    split
    · exact Nat.le_succ _
    · cases c with
      | none => simp
      | some x => simp
  · simp only [hp, ne_eq, not_false_eq_true, if_true, reduceCtorEq] at h

theorem scanToken_left (u : UnicodeTables) (fuel : Nat) (m : Machine) :
    (scanToken u fuel m).holds
      (fun r => r.2.left ≤ m.left ∧ (r.1 ≠ Scanned.eof → r.2.left < m.left))
      (fun _ => True) := by
  unfold scanToken
  simp only
  split
  · exact ⟨left_getRune_le m, fun h => absurd rfl h⟩
  · rename_i c hc
    have hlt : (m.getRune.2.countLine c).left < m.left := by
      rw [left_countLine]; exact left_getRune_lt hc
    generalize m.getRune.2.countLine c = m1 at hlt
    have hm2 : (({ m1 with ps := { m1.ps with startTokLineno := m1.lemon.lineno } } :
        Machine).append c).left < m.left := hlt
    generalize (({ m1 with ps := { m1.ps with startTokLineno := m1.lemon.lineno } } :
        Machine).append c) = m2 at hm2
    have fin : ∀ (f : String) (q : Option Char × Machine), q.2.left ≤ m2.left →
        (match q.1 with
          | none => (errorf q.2.incErr q.2.lemon.lineno f : Step (Scanned × Machine))
          | some e => Step.ok (Scanned.token, q.2.append e)).holds
        (fun r : Scanned × Machine => r.2.left ≤ m.left ∧ (r.1 ≠ Scanned.eof → r.2.left < m.left))
        (fun _ => True) := by
      intro f q hq
      split
      · trivial
      · have : q.2.left < m.left := Nat.lt_of_le_of_lt hq hm2
        exact ⟨Nat.le_of_lt this, fun _ => this⟩
    split
    · exact ⟨Nat.le_of_lt hlt, fun _ => hlt⟩
    · split
      · refine holds_bind (skipComment_left fuel m1) ?_
        intro a ha
        have : a.left < m.left := Nat.lt_of_le_of_lt ha hlt
        exact ⟨Nat.le_of_lt this, fun _ => this⟩
      · split
        · exact holds_bind (untilLoop_left fuel _ m2) (fin _)
        · split
          · exact holds_bind (untilLoop_left fuel _ m2) (fin _)
          · split
            · exact holds_bind (codeLoop_left fuel _ m2) (fin _)
            · split
              · refine holds_bind (identLoop_left u fuel m2) ?_
                intro q hq
                split
                · have : q.2.left < m.left := Nat.lt_of_le_of_lt hq.1 hm2
                  exact ⟨Nat.le_of_lt this, fun _ => this⟩
                · rename_i e he
                  have hq2 : q.2.left < m2.left := hq.2 (by rw [he]; exact Option.some_ne_none e)
                  split
                  · trivial
                  · rename_i rb hrb
                    have h1 := pending_unget hrb
                    have : ({ q.2 with lemon := { q.2.lemon with runeBuf := rb } } :
                        Machine).left < m.left := by
                      show rb.pending.length < m.left
                      have : q.2.lemon.runeBuf.pending.length < m2.left := hq2
                      omega
                    exact ⟨Nat.le_of_lt this, fun _ => this⟩
              · exact ⟨Nat.le_of_lt hm2, fun _ => hm2⟩
theorem defineSymbol_left (u : UnicodeTables) (m : Machine) (n : String) :
    (defineSymbol u m n).holds (fun r => r.2.left = m.left) (fun _ => True) := by
  unfold defineSymbol
  simp only [errorf]
  split <;> (try split) <;> simp [Step.holds, Machine.setTable, Machine.left]

theorem onPrevRule_left (m : Machine) (f : Rule → Rule) :
    (m.onPrevRule f).holds (fun m1 => m1.left = m.left) (fun _ => True) := by
  unfold Machine.onPrevRule
  split
  · trivial
  · split <;> simp [Step.holds, Machine.left]

theorem parseOneToken_left (u : UnicodeTables) (m : Machine) :
    (parseOneToken u m).holds (fun m1 => m1.left = m.left) (fun _ => True) := by
  unfold parseOneToken
  cases ha : m.token.FirstRune with
  | none => simp only [ha]; trivial
  | some a =>
    cases hb : m.token.LastRune with
    | none => simp only [ha, hb]; trivial
    | some b =>
      simp only [ha, hb]
      cases hs : m.ps.curState <;> simp only [hs]
      all_goals
        (repeat' split) <;> first
          | (simp [errorf, Step.holds, Machine.incErr, Machine.setState, Machine.setTable,
              Machine.addRule, Machine.appendRule, Machine.left]; done)
          | exact onPrevRule_left _ _
          | (refine holds_bind (defineSymbol_left _ _ _) ?_
             intro r hr
             simpa [Step.holds, Machine.setState, Machine.left] using hr)
          | (refine holds_bind (onPrevRule_left _ _) ?_
             intro r hr
             simpa [Step.holds, Machine.setState, Machine.left] using hr)

theorem feedToken_left (u : UnicodeTables) (m : Machine) :
    (feedToken u m).holds (fun m1 => m1.left = m.left) (fun _ => True) := by
  unfold feedToken
  refine holds_bind (parseOneToken_left u _) ?_
  intro a ha
  exact ha
theorem bind_congr_holds {α β : Type} {s s1 : Step α} {f f1 : α → Step β} {P : α → Prop}
    (hs : s1 = s) (hp : s.holds P (fun _ => True)) (hf : ∀ a, P a → f1 a = f a) :
    s1.bind f1 = s.bind f := by
  subst hs
  cases s1 with
  | ok a => exact hf a hp
  | exit d m => rfl
  | panic msg => rfl
  | stall => rfl

theorem lineCommentLoop_fuel (fuel k : Nat) (cur : Option Char) (m : Machine) (h : 1 ≤ fuel)
    (h2 : cur ≠ none → m.left + 2 ≤ fuel) :
    lineCommentLoop (fuel + k) cur m = lineCommentLoop fuel cur m := by
  induction fuel generalizing cur m with
  | zero => omega
  | succ n ih =>
    rw [Nat.add_right_comm]
    unfold lineCommentLoop
    cases cur with
    | none => rfl
    | some c =>
      simp only []
      split
      · rfl
      · have h3 := h2 (Option.some_ne_none c)
        refine ih _ _ (by omega) ?_
        intro hne
        cases hr : m.getRune.1 with
        | none => exact absurd hr hne
        | some d =>
          have := left_getRune_lt hr
          omega

theorem blockCommentLoop_fuel (fuel k : Nat) (prev : Option Char) (m : Machine)
    (h : m.left < fuel) :
    blockCommentLoop (fuel + k) prev m = blockCommentLoop fuel prev m := by
  induction fuel generalizing prev m with
  | zero => omega
  | succ n ih =>
    rw [Nat.add_right_comm]
    unfold blockCommentLoop
    simp only []
    cases hr : m.getRune.1 with
    | none => rfl
    | some c =>
      simp only []
      split
      · refine ih _ _ ?_
        have := left_getRune_lt hr
        rw [left_countLine]
        omega
      · rfl

theorem skipComment_fuel (fuel k : Nat) (m : Machine) (h : m.left < fuel) :
    skipComment (fuel + k) m = skipComment fuel m := by
  unfold skipComment
  simp only []
  have h0 := left_getRune_le m
  split
  · rename_i hr
    have := left_getRune_lt hr
    exact lineCommentLoop_fuel _ _ _ _ (by omega) (fun _ => by omega)
  · split
    · rfl
    · exact blockCommentLoop_fuel _ _ _ _ (by omega)

theorem untilLoop_fuel (fuel k : Nat) (stop : Char) (m : Machine) (h : m.left < fuel) :
    untilLoop (fuel + k) stop m = untilLoop fuel stop m := by
  induction fuel generalizing m with
  | zero => omega
  | succ n ih =>
    rw [Nat.add_right_comm]
    unfold untilLoop
    simp only []
    cases hr : m.getRune.1 with
    | none => rfl
    | some c =>
      simp only []
      split
      · refine ih _ ?_
        have := left_getRune_lt hr
        rw [left_append]
        omega
      · rfl

theorem identLoop_fuel (u : UnicodeTables) (fuel k : Nat) (m : Machine) (h : m.left < fuel) :
    identLoop u (fuel + k) m = identLoop u fuel m := by
  induction fuel generalizing m with
  | zero => omega
  | succ n ih =>
    rw [Nat.add_right_comm]
    unfold identLoop
    simp only []
    cases hr : m.getRune.1 with
    | none => rfl
    | some c =>
      simp only []
      split
      · refine ih _ ?_
        have := left_getRune_lt hr
        rw [left_append]
        omega
      · rfl

theorem codeQuoteLoop_fuel (fuel k : Nat) (e : Char) (prev : Option Char) (m : Machine)
    (h : m.left < fuel) :
    codeQuoteLoop (fuel + k) e prev m = codeQuoteLoop fuel e prev m := by
  induction fuel generalizing prev m with
  | zero => omega
  | succ n ih =>
    rw [Nat.add_right_comm]
    unfold codeQuoteLoop
    simp only []
    cases hr : m.getRune.1 with
    | none => rfl
    | some c =>
      simp only []
      split
      · refine ih _ _ ?_
        have := left_getRune_lt hr
        rw [left_countLine, left_append]
        omega
      · rfl

theorem codeLoop_fuel (fuel k level : Nat) (m : Machine) (h : m.left < fuel) :
    codeLoop (fuel + k) level m = codeLoop fuel level m := by
  induction fuel generalizing level m with
  | zero => omega
  | succ n ih =>
    rw [Nat.add_right_comm]
    unfold codeLoop
    simp only []
    cases hr : m.getRune.1 with
    | none => rfl
    | some c =>
      simp only []
      have hlt : (m.getRune.2.append c).left < n := by
        have := left_getRune_lt hr
        rw [left_append]
        omega
      split
      · split
        · exact ih _ _ hlt
        · split
          · exact ih _ _ hlt
          · split
            · exact ih _ _ hlt
            · split
              · refine bind_congr_holds (skipComment_fuel n k _ hlt) (skipComment_left n _) ?_
                intro a ha
                exact ih _ _ (Nat.lt_of_le_of_lt ha hlt)
              · split
                · refine bind_congr_holds (codeQuoteLoop_fuel n k _ _ _ hlt)
                    (codeQuoteLoop_left n _ _ _) ?_
                  intro a ha
                  split
                  · exact ih _ _ (Nat.lt_of_le_of_lt ha hlt)
                  · exact ih _ _ (Nat.lt_of_le_of_lt ha hlt)
                · exact ih _ _ hlt
      · rfl

theorem scanToken_fuel (u : UnicodeTables) (fuel k : Nat) (m : Machine) (h : m.left ≤ fuel) :
    scanToken u (fuel + k) m = scanToken u fuel m := by
  unfold scanToken
  simp only []
  cases hr : m.getRune.1 with
  | none => rfl
  | some c =>
    simp only []
    have hlt : (m.getRune.2.countLine c).left < fuel := by
      have := left_getRune_lt hr
      rw [left_countLine]
      omega
    generalize m.getRune.2.countLine c = m1 at hlt
    have hm2 : (({ m1 with ps := { m1.ps with startTokLineno := m1.lemon.lineno } } :
        Machine).append c).left < fuel := hlt
    generalize (({ m1 with ps := { m1.ps with startTokLineno := m1.lemon.lineno } } :
        Machine).append c) = m2 at hm2
    split
    · rfl
    · split
      · rw [skipComment_fuel fuel k m1 hlt]
      · split
        · rw [untilLoop_fuel fuel k _ m2 hm2]
        · split
          · rw [untilLoop_fuel fuel k _ m2 hm2]
          · split
            · rw [codeLoop_fuel fuel k _ m2 hm2]
            · split
              · rw [identLoop_fuel u fuel k m2 hm2]
              · rfl

theorem parseLoop_fuel (u : UnicodeTables) (fuel k : Nat) (m : Machine) (h : m.left < fuel) :
    parseLoop u (fuel + k) m = parseLoop u fuel m := by
  induction fuel generalizing m with
  | zero => omega
  | succ n ih =>
    rw [Nat.add_right_comm]
    unfold parseLoop
    refine bind_congr_holds (scanToken_fuel u n k m (by omega)) (scanToken_left u n m) ?_
    intro r hr
    cases hk : r.1 with
    | eof => rfl
    | skip =>
      simp only []
      exact ih _ (by
        have := hr.2 (by rw [hk]; exact fun h => Scanned.noConfusion h)
        omega)
    | token =>
      simp only []
      have hlt : r.2.left < n := by
        have := hr.2 (by rw [hk]; exact fun h => Scanned.noConfusion h)
        omega
      refine bind_congr_holds rfl (feedToken_left u r.2) ?_
      intro a ha
      exact ih _ (by rw [ha]; exact hlt)

/-! ### Skipping a comment -/

theorem getRune_pending {m : Machine} {c : Char} {cs : List Char}
    (h : m.lemon.runeBuf.pending = c :: cs) :
    m.getRune = (some c, m.skipTo cs m.lemon.lineno) := by
  unfold RuneBuffer.pending at h
  unfold Machine.getRune RuneBuffer.GetRune Machine.skipTo
  by_cases hp : m.lemon.runeBuf.peekRune = noRune
  · simp only [hp, if_true] at h
    simp only [hp, ne_eq, not_true_eq_false, if_false, h]
  · simp only [hp, if_false] at h
    cases hq : m.lemon.runeBuf.peekRune with
    | none => simp [hq] at h
    | some x =>
      simp only [hq, List.cons.injEq] at h
      have hp1 : ¬ some c = noRune := by rw [← h.1, ← hq]; exact hp
      simp only [hq, h.1, h.2, ne_eq, hp1, not_false_eq_true, if_true, reduceCtorEq, if_false]

theorem skipTo_reads (m : Machine) (cs : List Char) (l : Nat) : (m.skipTo cs l).reads cs := rfl

theorem skipTo_skipTo (m : Machine) (a b : List Char) (k l : Nat) :
    (m.skipTo a k).skipTo b l = m.skipTo b l := rfl

theorem skipTo_countLine (m : Machine) (c : Char) (b : List Char) (l : Nat) :
    (m.countLine c).skipTo b l = m.skipTo b l := by
  unfold Machine.countLine; split <;> rfl

theorem getRune_reads_skipTo {m : Machine} {c : Char} {cs : List Char} (h : m.reads (c :: cs)) :
    m.getRune = (some c, m.skipTo cs m.lemon.lineno) :=
  getRune_reads h

/-- A block comment is skipped up to its closer. -/
theorem blockCommentLoop_skips (post : List Char) (c : List Char) :
    ∀ (prev : Option Char) (m : Machine) (fuel : Nat), m.reads (c ++ '*' :: '/' :: post) →
      c.length + 2 ≤ fuel → hasCloser c = false → (prev = some '*' → c.head? ≠ some '/') →
      ∃ l, blockCommentLoop fuel prev m = Step.ok (m.skipTo post l) := by
  induction c with
  | nil =>
    intro prev m fuel hr hf _ _
    obtain ⟨f, rfl⟩ : ∃ f, fuel = f + 2 := ⟨fuel - 2, by simp at hf; omega⟩
    refine ⟨m.lemon.lineno, ?_⟩
    rw [List.nil_append] at hr
    unfold blockCommentLoop
    simp only [getRune_reads_skipTo hr]
    rw [if_pos (Or.inr (by decide))]
    unfold blockCommentLoop
    have hr2 : ((m.skipTo ('/' :: post) m.lemon.lineno).countLine '*').reads ('/' :: post) := rfl
    simp only [getRune_reads_skipTo hr2]
    rw [if_neg (by simp)]
    rfl
  | cons x c ih =>
    intro prev m fuel hr hf hc hp
    obtain ⟨f, rfl⟩ : ∃ f, fuel = f + 1 := ⟨fuel - 1, by simp at hf; omega⟩
    rw [List.cons_append] at hr
    unfold blockCommentLoop
    simp only [getRune_reads_skipTo hr]
    simp only [hasCloser, Bool.or_eq_false_iff, Bool.and_eq_false_iff, decide_eq_false_iff_not]
      at hc
    have hcont : prev ≠ some '*' ∨ x ≠ '/' := by
      by_cases h : prev = some '*'
      · right
        intro hx
        exact hp h (by simp [hx])
      · exact Or.inl h
    rw [if_pos hcont]
    have hr2 : ((m.skipTo (c ++ '*' :: '/' :: post) m.lemon.lineno).countLine x).reads
        (c ++ '*' :: '/' :: post) := by
      unfold Machine.countLine; split <;> rfl
    obtain ⟨l, hl⟩ := ih (some x) _ f hr2 (by simp at hf; omega) hc.2 (by
      intro hx
      rcases hc.1 with h | h
      · exact absurd (Option.some.inj hx) h
      · exact h)
    refine ⟨l, ?_⟩
    rw [hl, skipTo_countLine, skipTo_skipTo]
/-- A line comment is skipped up to and with its newline. -/
theorem lineCommentLoop_skips (post : List Char) (c : List Char) :
    ∀ (x : Char) (m : Machine) (fuel : Nat), m.reads (c ++ '\n' :: post) →
      c.length + 2 ≤ fuel → '\n' ∉ c → x ≠ '\n' →
      lineCommentLoop fuel (some x) m = Step.ok (m.skipTo post (m.lemon.lineno + 1)) := by
  induction c with
  | nil =>
    intro x m fuel hr hf _ hx
    obtain ⟨f, rfl⟩ : ∃ f, fuel = f + 2 := ⟨fuel - 2, by simp at hf; omega⟩
    rw [List.nil_append] at hr
    unfold lineCommentLoop
    simp only [getRune_reads_skipTo hr]
    rw [if_neg hx]
    unfold lineCommentLoop
    rfl
  | cons y c ih =>
    intro x m fuel hr hf hc hx
    obtain ⟨f, rfl⟩ : ∃ f, fuel = f + 1 := ⟨fuel - 1, by simp at hf; omega⟩
    rw [List.cons_append] at hr
    unfold lineCommentLoop
    simp only [getRune_reads_skipTo hr]
    rw [if_neg hx]
    simp only [List.mem_cons, not_or] at hc
    have := ih y (m.skipTo (c ++ '\n' :: post) m.lemon.lineno) f rfl (by simp at hf; omega) hc.2
      (fun h => hc.1 h.symm)
    rw [this]
    rfl

theorem scanToken_block_comment (u : UnicodeTables) (fuel : Nat) (m : Machine)
    (c post : List Char) (hc : hasCloser c = false) (hf : c.length + 2 ≤ fuel)
    (h : m.lemon.runeBuf.pending = '/' :: '*' :: (c ++ '*' :: '/' :: post)) :
    ∃ l, scanToken u fuel m = Step.ok (Scanned.skip, m.skipTo post l) := by
  unfold scanToken
  simp only [getRune_pending h]
  have h1 : (m.skipTo ('*' :: (c ++ '*' :: '/' :: post)) m.lemon.lineno).countLine '/'
      = m.skipTo ('*' :: (c ++ '*' :: '/' :: post)) m.lemon.lineno := by
    unfold Machine.countLine; rw [if_neg (by decide)]
  have h2 : util.IsSpace (some '/') = false := by decide
  rw [h1, h2]
  simp only [Bool.false_eq_true, if_false, if_true]
  unfold skipComment
  have hr : (m.skipTo ('*' :: (c ++ '*' :: '/' :: post)) m.lemon.lineno).reads
      ('*' :: (c ++ '*' :: '/' :: post)) := rfl
  simp only [getRune_reads_skipTo hr]
  rw [if_neg (by simp), if_neg (by simp)]
  obtain ⟨l, hl⟩ := blockCommentLoop_skips post c noRune
    ((m.skipTo ('*' :: (c ++ '*' :: '/' :: post)) m.lemon.lineno).skipTo
      (c ++ '*' :: '/' :: post)
      (m.skipTo ('*' :: (c ++ '*' :: '/' :: post)) m.lemon.lineno).lemon.lineno) fuel rfl hf hc
    (fun hx => absurd hx (by decide))
  exact ⟨l, by rw [hl]; rfl⟩

theorem scanToken_line_comment (u : UnicodeTables) (fuel : Nat) (m : Machine)
    (c post : List Char) (hc : '\n' ∉ c) (hf : c.length + 2 ≤ fuel)
    (h : m.lemon.runeBuf.pending = '/' :: '/' :: (c ++ '\n' :: post)) :
    scanToken u fuel m = Step.ok (Scanned.skip, m.skipTo post (m.lemon.lineno + 1)) := by
  unfold scanToken
  simp only [getRune_pending h]
  have h1 : (m.skipTo ('/' :: (c ++ '\n' :: post)) m.lemon.lineno).countLine '/'
      = m.skipTo ('/' :: (c ++ '\n' :: post)) m.lemon.lineno := by
    unfold Machine.countLine; rw [if_neg (by decide)]
  have h2 : util.IsSpace (some '/') = false := by decide
  rw [h1, h2]
  simp only [Bool.false_eq_true, if_false, if_true]
  unfold skipComment
  have hr : (m.skipTo ('/' :: (c ++ '\n' :: post)) m.lemon.lineno).reads
      ('/' :: (c ++ '\n' :: post)) := rfl
  simp only [getRune_reads_skipTo hr]
  simp only [if_true]
  rw [lineCommentLoop_skips post c '/'
    ((m.skipTo ('/' :: (c ++ '\n' :: post)) m.lemon.lineno).skipTo (c ++ '\n' :: post)
      (m.skipTo ('/' :: (c ++ '\n' :: post)) m.lemon.lineno).lemon.lineno) fuel rfl hf hc
    (by decide)]
  rfl

theorem scanToken_space (u : UnicodeTables) (fuel : Nat) (m : Machine) (post : List Char)
    (h : m.lemon.runeBuf.pending = ' ' :: post) :
    scanToken u fuel m = Step.ok (Scanned.skip, m.skipTo post m.lemon.lineno) := by
  unfold scanToken
  simp only [getRune_pending h]
  have h1 : (m.skipTo post m.lemon.lineno).countLine ' ' = m.skipTo post m.lemon.lineno := by
    unfold Machine.countLine; rw [if_neg (by decide)]
  have h2 : util.IsSpace (some ' ') = true := by decide
  rw [h1, h2]
  rfl

theorem scanToken_newline (u : UnicodeTables) (fuel : Nat) (m : Machine) (post : List Char)
    (h : m.lemon.runeBuf.pending = '\n' :: post) :
    scanToken u fuel m = Step.ok (Scanned.skip, m.skipTo post (m.lemon.lineno + 1)) := by
  unfold scanToken
  simp only [getRune_pending h]
  have h1 : (m.skipTo post m.lemon.lineno).countLine '\n'
      = m.skipTo post (m.lemon.lineno + 1) := by
    unfold Machine.countLine; rw [if_pos rfl]; rfl
  have h2 : util.IsSpace (some '\n') = true := by decide
  rw [h1, h2]
  rfl
theorem pending_length_le (rb : RuneBuffer) : rb.pending.length ≤ rb.reader.length + 1 := by
  unfold RuneBuffer.pending
  split
  · exact Nat.le_succ _
  · split <;> simp

theorem finish_ok (m : Machine) :
    ∃ m1, PrintFirstSets (Reprint m) = Step.ok m1 ∧ m1.fed = m.fed := by
  unfold PrintFirstSets computeFirstSets
  obtain ⟨t1, h1, _⟩ := computeNullableSets_spec (Reprint m).ps.rules (Reprint m).ps.symTable
  rw [h1]
  exact ⟨_, rfl, rfl⟩

theorem parseFrom_observed (u : UnicodeTables) (m : Machine) :
    fedOf (parseFrom u m) = fedOf (parseLoop u (m.lemon.runeBuf.reader.length + 2) m)
    ∧ (diagOf (parseFrom u m)).map Diag.format
        = (diagOf (parseLoop u (m.lemon.runeBuf.reader.length + 2) m)).map Diag.format
    ∧ (parseFrom u m).returned
        = (parseLoop u (m.lemon.runeBuf.reader.length + 2) m).returned := by
  unfold parseFrom
  cases parseLoop u (m.lemon.runeBuf.reader.length + 2) m with
  | ok a =>
    obtain ⟨m1, h1, h2⟩ := finish_ok a
    simp only [Step.bind, h1, fedOf, h2, diagOf, Step.returned, and_self]
  | exit d a => exact ⟨rfl, rfl, rfl⟩
  | panic msg => exact ⟨rfl, rfl, rfl⟩
  | stall => exact ⟨rfl, rfl, rfl⟩

theorem diagOf_noLines {α : Type} (g : α → α) (s : Step α) :
    (diagOf (s.noLines g)).map Diag.format = (diagOf s).map Diag.format := by
  cases s <;> rfl

theorem returned_noLines {α : Type} (g : α → α) (s : Step α) :
    (s.noLines g).returned = s.returned := by
  cases s <;> rfl

theorem first_round_skips (u : UnicodeTables) (m : Machine) (post : List Char) (l : Nat)
    (h : scanToken u (m.lemon.runeBuf.reader.length + 1) m
      = Step.ok (Scanned.skip, m.skipTo post l))
    (hlen : post.length ≤ m.lemon.runeBuf.reader.length) :
    parseLoop u (m.lemon.runeBuf.reader.length + 2) m
      = parseLoop u (post.length + 1) (m.skipTo post l) := by
  have e : m.lemon.runeBuf.reader.length + 2 = (m.lemon.runeBuf.reader.length + 1) + 1 := rfl
  rw [e]
  conv => lhs; unfold parseLoop
  rw [h]
  simp only [Step.bind]
  obtain ⟨k, hk⟩ : ∃ k, m.lemon.runeBuf.reader.length + 1 = (post.length + 1) + k :=
    ⟨m.lemon.runeBuf.reader.length - post.length, by omega⟩
  rw [hk]
  exact parseLoop_fuel u _ k _ (by
    show (RuneBuffer.pending ⟨post, noRune⟩).length < post.length + 1
    simp [RuneBuffer.pending])

/-- Two runs of `Parse` continued from states that differ in line numbers only hand the same
tokens to the parser and end the same way. -/
theorem parseFrom_same (u : UnicodeTables) (a b : Machine) (post : List Char) (k l : Nat)
    (ha : parseLoop u (a.lemon.runeBuf.reader.length + 2) a
      = parseLoop u (post.length + 1) (a.skipTo post k))
    (hb : parseLoop u (b.lemon.runeBuf.reader.length + 2) b
      = parseLoop u (post.length + 1) (b.skipTo post l))
    (hab : (a.skipTo post k).noLines = (b.skipTo post l).noLines) :
    fedOf (parseFrom u a) = fedOf (parseFrom u b)
    ∧ (diagOf (parseFrom u a)).map Diag.format = (diagOf (parseFrom u b)).map Diag.format
    ∧ (parseFrom u a).returned = (parseFrom u b).returned := by
  obtain ⟨a1, a2, a3⟩ := parseFrom_observed u a
  obtain ⟨b1, b2, b3⟩ := parseFrom_observed u b
  have key := parseLoop_noLines u (post.length + 1) _ _ hab
  rw [a1, a2, a3, b1, b2, b3, ha, hb]
  refine ⟨?_, ?_, ?_⟩
  · rw [← fedOf_noLines, key, fedOf_noLines]
  · rw [← diagOf_noLines Machine.noLines, key, diagOf_noLines]
  · rw [← returned_noLines Machine.noLines, key, returned_noLines]

/-! ### The model of Parse has fuel enough -/

theorem finished_bind {α β : Type} {s : Step α} {f : α → Step β} {P : α → Prop}
    (hs : s.finished) (hp : s.holds P (fun _ => True)) (hf : ∀ a, P a → (f a).finished) :
    (s.bind f).finished := by
  cases s with
  | ok a => exact hf a hp
  | exit d m => trivial
  | panic msg => trivial
  | stall => exact hs

theorem lineCommentLoop_finished (fuel : Nat) (cur : Option Char) (m : Machine) (h : 1 ≤ fuel)
    (h2 : cur ≠ none → m.left + 2 ≤ fuel) : (lineCommentLoop fuel cur m).finished := by
  induction fuel generalizing cur m with
  | zero => omega
  | succ n ih =>
    unfold lineCommentLoop
    cases cur with
    | none => trivial
    | some c =>
      simp only []
      split
      · trivial
      · have h3 := h2 (Option.some_ne_none c)
        refine ih _ _ (by omega) ?_
        intro hne
        cases hr : m.getRune.1 with
        | none => exact absurd hr hne
        | some d =>
          have := left_getRune_lt hr
          omega

theorem blockCommentLoop_finished (fuel : Nat) (prev : Option Char) (m : Machine)
    (h : m.left < fuel) : (blockCommentLoop fuel prev m).finished := by
  induction fuel generalizing prev m with
  | zero => omega
  | succ n ih =>
    unfold blockCommentLoop
    simp only []
    cases hr : m.getRune.1 with
    | none => trivial
    | some c =>
      simp only []
      split
      · refine ih _ _ ?_
        have := left_getRune_lt hr
        rw [left_countLine]
        omega
      · trivial

theorem skipComment_finished (fuel : Nat) (m : Machine) (h : m.left < fuel) :
    (skipComment fuel m).finished := by
  unfold skipComment
  simp only []
  have h0 := left_getRune_le m
  split
  · rename_i hr
    have := left_getRune_lt hr
    exact lineCommentLoop_finished _ _ _ (by omega) (fun _ => by omega)
  · split
    · trivial
    · exact blockCommentLoop_finished _ _ _ (by omega)

theorem untilLoop_finished (fuel : Nat) (stop : Char) (m : Machine) (h : m.left < fuel) :
    (untilLoop fuel stop m).finished := by
  induction fuel generalizing m with
  | zero => omega
  | succ n ih =>
    unfold untilLoop
    simp only []
    cases hr : m.getRune.1 with
    | none => trivial
    | some c =>
      simp only []
      split
      · refine ih _ ?_
        have := left_getRune_lt hr
        rw [left_append]
        omega
      · trivial

theorem identLoop_finished (u : UnicodeTables) (fuel : Nat) (m : Machine) (h : m.left < fuel) :
    (identLoop u fuel m).finished := by
  induction fuel generalizing m with
  | zero => omega
  | succ n ih =>
    unfold identLoop
    simp only []
    cases hr : m.getRune.1 with
    | none => trivial
    | some c =>
      simp only []
      split
      · refine ih _ ?_
        have := left_getRune_lt hr
        rw [left_append]
        omega
      · trivial

theorem codeQuoteLoop_finished (fuel : Nat) (e : Char) (prev : Option Char) (m : Machine)
    (h : m.left < fuel) : (codeQuoteLoop fuel e prev m).finished := by
  induction fuel generalizing prev m with
  | zero => omega
  | succ n ih =>
    unfold codeQuoteLoop
    simp only []
    cases hr : m.getRune.1 with
    | none => trivial
    | some c =>
      simp only []
      split
      · refine ih _ _ ?_
        have := left_getRune_lt hr
        rw [left_countLine, left_append]
        omega
      · trivial

theorem codeLoop_finished (fuel level : Nat) (m : Machine) (h : m.left < fuel) :
    (codeLoop fuel level m).finished := by
  induction fuel generalizing level m with
  | zero => omega
  | succ n ih =>
    unfold codeLoop
    simp only []
    cases hr : m.getRune.1 with
    | none => trivial
    | some c =>
      simp only []
      have hlt : (m.getRune.2.append c).left < n := by
        have := left_getRune_lt hr
        rw [left_append]
        omega
      split
      · split
        · exact ih _ _ hlt
        · split
          · exact ih _ _ hlt
          · split
            · exact ih _ _ hlt
            · split
              · refine finished_bind (skipComment_finished n _ hlt) (skipComment_left n _) ?_
                intro a ha
                exact ih _ _ (Nat.lt_of_le_of_lt ha hlt)
              · split
                · refine finished_bind (codeQuoteLoop_finished n _ _ _ hlt)
                    (codeQuoteLoop_left n _ _ _) ?_
                  intro a ha
                  split
                  · exact ih _ _ (Nat.lt_of_le_of_lt ha hlt)
                  · exact ih _ _ (Nat.lt_of_le_of_lt ha hlt)
                · exact ih _ _ hlt
      · trivial

theorem scanToken_finished (u : UnicodeTables) (fuel : Nat) (m : Machine) (h : m.left ≤ fuel) :
    (scanToken u fuel m).finished := by
  unfold scanToken
  simp only []
  cases hr : m.getRune.1 with
  | none => trivial
  | some c =>
    simp only []
    have hlt : (m.getRune.2.countLine c).left < fuel := by
      have := left_getRune_lt hr
      rw [left_countLine]
      omega
    generalize m.getRune.2.countLine c = m1 at hlt
    have hm2 : (({ m1 with ps := { m1.ps with startTokLineno := m1.lemon.lineno } } :
        Machine).append c).left < fuel := hlt
    generalize (({ m1 with ps := { m1.ps with startTokLineno := m1.lemon.lineno } } :
        Machine).append c) = m2 at hm2
    have fin : ∀ (f : String) (q : Option Char × Machine),
        (match q.1 with
          | none => (errorf q.2.incErr q.2.lemon.lineno f : Step (Scanned × Machine))
          | some e => Step.ok (Scanned.token, q.2.append e)).finished := by
      intro f q
      split <;> trivial
    split
    · trivial
    · split
      · exact finished_bind (skipComment_finished fuel m1 hlt) (skipComment_left fuel m1)
          (fun _ _ => trivial)
      · split
        · exact finished_bind (untilLoop_finished fuel _ m2 hm2) (untilLoop_left fuel _ m2)
            (fun q _ => fin _ q)
        · split
          · exact finished_bind (untilLoop_finished fuel _ m2 hm2) (untilLoop_left fuel _ m2)
              (fun q _ => fin _ q)
          · split
            · exact finished_bind (codeLoop_finished fuel _ m2 hm2) (codeLoop_left fuel _ m2)
                (fun q _ => fin _ q)
            · split
              · refine finished_bind (identLoop_finished u fuel m2 hm2)
                  (identLoop_left u fuel m2) ?_
                intro q _
                split
                · trivial
                · split <;> trivial
              · trivial

theorem defineSymbol_finished (u : UnicodeTables) (m : Machine) (n : String) :
    (defineSymbol u m n).finished := by
  unfold defineSymbol
  simp only [errorf]
  split <;> (try split) <;> trivial

theorem onPrevRule_finished (m : Machine) (f : Rule → Rule) : (m.onPrevRule f).finished := by
  unfold Machine.onPrevRule
  split
  · trivial
  · split <;> trivial

theorem parseOneToken_finished (u : UnicodeTables) (m : Machine) :
    (parseOneToken u m).finished := by
  unfold parseOneToken
  cases ha : m.token.FirstRune with
  | none => simp only [ha]; trivial
  | some a =>
    cases hb : m.token.LastRune with
    | none => simp only [ha, hb]; trivial
    | some b =>
      simp only [ha, hb]
      cases hs : m.ps.curState <;> simp only [hs]
      all_goals
        (repeat' split) <;> first
          | trivial
          | exact onPrevRule_finished _ _
          | exact finished_bind (defineSymbol_finished _ _ _) (defineSymbol_left _ _ _)
              (fun _ _ => trivial)
          | exact finished_bind (onPrevRule_finished _ _) (onPrevRule_left _ _)
              (fun _ _ => trivial)

theorem feedToken_finished (u : UnicodeTables) (m : Machine) : (feedToken u m).finished := by
  unfold feedToken
  exact finished_bind (parseOneToken_finished u _) (parseOneToken_left u _) (fun _ _ => trivial)

theorem parseLoop_finished (u : UnicodeTables) (fuel : Nat) (m : Machine) (h : m.left < fuel) :
    (parseLoop u fuel m).finished := by
  induction fuel generalizing m with
  | zero => omega
  | succ n ih =>
    unfold parseLoop
    refine finished_bind (scanToken_finished u n m (by omega)) (scanToken_left u n m) ?_
    intro r hr
    cases hk : r.1 with
    | eof => trivial
    | skip =>
      simp only []
      exact ih _ (by
        have := hr.2 (by rw [hk]; exact fun h => Scanned.noConfusion h)
        omega)
    | token =>
      simp only []
      have hlt : r.2.left < n := by
        have := hr.2 (by rw [hk]; exact fun h => Scanned.noConfusion h)
        omega
      refine finished_bind (feedToken_finished u r.2) (feedToken_left u r.2) ?_
      intro a ha
      exact ih _ (by rw [ha]; exact hlt)

/-- The model of `Parse` always has fuel enough: the run returns, ends in `errorf`, or
panics. -/
theorem parseFrom_finished (u : UnicodeTables) (m : Machine) : (parseFrom u m).finished := by
  unfold parseFrom
  refine finished_bind (parseLoop_finished u _ m ?_) (P := fun _ => True) ?_ ?_
  · have := pending_length_le m.lemon.runeBuf
    unfold Machine.left
    omega
  · cases parseLoop u (m.lemon.runeBuf.reader.length + 2) m <;> trivial
  · intro a _
    obtain ⟨m1, h1, _⟩ := finish_ok a
    rw [h1]
    trivial

/-! ### C17: comments and spaces -/

/-- C17 (the claim as stated fails inside a comment): the position behind the `/*` of the
input `/*x*/%` lies outside any token.  With the block comment `/*c*/` inserted there the first
`*/` closes the outer comment, `x` is handed to the parser and the run ends in `errorf`; with a
space inserted there the only token is `%` and the run returns. -/
theorem C17_comment_inside_comment :
    hasCloser "c".data = false
    ∧ fedOf (parseText "/*/*c*/x*/%") = ["x"]
    ∧ exited (parseText "/*/*c*/x*/%") = true
    ∧ fedOf (parseText "/* x*/%") = ["%"]
    ∧ (parseText "/* x*/%").returned = true := by
  decide!

/-- C17 (amended): wherever the tokenizer stands at the head of the main loop of `Parse`,
that is outside tokens and outside comments, a comment counts as a space.  From every machine
state `m`, when the runes still to be delivered are `/*c*/` and `rest`, `c` without `*/`, the
run comes to an end, hands the same tokens to `parseOneToken` and ends the same way (it returns,
or ends in `errorf` with the same message) as the run from `m` with a space and `rest` still to
be delivered; and likewise for `//c`, a newline and `rest`, `c` without a newline, against a
newline and `rest`.  The first rune to be delivered may be the one pushed back behind an
identifier. -/
theorem C17_comment_at_loop_head (u : UnicodeTables) (m : Machine) (rb1 rb2 : RuneBuffer)
    (c rest : List Char) :
    (hasCloser c = false → rb1.pending = '/' :: '*' :: (c ++ '*' :: '/' :: rest) →
      rb2.pending = ' ' :: rest →
      sameRun (parseFrom u (m.withBuffer rb1)) (parseFrom u (m.withBuffer rb2)))
    ∧ ('\n' ∉ c → rb1.pending = '/' :: '/' :: (c ++ '\n' :: rest) →
      rb2.pending = '\n' :: rest →
      sameRun (parseFrom u (m.withBuffer rb1)) (parseFrom u (m.withBuffer rb2))) := by
  have hp1 := pending_length_le rb1
  have hp2 := pending_length_le rb2
  constructor
  · intro hc h1 h2
    have e1 := congrArg List.length h1
    have e2 := congrArg List.length h2
    simp only [List.length_cons, List.length_append] at e1 e2
    obtain ⟨l, hl⟩ := scanToken_block_comment u (rb1.reader.length + 1) (m.withBuffer rb1) c rest
      hc (by omega) h1
    have ha := first_round_skips u (m.withBuffer rb1) rest l hl
      (by show rest.length ≤ rb1.reader.length; omega)
    have hb := first_round_skips u (m.withBuffer rb2) rest _
      (scanToken_space u (rb2.reader.length + 1) (m.withBuffer rb2) rest h2)
      (by show rest.length ≤ rb2.reader.length; omega)
    exact ⟨parseFrom_finished u _, parseFrom_finished u _,
      parseFrom_same u _ _ rest _ _ ha hb rfl⟩
  · intro hc h1 h2
    have e1 := congrArg List.length h1
    have e2 := congrArg List.length h2
    simp only [List.length_cons, List.length_append] at e1 e2
    have ha := first_round_skips u (m.withBuffer rb1) rest _
      (scanToken_line_comment u (rb1.reader.length + 1) (m.withBuffer rb1) c rest hc (by omega)
        h1)
      (by show rest.length ≤ rb1.reader.length; omega)
    have hb := first_round_skips u (m.withBuffer rb2) rest _
      (scanToken_newline u (rb2.reader.length + 1) (m.withBuffer rb2) rest h2)
      (by show rest.length ≤ rb2.reader.length; omega)
    exact ⟨parseFrom_finished u _, parseFrom_finished u _,
      parseFrom_same u _ _ rest _ _ ha hb rfl⟩

/-- C17, amended, on two inputs.  From the start state with `/*a`, a newline, `* b*/` and
`%{ x %} %%` to read, the run is the one with a space in place of the comment, and the tokens
are `%`, `{ x %}`, `%`, `%`.  From the start state with `/` pushed back and `/ a b`, a newline
and `%%` in the reader, the run is the one with a newline pushed back and `%%` in the
reader. -/
theorem C17_comment_at_loop_head_witness :
    hasCloser "a\n* b".data = false
    ∧ sameRun
        (parseFrom asciiTables
          (startMachine.withBuffer (NewRuneBuffer "/*a\n* b*/%\x7b x %\x7d %%".data)))
        (parseFrom asciiTables
          (startMachine.withBuffer (NewRuneBuffer " %\x7b x %\x7d %%".data)))
    ∧ fedOf (parseFrom asciiTables
          (startMachine.withBuffer (NewRuneBuffer " %\x7b x %\x7d %%".data)))
        = ["%", "\x7b x %\x7d", "%", "%"]
    ∧ '\n' ∉ " a b".data
    ∧ sameRun
        (parseFrom asciiTables
          (startMachine.withBuffer ⟨"/ a b\n%%".data, some '/'⟩))
        (parseFrom asciiTables
          (startMachine.withBuffer ⟨"%%".data, some '\n'⟩)) :=
  ⟨by decide,
   (C17_comment_at_loop_head asciiTables startMachine _ _ "a\n* b".data
      "%\x7b x %\x7d %%".data).1 (by decide) rfl rfl,
   by decide!,
   by decide,
   (C17_comment_at_loop_head asciiTables startMachine _ _ " a b".data "%%".data).2
      (by decide) rfl rfl⟩

/-! ### `Parse` does not panic -/

theorem calm_bind {α β : Type} {s : Step α} {f : α → Step β} (hs : s.calm)
    (hf : ∀ a, s = Step.ok a → (f a).calm) : (s.bind f).calm := by
  cases s with
  | ok a => exact hf a rfl
  | exit d m => trivial
  | panic msg => exact hs
  | stall => trivial

theorem calm_bind_holds {α β : Type} {s : Step α} {f : α → Step β} {P : α → Prop}
    (hs : s.calm) (hp : s.holds P (fun _ => True)) (hf : ∀ a, P a → (f a).calm) :
    (s.bind f).calm := by
  cases s with
  | ok a => exact hf a hp
  | exit d m => trivial
  | panic msg => exact hs
  | stall => trivial

theorem lineCommentLoop_calm (fuel : Nat) (cur : Option Char) (m : Machine) :
    (lineCommentLoop fuel cur m).calm := by
  induction fuel generalizing cur m with
  | zero => trivial
  | succ n ih =>
    unfold lineCommentLoop
    split
    · trivial
    · split
      · trivial
      · exact ih _ _

theorem blockCommentLoop_calm (fuel : Nat) (prev : Option Char) (m : Machine) :
    (blockCommentLoop fuel prev m).calm := by
  induction fuel generalizing prev m with
  | zero => trivial
  | succ n ih =>
    unfold blockCommentLoop
    simp only
    split
    · trivial
    · split
      · exact ih _ _
      · trivial

theorem skipComment_calm (fuel : Nat) (m : Machine) : (skipComment fuel m).calm := by
  unfold skipComment
  simp only
  split
  · exact lineCommentLoop_calm _ _ _
  · split
    · trivial
    · exact blockCommentLoop_calm _ _ _

theorem untilLoop_calm (fuel : Nat) (stop : Char) (m : Machine) :
    (untilLoop fuel stop m).calm := by
  induction fuel generalizing m with
  | zero => trivial
  | succ n ih =>
    unfold untilLoop
    simp only
    split
    · trivial
    · split
      · exact ih _
      · trivial

theorem identLoop_calm (u : UnicodeTables) (fuel : Nat) (m : Machine) :
    (identLoop u fuel m).calm := by
  induction fuel generalizing m with
  | zero => trivial
  | succ n ih =>
    unfold identLoop
    simp only
    split
    · trivial
    · split
      · exact ih _
      · trivial

theorem codeQuoteLoop_calm (fuel : Nat) (e : Char) (prev : Option Char) (m : Machine) :
    (codeQuoteLoop fuel e prev m).calm := by
  induction fuel generalizing prev m with
  | zero => trivial
  | succ n ih =>
    unfold codeQuoteLoop
    simp only
    split
    · trivial
    · split
      · exact ih _ _
      · trivial

theorem codeLoop_calm (fuel level : Nat) (m : Machine) : (codeLoop fuel level m).calm := by
  induction fuel generalizing level m with
  | zero => trivial
  | succ n ih =>
    unfold codeLoop
    simp only
    split
    · trivial
    · split
      · split
        · exact ih _ _
        · split
          · exact ih _ _
          · split
            · exact ih _ _
            · split
              · exact calm_bind (skipComment_calm n _) (fun _ _ => ih _ _)
              · split
                · refine calm_bind (codeQuoteLoop_calm n _ _ _) ?_
                  intro a _
                  split
                  · exact ih _ _
                  · exact ih _ _
                · exact ih _ _
      · trivial

theorem getRune_peek {m : Machine} {c : Char} (h : m.getRune.1 = some c) :
    m.getRune.2.lemon.runeBuf.peekRune = noRune := by
  revert h
  unfold Machine.getRune RuneBuffer.GetRune
  simp only []
  by_cases hp : m.lemon.runeBuf.peekRune = noRune
  · simp only [hp, ne_eq, not_true_eq_false, if_false]
    cases hr : m.lemon.runeBuf.reader with
    | nil => simp
    | cons x xs => simp [hp]
  · simp only [hp, ne_eq, not_false_eq_true, if_true]
    split
    · simp
    · simp

/-- When the identifier loop ends at a rune, nothing is pushed back. -/
theorem identLoop_peek (u : UnicodeTables) (fuel : Nat) (m : Machine) :
    (identLoop u fuel m).holds
      (fun r => r.1 ≠ none → r.2.lemon.runeBuf.peekRune = noRune) (fun _ => True) := by
  induction fuel generalizing m with
  | zero => trivial
  | succ n ih =>
    unfold identLoop
    simp only
    split
    · exact fun h => absurd rfl h
    · rename_i c hc
      split
      · exact ih _
      · exact fun _ => getRune_peek hc

theorem scanToken_calm (u : UnicodeTables) (fuel : Nat) (m : Machine) :
    (scanToken u fuel m).calm := by
  unfold scanToken
  simp only
  split
  · trivial
  · split
    · trivial
    · split
      · exact calm_bind (skipComment_calm _ _) (fun _ _ => trivial)
      · split
        · refine calm_bind (untilLoop_calm _ _ _) ?_
          intro a _
          split <;> trivial
        · split
          · refine calm_bind (untilLoop_calm _ _ _) ?_
            intro a _
            split <;> trivial
          · split
            · refine calm_bind (codeLoop_calm _ _ _) ?_
              intro a _
              split <;> trivial
            · split
              · refine calm_bind_holds (identLoop_calm u _ _) (identLoop_peek u _ _) ?_
                intro a hp
                split
                · trivial
                · rename_i e he
                  have hpk : a.2.lemon.runeBuf.peekRune = noRune :=
                    hp (by rw [he]; exact Option.some_ne_none e)
                  simp only [RuneBuffer.UngetRune, hpk, ne_eq, not_true_eq_false, if_false]
                  trivial
              · trivial

theorem prevRuleLast_scans {m m1 : Machine} (h : Scans m m1) (hm : PrevRuleLast m) :
    PrevRuleLast m1 := by
  obtain ⟨-, -, -, -, ⟨e, l, hps⟩, -⟩ := h
  unfold PrevRuleLast at hm ⊢
  rw [hps]
  exact hm

/-- From a state in which `prevRule` is the last rule whenever a rule is under
construction, the main loop of `Parse` does not panic. -/
theorem parseLoop_calm (u : UnicodeTables) (fuel : Nat) (m : Machine) (hm : PrevRuleLast m) :
    (parseLoop u fuel m).calm := by
  induction fuel generalizing m with
  | zero => trivial
  | succ n ih =>
    unfold parseLoop
    refine calm_bind_holds (scanToken_calm u n m)
      (holds_mono (scanToken_scans u n m) (fun _ h => h) (fun _ _ => trivial)) ?_
    intro r hr
    have hp : PrevRuleLast r.2 := prevRuleLast_scans hr.1 hm
    split
    · trivial
    · exact ih _ hp
    · rename_i htok
      have hne := hr.2 htok
      unfold feedToken
      have hp2 : PrevRuleLast ({ r.2 with fed := r.2.fed ++ [r.2.token.String] } : Machine) := hp
      cases hpo : parseOneToken u { r.2 with fed := r.2.fed ++ [r.2.token.String] } with
      | ok m1 =>
        have hp3 : PrevRuleLast m1 := parseOneToken_prevRuleLast hp2 hpo
        simp only [Step.bind]
        exact ih _ hp3
      | exit d m1 => trivial
      | panic msg => exact absurd hpo (parseOneToken_no_panic hp2 hne msg)
      | stall => trivial

/-- `Parse` never panics: it returns or ends in `errorf`. -/
theorem Parse_calm (u : UnicodeTables) (lemon : Lemon) : (Parse u lemon).calm := by
  unfold Parse parseFrom
  refine calm_bind (parseLoop_calm u _ _ ?_) ?_
  · simp [PrevRuleLast, NewParserState, FsmState.inRule]
  · intro a _
    obtain ⟨m1, h1, _⟩ := finish_ok a
    rw [h1]
    trivial

theorem ends_of_calm_finished {s : Step Machine} (hc : s.calm) (hf : s.finished) :
    (∃ m, s = Step.ok m) ∨ ∃ d m, s = Step.exit d m := by
  cases s with
  | ok a => exact Or.inl ⟨a, rfl⟩
  | exit d m => exact Or.inr ⟨d, m, rfl⟩
  | panic msg => exact absurd hc (by simp [Step.calm])
  | stall => exact absurd hf (by simp [Step.finished])

/-! ### C32: token indexing -/

/-- C32: every token a round of the main loop of `Parse` assembles, from whatever state,
has at least one codepoint; `Parse` itself, for every input, returns or ends in `errorf` (it
never panics and never runs on for ever), and every token it has handed to `parseOneToken` on
the way has at least one codepoint; and for every machine whose token is non-empty, in every
FSM state, `FirstRune` and `LastRune` are in bounds, the slice `[1:runeCount]` is in bounds,
`NthRune(runeCount-2)` is in bounds whenever it is evaluated (first rune an opening and last
rune a closing brace), and `parseOneToken` neither panics with `Index out of bound` nor with a
negative length for `make`. -/
theorem C32_token_indexing_in_bounds (u : UnicodeTables) :
    (∀ (fuel : Nat) (m m1 : Machine), scanToken u fuel m = Step.ok (Scanned.token, m1) →
        m1.token.buffer ≠ [] ∧ 1 ≤ m1.token.RuneCount)
    ∧ (∀ lemon : Lemon,
        ((∃ m, Parse u lemon = Step.ok m) ∨ ∃ d m, Parse u lemon = Step.exit d m)
        ∧ (∀ msg, Parse u lemon ≠ Step.panic msg)
        ∧ ∀ s ∈ fedOf (Parse u lemon), s.data ≠ [])
    ∧ ∀ m : Machine, m.token.buffer ≠ [] →
        1 ≤ m.token.RuneCount
        ∧ (∃ a b, m.token.FirstRune = some a ∧ m.token.LastRune = some b)
        ∧ (m.token.FirstRune = some '{' → m.token.LastRune = some '}' →
            2 ≤ m.token.RuneCount
            ∧ ∃ r, m.token.NthRune ((m.token.RuneCount : Int) - 2) = some r)
        ∧ parseOneToken u m ≠ Step.panic "Index out of bound"
        ∧ parseOneToken u m ≠ Step.panic "makeslice: len out of range" := by
  refine ⟨?_, ?_, ?_⟩
  · intro fuel m m1 h
    have hs := scanToken_scans u fuel m
    rw [h] at hs
    have hne := hs.2 rfl
    exact ⟨hne, List.length_pos.mpr hne⟩
  · intro lemon
    have hc := Parse_calm u lemon
    refine ⟨ends_of_calm_finished hc (parseFrom_finished u _), ?_, ?_⟩
    · intro msg h
      rw [h] at hc
      exact hc
    · refine fedOf_holds (P := fun l => ∀ s ∈ l, s.data ≠ []) ?_ (by simp)
      unfold Parse parseFrom
      refine holds_bind (parseLoop_fed u _ _ (by simp)) ?_
      intro a ha
      exact holds_mono (PrintFirstSets_fed _)
        (fun m1 h => by simp only [h]; simpa [Reprint, Machine.setTable] using ha)
        (fun m1 h => by simp only [h]; simpa [Reprint, Machine.setTable] using ha)
  · intro m hne
    refine ⟨?_, token_runes_some hne, fun ha hb => brace_token_second_last ha hb, ?_, ?_⟩
    · exact List.length_pos.mpr hne
    · intro h
      exact absurd (parseOneToken_panic_msg hne h) (by decide)
    · intro h
      exact absurd (parseOneToken_panic_msg hne h) (by decide)

/-- C32 at the token `{%}` in state `WaitOpenBrace`, where `NthRune(runeCount-2)` is
evaluated, and for the run of `Parse` on the input `%{ %} %% e : ;`. -/
theorem C32_token_indexing_in_bounds_witness :
    (∀ s ∈ fedOf (parseText "%\x7b %\x7d %% e : ;"), s.data ≠ [])
    ∧ fedOf (parseText "%\x7b %\x7d %% e : ;")
        = ["%", "\x7b %\x7d", "%", "%", "e", ":", ";"]
    ∧ (machineAt FsmState.WaitOpenBrace "\x7b%\x7d").token.buffer ≠ []
    ∧ 1 ≤ (machineAt FsmState.WaitOpenBrace "\x7b%\x7d").token.RuneCount
    ∧ (∃ a b, (machineAt FsmState.WaitOpenBrace "\x7b%\x7d").token.FirstRune = some a
        ∧ (machineAt FsmState.WaitOpenBrace "\x7b%\x7d").token.LastRune = some b)
    ∧ ((machineAt FsmState.WaitOpenBrace "\x7b%\x7d").token.FirstRune = some '{' →
        (machineAt FsmState.WaitOpenBrace "\x7b%\x7d").token.LastRune = some '}' →
        2 ≤ (machineAt FsmState.WaitOpenBrace "\x7b%\x7d").token.RuneCount
        ∧ ∃ r, (machineAt FsmState.WaitOpenBrace "\x7b%\x7d").token.NthRune
            (((machineAt FsmState.WaitOpenBrace "\x7b%\x7d").token.RuneCount : Int) - 2)
              = some r)
    ∧ parseOneToken asciiTables (machineAt FsmState.WaitOpenBrace "\x7b%\x7d")
        ≠ Step.panic "Index out of bound"
    ∧ parseOneToken asciiTables (machineAt FsmState.WaitOpenBrace "\x7b%\x7d")
        ≠ Step.panic "makeslice: len out of range" :=
  ⟨((C32_token_indexing_in_bounds asciiTables).2.1
      (NewLemon "in.y" "in.go" "%\x7b %\x7d %% e : ;".data)).2.2,
    by decide!, by decide, (C32_token_indexing_in_bounds asciiTables).2.2 _ (by decide)⟩

/-! ### Code blocks with comments -/

theorem countNL_cons (c : Char) (cs : List Char) :
    countNL (c :: cs) = (if c = '\n' then 1 else 0) + countNL cs := by
  unfold countNL
  by_cases h : c = '\n'
  · simp [List.filter_cons, h]; omega
  · simp [List.filter_cons, h]

theorem lineComment_end (cs : List Char) :
    ∀ (x : Char) (m : Machine) (fuel : Nat), x ≠ '\n' → m.reads cs → cs.length + 2 ≤ fuel →
      (∃ rest, rest.length < cs.length
          ∧ lineCommentLoop fuel (some x) m = Step.ok (m.skipTo rest (m.lemon.lineno + 1))
          ∧ countNL cs = countNL rest + 1
          ∧ ∀ d, blockEnd (CodeState.line d) cs = blockEnd (CodeState.code d) rest)
      ∨ ((∃ dg m1, lineCommentLoop fuel (some x) m = Step.exit dg m1
            ∧ dg.format = "EOF inside comment.")
          ∧ ∀ d, blockEnd (CodeState.line d) cs = BlockEnd.commentNotClosed) := by
  induction cs with
  | nil =>
    intro x m fuel hx hr hf
    obtain ⟨f, rfl⟩ : ∃ f, fuel = f + 2 := ⟨fuel - 2, by simp at hf; omega⟩
    right
    have h : lineCommentLoop (f + 2) (some x) m
        = Step.exit ⟨"EOF inside comment.", m.lemon.infile, m.lemon.lineno⟩ m := by
      unfold lineCommentLoop
      simp only [getRune_reads_nil hr]
      rw [if_neg hx]
      unfold lineCommentLoop
      rfl
    exact ⟨⟨_, _, h, rfl⟩, fun d => rfl⟩
  | cons c cs ih =>
    intro x m fuel hx hr hf
    obtain ⟨f, rfl⟩ : ∃ f, fuel = f + 1 := ⟨fuel - 1, by simp at hf; omega⟩
    have hf2 : cs.length + 2 ≤ f := by simp at hf; omega
    unfold lineCommentLoop
    simp only [getRune_reads_skipTo hr]
    rw [if_neg hx]
    by_cases hc : c = '\n'
    · subst hc
      left
      obtain ⟨g, rfl⟩ : ∃ g, f = g + 1 := ⟨f - 1, by omega⟩
      refine ⟨cs, by simp, ?_, ?_, fun d => by simp [blockEnd]⟩
      · unfold lineCommentLoop
        rfl
      · rw [countNL_cons]; simp; omega
    · rcases ih c (m.skipTo cs m.lemon.lineno) f hc rfl hf2 with ⟨rest, h1, h2, h3, h4⟩ | ⟨h1, h2⟩
      · left
        refine ⟨rest, by simp; omega, ?_, ?_, fun d => by simp [blockEnd, hc, h4]⟩
        · rw [h2]; rfl
        · rw [countNL_cons]; simp [hc, h3]
      · right
        exact ⟨h1, fun d => by simp [blockEnd, hc, h2]⟩

theorem blockComment_end (cs : List Char) :
    ∀ (prev : Option Char) (m : Machine) (fuel : Nat), m.reads cs → cs.length + 1 ≤ fuel →
      (∃ rest l, rest.length < cs.length
          ∧ blockCommentLoop fuel prev m = Step.ok (m.skipTo rest l)
          ∧ l + countNL rest = m.lemon.lineno + countNL cs
          ∧ ∀ d, blockEnd (CodeState.block d (decide (prev = some '*'))) cs
              = blockEnd (CodeState.code d) rest)
      ∨ ((∃ dg m1, blockCommentLoop fuel prev m = Step.exit dg m1
            ∧ dg.format = "EOF inside comment.")
          ∧ ∀ d, blockEnd (CodeState.block d (decide (prev = some '*'))) cs
              = BlockEnd.commentNotClosed) := by
  induction cs with
  | nil =>
    intro prev m fuel hr hf
    obtain ⟨f, rfl⟩ : ∃ f, fuel = f + 1 := ⟨fuel - 1, by simp at hf; omega⟩
    right
    have h : blockCommentLoop (f + 1) prev m
        = Step.exit ⟨"EOF inside comment.", m.lemon.infile, m.lemon.lineno⟩ m := by
      unfold blockCommentLoop
      simp only [getRune_reads_nil hr]
      rfl
    exact ⟨⟨_, _, h, rfl⟩, fun d => rfl⟩
  | cons c cs ih =>
    intro prev m fuel hr hf
    obtain ⟨f, rfl⟩ : ∃ f, fuel = f + 1 := ⟨fuel - 1, by simp at hf; omega⟩
    have hf2 : cs.length + 1 ≤ f := by simp at hf; omega
    unfold blockCommentLoop
    simp only [getRune_reads_skipTo hr]
    by_cases hend : prev = some '*' ∧ c = '/'
    · left
      have hn : ¬ (prev ≠ some '*' ∨ c ≠ '/') := by
        intro h
        rcases h with h | h
        · exact h hend.1
        · exact h hend.2
      rw [if_neg hn]
      refine ⟨cs, m.lemon.lineno, by simp, rfl, ?_, fun d => by simp [blockEnd, hend.1, hend.2]⟩
      rw [countNL_cons, hend.2]
      simp
    · have hc : prev ≠ some '*' ∨ c ≠ '/' := by
        by_cases h : prev = some '*'
        · exact Or.inr (fun h2 => hend ⟨h, h2⟩)
        · exact Or.inl h
      rw [if_pos hc]
      have hr2 : ((m.skipTo cs m.lemon.lineno).countLine c).reads cs := by
        unfold Machine.countLine; split <;> rfl
      have hl2 : ((m.skipTo cs m.lemon.lineno).countLine c).lemon.lineno
          = m.lemon.lineno + (if c = '\n' then 1 else 0) := by
        unfold Machine.countLine; split <;> rfl
      have hst : (decide (prev = some '*') = true ∧ c = '/') = False := by
        simp only [decide_eq_true_eq, eq_iff_iff, iff_false]
        exact hend
      have hdec : decide ((some c : Option Char) = some '*') = decide (c = '*') := by simp
      rcases ih (some c) _ f hr2 hf2 with ⟨rest, l, h1, h2, h3, h4⟩ | ⟨h1, h2⟩
      · left
        refine ⟨rest, l, by simp; omega, ?_, ?_, ?_⟩
        · rw [h2, skipTo_countLine, skipTo_skipTo]
        · rw [h3, hl2, countNL_cons]; omega
        · intro d
          rw [← h4 d, hdec]
          simp only [blockEnd, hst, if_false]
      · right
        refine ⟨h1, ?_⟩
        intro d
        rw [← h2 d, hdec]
        simp only [blockEnd, hst, if_false]

theorem skipComment_end (cs : List Char) (m : Machine) (fuel : Nat) (hr : m.reads cs)
    (hf : cs.length + 1 ≤ fuel) :
    (∃ rest l, rest.length < cs.length
        ∧ skipComment fuel m = Step.ok (m.skipTo rest l)
        ∧ l + countNL rest = m.lemon.lineno + countNL cs
        ∧ ∀ d, blockEnd (CodeState.slash d) cs = blockEnd (CodeState.code d) rest)
    ∨ ((∃ dg m1, skipComment fuel m = Step.exit dg m1 ∧ dg.format = "Illegal comment: `%q`")
        ∧ ∀ d, blockEnd (CodeState.slash d) cs = BlockEnd.illegalComment)
    ∨ ((∃ dg m1, skipComment fuel m = Step.exit dg m1 ∧ dg.format = "EOF inside comment.")
        ∧ ∀ d, blockEnd (CodeState.slash d) cs = BlockEnd.commentNotClosed) := by
  cases cs with
  | nil =>
    right; left
    have h : skipComment fuel m
        = Step.exit ⟨"Illegal comment: `%q`", m.lemon.infile, m.lemon.lineno⟩ m := by
      unfold skipComment
      simp only [getRune_reads_nil hr]
      rw [if_neg (by simp), if_pos (by simp)]
      rfl
    exact ⟨⟨_, _, h, rfl⟩, fun d => rfl⟩
  | cons c cs =>
    have hlen : cs.length + 2 ≤ fuel := by simp at hf; omega
    by_cases h1 : c = '/'
    · subst h1
      have hsk : skipComment fuel m
          = lineCommentLoop fuel (some '/') (m.skipTo cs m.lemon.lineno) := by
        unfold skipComment
        simp only [getRune_reads_skipTo hr, if_true]
      rcases lineComment_end cs '/' (m.skipTo cs m.lemon.lineno) fuel (by decide) rfl hlen with
        ⟨rest, a1, a2, a3, a4⟩ | ⟨a1, a2⟩
      · left
        refine ⟨rest, m.lemon.lineno + 1, by simp; omega, ?_, ?_, ?_⟩
        · rw [hsk, a2]; rfl
        · rw [countNL_cons, a3]; simp; omega
        · intro d
          simp [blockEnd, a4]
      · right; right
        refine ⟨?_, fun d => by simp [blockEnd, a2]⟩
        rw [hsk]
        exact a1
    · by_cases h2 : c = '*'
      · subst h2
        have hsk : skipComment fuel m
            = blockCommentLoop fuel noRune (m.skipTo cs m.lemon.lineno) := by
          unfold skipComment
          simp only [getRune_reads_skipTo hr]
          rw [if_neg (by simp), if_neg (by simp)]
        have hd : decide (noRune = some '*') = false := by decide
        rcases blockComment_end cs noRune (m.skipTo cs m.lemon.lineno) fuel rfl (by omega) with
          ⟨rest, l, a1, a2, a3, a4⟩ | ⟨a1, a2⟩
        · left
          refine ⟨rest, l, by simp; omega, ?_, ?_, ?_⟩
          · rw [hsk, a2]; rfl
          · rw [a3, countNL_cons]; simp; rfl
          · intro d
            rw [← a4 d, hd]
            simp [blockEnd]
        · right; right
          refine ⟨?_, ?_⟩
          · rw [hsk]; exact a1
          · intro d
            rw [← a2 d, hd]
            simp [blockEnd]
      · right; left
        have h : skipComment fuel m
            = Step.exit ⟨"Illegal comment: `%q`", m.lemon.infile, m.lemon.lineno⟩
                (m.skipTo cs m.lemon.lineno) := by
          unfold skipComment
          simp only [getRune_reads_skipTo hr]
          rw [if_neg (by simpa using h1), if_pos (by simpa using h2)]
          rfl
        exact ⟨⟨_, _, h, rfl⟩, fun d => by simp [blockEnd, h1, h2]⟩

theorem blockEnd_quote (d : Nat) (q : Char) (cs : List Char) :
    ∀ esc : Bool, blockEnd (CodeState.quote d q esc) cs =
      match quoteSplit q esc cs with
      | none => BlockEnd.notClosed
      | some r => blockEnd (CodeState.code d) r.2 := by
  induction cs with
  | nil => intro esc; simp [blockEnd, quoteSplit]
  | cons c cs ih =>
    intro esc
    simp only [blockEnd, quoteSplit]
    split
    · rw [ih]
      cases quoteSplit q false cs <;> simp
    · split
      · rfl
      · rw [ih]
        cases quoteSplit q (decide (c = '\\')) cs <;> simp

theorem codeEnds_shift {l0 l1 : Nat} {cs0 cs1 : List Char} {e : BlockEnd}
    {s : Step (Option Char × Machine)} (h : l1 + countNL cs1 = l0 + countNL cs0)
    (hs : CodeEnds l1 cs1 e s) : CodeEnds l0 cs0 e s := by
  cases e with
  | closed rest => exact hs
  | notClosed =>
    obtain ⟨m1, h1, h2⟩ := hs
    exact ⟨m1, h1, by rw [h2, h]⟩
  | illegalComment => exact hs
  | commentNotClosed => exact hs

/-- The code-block loop ends the way the scan of its input ends. -/
theorem codeLoop_end :
    ∀ (fuel : Nat) (cs : List Char) (level : Nat) (m : Machine), m.reads cs →
      cs.length < fuel →
      CodeEnds m.lemon.lineno cs (blockEnd (CodeState.code level) cs)
        (codeLoop fuel level m) := by
  intro fuel
  induction fuel with
  | zero => intro cs level m _ hf; simp at hf
  | succ n ih =>
    intro cs level m hm hf
    cases cs with
    | nil =>
      simp only [codeLoop, blockEnd, getRune_reads_nil hm]
      exact ⟨m, rfl, by simp [countNL]⟩
    | cons c cs =>
      have hn : cs.length < n := by simpa using hf
      simp only [codeLoop, getRune_reads_skipTo hm]
      have step : ∀ (lv : Nat) (m2 : Machine), m2.reads cs →
          m2.lemon.lineno + countNL cs = m.lemon.lineno + countNL (c :: cs) →
          CodeEnds m.lemon.lineno (c :: cs) (blockEnd (CodeState.code lv) cs)
            (codeLoop n lv m2) :=
        fun lv m2 h1 h2 => codeEnds_shift h2 (ih cs lv m2 h1 hn)
      by_cases hcb : c = '}'
      · subst hcb
        by_cases hl1 : level ≤ 1
        · have : ¬ (level > 1 ∨ '}' ≠ '}') := by simp; omega
          simp only [this, if_false, blockEnd, if_true, hl1]
          exact ⟨_, rfl, rfl⟩
        · have h1 : (level > 1 ∨ '}' ≠ '}') := Or.inl (by omega)
          have h2 : ¬ ('}' = '\n') := by decide
          simp only [h1, if_true, h2, if_false, blockEnd, hl1]
          exact step _ _ rfl (by rw [countNL_cons]; simp [Machine.append, Machine.skipTo])
      · have h1 : (level > 1 ∨ c ≠ '}') := Or.inr hcb
        simp only [h1, if_true, hcb, if_false, blockEnd]
        by_cases hnl : c = '\n'
        · subst hnl
          have h3 : ¬ ('\n' = '{') := by decide
          have h4 : ¬ ('\n' = '\'' ∨ '\n' = '"') := by decide
          have h5 : ¬ ('\n' = '/') := by decide
          simp only [if_true, h3, h4, h5, if_false]
          exact step _ _ rfl (by
            rw [countNL_cons]
            simp [Machine.append, Machine.skipTo, Machine.incLine]
            omega)
        · simp only [hnl, if_false]
          have hline : ((m.skipTo cs m.lemon.lineno).append c).lemon.lineno + countNL cs
              = m.lemon.lineno + countNL (c :: cs) := by
            rw [countNL_cons]; simp [Machine.append, Machine.skipTo, hnl]
          by_cases hob : c = '{'
          · subst hob
            simp only [if_true]
            exact step _ _ rfl hline
          · simp only [hob, if_false]
            by_cases hsl : c = '/'
            · subst hsl
              simp only [if_true]
              rcases skipComment_end cs ((m.skipTo cs m.lemon.lineno).append '/') n rfl
                (by omega) with ⟨rest, l, a1, a2, a3, a4⟩ | ⟨⟨dg, m1, a1, a2⟩, a3⟩
                  | ⟨⟨dg, m1, a1, a2⟩, a3⟩
              · rw [a2, a4]
                simp only [Step.bind]
                refine codeEnds_shift ?_ (ih rest level _ rfl (by omega))
                show l + countNL rest = _
                rw [a3, hline]
              · rw [a1, a3]
                exact ⟨dg, m1, rfl, a2⟩
              · rw [a1, a3]
                exact ⟨dg, m1, rfl, a2⟩
            · simp only [hsl, if_false]
              by_cases hq : c = '\'' ∨ c = '"'
              · simp only [hq, if_true]
                rw [codeQuoteLoop_eq c cs n noRune ((m.skipTo cs m.lemon.lineno).append c)
                  (rfl : ((m.skipTo cs m.lemon.lineno).append c).reads cs) hn]
                have hd : decide (noRune = some '\\') = false := by decide
                rw [hd, blockEnd_quote]
                cases hqs : quoteSplit c false cs with
                | none =>
                  simp only [Step.bind]
                  refine codeEnds_shift ?_ (ih [] level _ (advance_reads _ _ _)
                    (by simp only [List.length_nil]; omega))
                  show ((m.skipTo cs m.lemon.lineno).append c).lemon.lineno + countNL cs
                      + countNL [] = _
                  rw [hline]; simp [countNL]
                | some r =>
                  have hcs := quoteSplit_eq c cs false r hqs
                  have hlen : r.2.length < n := by
                    have := congrArg List.length hcs
                    simp at this
                    omega
                  simp only [Step.bind]
                  refine codeEnds_shift ?_ (ih r.2 level _ rfl hlen)
                  show ((m.skipTo cs m.lemon.lineno).append c).lemon.lineno + countNL r.1
                      + countNL r.2 = _
                  rw [← hline, hcs]
                  simp [countNL, List.filter_append, List.filter_cons, hnl]
                  omega
              · simp only [hq, if_false]
                exact step _ _ rfl hline

theorem lineCommentLoop_errs (fuel : Nat) (cur : Option Char) (m : Machine) :
    (lineCommentLoop fuel cur m).holds (fun r => r.ps.errorCnt = m.ps.errorCnt)
      (fun _ => True) := by
  induction fuel generalizing cur m with
  | zero => trivial
  | succ n ih =>
    unfold lineCommentLoop
    split
    · trivial
    · split
      · rfl
      · exact ih _ _

theorem blockCommentLoop_errs (fuel : Nat) (prev : Option Char) (m : Machine) :
    (blockCommentLoop fuel prev m).holds (fun r => r.ps.errorCnt = m.ps.errorCnt)
      (fun _ => True) := by
  induction fuel generalizing prev m with
  | zero => trivial
  | succ n ih =>
    unfold blockCommentLoop
    simp only
    split
    · trivial
    · split
      · refine holds_mono (ih _ _) (fun _ h => ?_) (fun _ _ => trivial)
        rw [h]
        unfold Machine.countLine
        split <;> rfl
      · rfl

theorem skipComment_errs (fuel : Nat) (m : Machine) :
    (skipComment fuel m).holds (fun r => r.ps.errorCnt = m.ps.errorCnt) (fun _ => True) := by
  unfold skipComment
  simp only
  split
  · exact lineCommentLoop_errs _ _ _
  · split
    · trivial
    · exact blockCommentLoop_errs _ _ _

theorem codeQuoteLoop_errs (fuel : Nat) (e : Char) (prev : Option Char) (m : Machine) :
    (codeQuoteLoop fuel e prev m).holds (fun r => r.2.ps.errorCnt = m.ps.errorCnt)
      (fun _ => True) := by
  induction fuel generalizing prev m with
  | zero => trivial
  | succ n ih =>
    unfold codeQuoteLoop
    simp only
    split
    · rfl
    · split
      · refine holds_mono (ih _ _) (fun _ h => ?_) (fun _ _ => trivial)
        rw [h]
        unfold Machine.countLine
        split <;> rfl
      · rfl

theorem codeLoop_errs (fuel level : Nat) (m : Machine) :
    (codeLoop fuel level m).holds (fun r => r.2.ps.errorCnt = m.ps.errorCnt)
      (fun _ => True) := by
  induction fuel generalizing level m with
  | zero => trivial
  | succ n ih =>
    unfold codeLoop
    simp only
    have key : ∀ (l : Nat) (a : Machine), a.ps.errorCnt = m.ps.errorCnt →
        (codeLoop n l a).holds (fun r => r.2.ps.errorCnt = m.ps.errorCnt) (fun _ => True) :=
      fun l a ha => holds_mono (ih l a) (fun _ h => h.trans ha) (fun _ _ => trivial)
    split
    · rfl
    · split
      · split
        · exact key _ _ rfl
        · split
          · exact key _ _ rfl
          · split
            · exact key _ _ rfl
            · split
              · refine holds_bind (skipComment_errs n _) ?_
                intro a ha
                exact key _ _ ha
              · split
                · refine holds_bind (codeQuoteLoop_errs n _ _ _) ?_
                  intro a ha
                  split
                  · exact key _ _ ha
                  · exact key _ _ ha
                · exact key _ _ rfl
      · rfl

theorem scanToken_brace (u : UnicodeTables) (fuel : Nat) (m : Machine) (rest : List Char)
    (hm : m.lemon.runeBuf.pending = '{' :: rest) :
    scanToken u fuel m =
      (codeLoop fuel 1 ((m.skipTo rest m.lemon.lineno).startTok.append '{')).bind fun q =>
        match q.1 with
        | none => errorf q.2.incErr q.2.lemon.lineno codeNotTerminated
        | some e => Step.ok (Scanned.token, q.2.append e) := by
  have h0 : util.IsSpace (some '{') = false := by decide
  have e1 : ('{' : Char) ≠ '/' := by decide
  have e2 : ('{' : Char) ≠ '\'' := by decide
  have e3 : ('{' : Char) ≠ '<' := by decide
  have e4 : ('{' : Char) ≠ '\n' := by decide
  simp only [scanToken, getRune_pending hm, Machine.countLine, e4, if_false, h0, e1, e2, e3,
    Bool.false_eq_true, if_true]
  rfl

theorem parseFrom_exit (u : UnicodeTables) (m : Machine) (d : Diag) (m1 : Machine)
    (h : scanToken u (m.lemon.runeBuf.reader.length + 1) m = Step.exit d m1) :
    parseFrom u m = Step.exit d m1 := by
  unfold parseFrom
  have e : m.lemon.runeBuf.reader.length + 2 = (m.lemon.runeBuf.reader.length + 1) + 1 := rfl
  rw [e]
  unfold parseLoop
  rw [h]
  rfl

theorem scans_exit {u : UnicodeTables} {fuel : Nat} {m m1 : Machine} {d : Diag}
    (h : scanToken u fuel m = Step.exit d m1) :
    m1.fed = m.fed ∧ m1.ps.symTable = m.ps.symTable ∧ m1.ps.rules = m.ps.rules
      ∧ m1.ps.curState = m.ps.curState := by
  have hs := scanToken_scans u fuel m
  rw [h] at hs
  obtain ⟨h1, -, -, -, ⟨e, l, hps⟩, -⟩ := hs
  exact ⟨h1, by rw [hps], by rw [hps], by rw [hps]⟩

/-- On an input without `/` the scan with comments ends where `blockScan` ends. -/
theorem blockEnd_without_slash (cs : List Char) (hs : '/' ∉ cs) :
    ∀ st : BlockState, blockEnd st.withComments cs =
      match blockScan st cs with
      | some r => BlockEnd.closed r.2
      | none => BlockEnd.notClosed := by
  induction cs with
  | nil => intro st; cases st <;> rfl
  | cons c cs ih =>
    have hs2 : '/' ∉ cs := fun h => hs (List.mem_cons_of_mem _ h)
    have hc : c ≠ '/' := fun h => hs (h ▸ List.mem_cons_self _ _)
    have key : ∀ st : BlockState, blockEnd st.withComments cs =
        match (blockScan st cs).map (fun r => (c :: r.1, r.2)) with
        | some r => BlockEnd.closed r.2
        | none => BlockEnd.notClosed := by
      intro st
      rw [ih hs2 st]
      cases blockScan st cs <;> rfl
    intro st
    cases st with
    | code d =>
      simp only [BlockState.withComments, blockEnd, blockScan, hc, if_false]
      split
      · split
        · rfl
        · exact key (BlockState.code (d - 1))
      · split
        · exact key (BlockState.code (d + 1))
        · split
          · exact key (BlockState.quote d c false)
          · exact key (BlockState.code d)
    | quote d q esc =>
      simp only [BlockState.withComments, blockEnd, blockScan]
      split
      · exact key (BlockState.quote d q false)
      · split
        · exact key (BlockState.code d)
        · exact key (BlockState.quote d q (decide (c = '\\')))

/-! ### C10: unterminated code blocks -/

/-- C10 fails as worded: in the inputs `{/` and `{ //x` the block opened at the start of the
input is not closed, but the `/` inside it starts comment skipping, whose own fatal error is
reported instead of the error for the block. -/
theorem C10_comment_error_comes_first :
    (diagOf (parseText "\x7b/")).map (fun d => d.format) = some "Illegal comment: `%q`"
    ∧ (diagOf (parseText "\x7b //x")).map (fun d => d.format) = some "EOF inside comment."
    ∧ "Illegal comment: `%q`" ≠ codeNotTerminated
    ∧ "EOF inside comment." ≠ codeNotTerminated := by
  decide!

/-- C10, amended: when the next rune the main loop of `Parse` gets is a `{` (outside any
token; it may be the rune pushed back behind an identifier) and `rest` follows it, the run
ends in `errorf` without a token handed to `parseOneToken` and without the analysis
(the record of fed tokens, the symbol table, the rules and the FSM state are as before)
whenever the block is not closed, in one of three ways.  If the scan of `rest` reaches the end
of the input in the code or in a quoted region of the block, comments having been skipped,
the message is that the code is not terminated, at the line reached at the end of the input,
with one more error counted.  If it comes to a `/` of the code that is followed by neither `/`
nor `*`, the message is `Illegal comment`.  If it reaches the end of the input inside a
comment, the message is `EOF inside comment.`.  When `rest` holds no `/`, the first case is
the one in which `blockScan` finds no closing brace. -/
theorem C10_unterminated_block_is_fatal (u : UnicodeTables) (m : Machine)
    (rest : List Char) (hm : m.lemon.runeBuf.pending = '{' :: rest) :
    (blockEnd (CodeState.code 1) rest = BlockEnd.notClosed →
      ∃ m1, parseFrom u m
          = Step.exit ⟨codeNotTerminated, m.lemon.infile, m.lemon.lineno + countNL rest⟩ m1
        ∧ m1.fed = m.fed
        ∧ m1.ps.symTable = m.ps.symTable
        ∧ m1.ps.rules = m.ps.rules
        ∧ m1.ps.curState = m.ps.curState
        ∧ m1.ps.errorCnt = m.ps.errorCnt + 1)
    ∧ (blockEnd (CodeState.code 1) rest = BlockEnd.illegalComment →
      ∃ d m1, parseFrom u m = Step.exit d m1 ∧ d.format = "Illegal comment: `%q`"
        ∧ m1.fed = m.fed
        ∧ m1.ps.symTable = m.ps.symTable
        ∧ m1.ps.rules = m.ps.rules
        ∧ m1.ps.curState = m.ps.curState)
    ∧ (blockEnd (CodeState.code 1) rest = BlockEnd.commentNotClosed →
      ∃ d m1, parseFrom u m = Step.exit d m1 ∧ d.format = "EOF inside comment."
        ∧ m1.fed = m.fed
        ∧ m1.ps.symTable = m.ps.symTable
        ∧ m1.ps.rules = m.ps.rules
        ∧ m1.ps.curState = m.ps.curState)
    ∧ ('/' ∉ rest → blockScan (BlockState.code 1) rest = none →
        blockEnd (CodeState.code 1) rest = BlockEnd.notClosed) := by
  have hp := pending_length_le m.lemon.runeBuf
  have hlen : rest.length < m.lemon.runeBuf.reader.length + 1 := by
    have := congrArg List.length hm
    simp only [List.length_cons] at this
    omega
  have hsc := scanToken_brace u (m.lemon.runeBuf.reader.length + 1) m rest hm
  have hend := codeLoop_end (m.lemon.runeBuf.reader.length + 1) rest 1
    ((m.skipTo rest m.lemon.lineno).startTok.append '{') rfl hlen
  have herr := codeLoop_errs (m.lemon.runeBuf.reader.length + 1) 1
    ((m.skipTo rest m.lemon.lineno).startTok.append '{')
  refine ⟨?_, ?_, ?_, ?_⟩
  · intro he
    rw [he] at hend
    obtain ⟨q, h1, h2⟩ := hend
    rw [h1] at hsc herr
    have hsc2 : scanToken u (m.lemon.runeBuf.reader.length + 1) m
        = Step.exit ⟨codeNotTerminated, q.incErr.lemon.infile, q.lemon.lineno⟩ q.incErr := hsc
    obtain ⟨a1, a2, a3, a4⟩ := scans_exit hsc2
    have hs := scanToken_scans u (m.lemon.runeBuf.reader.length + 1) m
    rw [hsc2] at hs
    have hin : q.incErr.lemon.infile = m.lemon.infile := hs.2.2.1
    have h3 : q.lemon.lineno = m.lemon.lineno + countNL rest := h2
    rw [hin, h3] at hsc2
    refine ⟨q.incErr, parseFrom_exit u m _ _ hsc2, a1, a2, a3, a4, ?_⟩
    have : q.ps.errorCnt = m.ps.errorCnt := herr
    show q.ps.errorCnt + 1 = _
    rw [this]
  · intro he
    rw [he] at hend
    obtain ⟨d, m1, h1, h2⟩ := hend
    rw [h1] at hsc
    have hsc2 : scanToken u (m.lemon.runeBuf.reader.length + 1) m = Step.exit d m1 := hsc
    exact ⟨d, m1, parseFrom_exit u m _ _ hsc2, h2, scans_exit hsc2⟩
  · intro he
    rw [he] at hend
    obtain ⟨d, m1, h1, h2⟩ := hend
    rw [h1] at hsc
    have hsc2 : scanToken u (m.lemon.runeBuf.reader.length + 1) m = Step.exit d m1 := hsc
    exact ⟨d, m1, parseFrom_exit u m _ _ hsc2, h2, scans_exit hsc2⟩
  · intro hs hu
    have := blockEnd_without_slash rest hs (BlockState.code 1)
    rw [hu] at this
    exact this

/-- C10, amended, on two inputs: for `{ /* c */`, newline, `x 'b` at the start of the input,
with a comment, a newline and an open quoted region in the block, the run ends with the
message that the code is not terminated, at line 2; and so does the run from the start state
with `{` pushed back and ` // c`, newline, `x` in the reader. -/
theorem C10_unterminated_block_is_fatal_witness :
    (startMachine.withBuffer (NewRuneBuffer "\x7b /* c */\nx 'b".data)).lemon.runeBuf.pending
        = '{' :: " /* c */\nx 'b".data
    ∧ (∃ m1, parseFrom asciiTables
          (startMachine.withBuffer (NewRuneBuffer "\x7b /* c */\nx 'b".data))
          = Step.exit ⟨codeNotTerminated, "in.y", 1 + countNL " /* c */\nx 'b".data⟩ m1
        ∧ m1.fed = []
        ∧ m1.ps.symTable = NewParserState.symTable
        ∧ m1.ps.rules = NewParserState.rules
        ∧ m1.ps.curState = NewParserState.curState
        ∧ m1.ps.errorCnt = NewParserState.errorCnt + 1)
    ∧ 1 + countNL " /* c */\nx 'b".data = 2
    ∧ (∃ m1, parseFrom asciiTables (startMachine.withBuffer ⟨" // c\nx".data, some '{'⟩)
          = Step.exit ⟨codeNotTerminated, "in.y", 1 + countNL " // c\nx".data⟩ m1
        ∧ m1.fed = []
        ∧ m1.ps.symTable = NewParserState.symTable
        ∧ m1.ps.rules = NewParserState.rules
        ∧ m1.ps.curState = NewParserState.curState
        ∧ m1.ps.errorCnt = NewParserState.errorCnt + 1) :=
  ⟨by decide,
   (C10_unterminated_block_is_fatal asciiTables
      (startMachine.withBuffer (NewRuneBuffer "\x7b /* c */\nx 'b".data))
      " /* c */\nx 'b".data (by decide)).1 (by decide),
   by decide,
   (C10_unterminated_block_is_fatal asciiTables
      (startMachine.withBuffer ⟨" // c\nx".data, some '{'⟩)
      " // c\nx".data (by decide)).1 (by decide)⟩

/-! ### Symbol definitions in a run -/

theorem mem_of_lookup {l : List (String × SymPtr)} {name : String} {p : SymPtr}
    (h : l.lookup name = some p) : (name, p) ∈ l := by
  induction l with
  | nil => simp [List.lookup] at h
  | cons e l ih =>
    obtain ⟨k, v⟩ := e
    cases hk : (name == k) with
    | true =>
      simp only [List.lookup, hk, Option.some.injEq] at h
      have : name = k := by simpa using hk
      subst this
      subst h
      exact List.mem_cons_self _ _
    | false =>
      simp only [List.lookup, hk] at h
      exact List.mem_cons_of_mem _ (ih h)

theorem tableInv_write {t : SymbolTable} (h : TableInv t) (p : SymPtr) (s : Symbol)
    (hn : s.name = (t.store p).name) (hi : s.index = (t.store p).index) :
    TableInv (t.write p s) := by
  have hname : ∀ q, ((t.write p s).store q).name = (t.store q).name := by
    intro q
    simp only [SymbolTable.write]
    split
    · rename_i hq; rw [hq, hn]
    · rfl
  have hidx : ∀ q, ((t.write p s).store q).index = (t.store q).index := by
    intro q
    simp only [SymbolTable.write]
    split
    · rename_i hq; rw [hq, hi]
    · rfl
  refine { keys := h.keys, names := ?_, alloc := h.alloc, perm := h.perm, sorted := ?_ }
  · intro e he
    rw [hname]
    exact h.names e he
  · intro hf
    obtain ⟨h1, h2⟩ := h.sorted hf
    refine ⟨?_, ?_⟩
    · refine List.Pairwise.imp ?_ h1
      intro a b hab
      rw [hname, hname]
      exact hab
    · intro i hi2
      rw [hidx]
      exact h2 i hi2

theorem insert_name (u : UnicodeTables) {t : SymbolTable} (h : TableInv t) (name : String) :
    ((t.Insert u name).2.store (t.Insert u name).1).name = name :=
  (tableInv_insert u t name h).names _ (mem_of_lookup (get_after_insert u t name))

theorem get_write (t : SymbolTable) (p : SymPtr) (s : Symbol) (name : String) :
    (t.write p s).Get name = t.Get name := rfl

theorem write_store_self (t : SymbolTable) (p : SymPtr) (s : Symbol) :
    (t.write p s).store p = s := by
  simp [SymbolTable.write]

/-- What a call of `defineSymbol` that returns has done, on a table whose entries carry
their names. -/
theorem defineSymbol_spec (u : UnicodeTables) (m : Machine) (name : String)
    (ht : TableInv m.ps.symTable) :
    (defineSymbol u m name).holds
      (fun r =>
        r.2.ps.symTable.Get name = some r.1
        ∧ (r.2.ps.symTable.store r.1).name = name
        ∧ TableInv r.2.ps.symTable
        ∧ (m.ps.prevKeyword.isPrec = true →
            (r.2.ps.symTable.store r.1).symType = SymbolType.Terminal
            ∧ (r.2.ps.symTable.store r.1).precedence = (m.ps.precCounter : Int)
            ∧ (r.2.ps.symTable.store r.1).assoc
                = assocOf m.ps.prevKeyword SymbolAssoc.Unknown
            ∧ r.2.ps.precCounter = m.ps.precCounter + 1)
        ∧ (m.ps.prevKeyword.isPrec = false → r.2.ps.precCounter = m.ps.precCounter))
      (fun _ => True) := by
  have hins := tableInv_insert u m.ps.symTable name ht
  have hget := get_after_insert u m.ps.symTable name
  have hnm := insert_name u ht name
  unfold defineSymbol
  simp only [errorf]
  generalize (m.ps.symTable.Insert u name) = ins at hins hget hnm
  have h1 : TableInv (if m.ps.prevTag ≠ "" then
      ins.2.write ins.1 { ins.2.store ins.1 with datatype := m.ps.prevTag } else ins.2)
    ∧ (if m.ps.prevTag ≠ "" then
      ins.2.write ins.1 { ins.2.store ins.1 with datatype := m.ps.prevTag } else ins.2).Get name
        = some ins.1
    ∧ ((if m.ps.prevTag ≠ "" then
      ins.2.write ins.1 { ins.2.store ins.1 with datatype := m.ps.prevTag }
        else ins.2).store ins.1).name = name := by
    split
    · exact ⟨tableInv_write hins _ _ rfl rfl, hget, by rw [write_store_self]; exact hnm⟩
    · exact ⟨hins, hget, hnm⟩
  generalize (if m.ps.prevTag ≠ "" then
      ins.2.write ins.1 { ins.2.store ins.1 with datatype := m.ps.prevTag } else ins.2) = t1
    at h1
  obtain ⟨i1, i2, i3⟩ := h1
  cases hk : m.ps.prevKeyword <;> simp only [] <;>
    first
    | exact ⟨i2, i3, i1, fun h => by simp [Keyword.isPrec] at h, fun _ => rfl⟩
    | (split
       · trivial
       · refine ⟨i2, ?_, tableInv_write i1 _ _ rfl rfl,
           fun h => by simp [Keyword.isPrec] at h, fun _ => rfl⟩
         simp only [Machine.setTable, write_store_self]
         exact i3)
    | (split
       · trivial
       · refine ⟨i2, ?_, tableInv_write i1 _ _ rfl rfl, fun _ => ?_,
           fun h => by simp [Keyword.isPrec] at h⟩
         · simp only [Machine.setTable, write_store_self]
           exact i3
         · simp [Machine.setTable, write_store_self, assocOf])

theorem setState_same {m : Machine} {st : FsmState} (h : m.ps.curState = st) :
    m.setState st = m := by
  subst h
  rfl

/-- At its two calls of `defineSymbol`, `parseOneToken` is the call on the text of the token,
followed by the change of state. -/
theorem parseOneToken_at_call (u : UnicodeTables) (m : Machine)
    (h : callsDefineSymbol m = true) :
    parseOneToken u m
      = (defineSymbol u m m.token.String).bind fun r =>
          Step.ok (r.2.setState FsmState.WaitSymbolAfterKeyword) := by
  unfold callsDefineSymbol at h
  unfold parseOneToken
  cases ha : m.token.FirstRune with
  | none => simp [ha] at h
  | some a =>
    cases hb : m.token.LastRune with
    | none => simp [ha, hb] at h
    | some b =>
      simp only [ha, hb] at h ⊢
      cases hs : m.ps.curState <;> simp only [hs] at h ⊢ <;>
        first
        | exact absurd h (by decide)
        | skip
      · simp only [Bool.and_eq_true, decide_eq_true_eq] at h
        rw [if_neg h.1, if_neg h.2]
      · simp only [decide_eq_true_eq] at h
        rw [if_neg h]
        cases hd : defineSymbol u m m.token.String with
        | ok r =>
          simp only [Step.bind]
          rw [setState_same ((defineSymbol_ps hd).2.2.1.trans hs)]
        | exit d m1 => rfl
        | panic msg => rfl
        | stall => rfl

theorem onPrevRule_counter {m m1 : Machine} {f : Rule → Rule}
    (h : m.onPrevRule f = Step.ok m1) : m1.ps.precCounter = m.ps.precCounter := by
  unfold Machine.onPrevRule at h
  split at h
  · simp at h
  · split at h
    · simp at h
    · simp only [Step.ok.injEq] at h
      subst h
      rfl

/-- Away from its calls of `defineSymbol`, `parseOneToken` leaves the precedence counter
alone. -/
theorem parseOneToken_counter_kept {u : UnicodeTables} {m m1 : Machine}
    (hc : callsDefineSymbol m = false) (h : parseOneToken u m = Step.ok m1) :
    m1.ps.precCounter = m.ps.precCounter := by
  unfold parseOneToken at h
  unfold callsDefineSymbol at hc
  cases ha : m.token.FirstRune with
  | none => simp [ha] at h
  | some a =>
    cases hb : m.token.LastRune with
    | none => simp [ha, hb] at h
    | some b =>
      simp only [ha, hb] at h hc
      cases hs : m.ps.curState <;> simp only [hs] at h hc
      all_goals
        (repeat' split at h) <;> first
          | (simp [errorf] at h; done)
          | (simp only [Step.ok.injEq] at h; subst h
             simp [Machine.setState, Machine.setTable, Machine.addRule, Machine.appendRule]; done)
          | exact onPrevRule_counter h
          | (simp_all; done)
          | (obtain ⟨x, hx, h1⟩ := bind_ok h
             simp only [Step.ok.injEq] at h1; subst h1
             exact (onPrevRule_counter hx : x.ps.precCounter = m.ps.precCounter))

theorem tableInv_addRule {m : Machine} (h : TableInv m.ps.symTable) (s : SymPtr) (l : Nat) :
    TableInv (m.addRule s l).ps.symTable :=
  tableInv_write h _ _ rfl rfl

theorem defineSymbol_tableInv {u : UnicodeTables} {m : Machine} {n : String}
    {r : SymPtr × Machine} (ht : TableInv m.ps.symTable) (h : defineSymbol u m n = Step.ok r) :
    TableInv r.2.ps.symTable := by
  have := defineSymbol_spec u m n ht
  rw [h] at this
  exact this.2.2.1

theorem tableInv_onPrevRule {m m1 : Machine} {f : Rule → Rule} (ht : TableInv m.ps.symTable)
    (h : m.onPrevRule f = Step.ok m1) : TableInv m1.ps.symTable := by
  obtain ⟨-, -, -, -, -, h6⟩ := onPrevRule_ok h
  rw [h6]
  exact ht

theorem tableInv_bind {α : Type} {s : Step α} {g : α → Machine} {m1 : Machine}
    (h : (s.bind fun r => Step.ok (g r)) = Step.ok m1)
    (hg : ∀ r, s = Step.ok r → TableInv (g r).ps.symTable) : TableInv m1.ps.symTable := by
  obtain ⟨x, hx, h1⟩ := bind_ok h
  simp only [Step.ok.injEq] at h1
  subst h1
  exact hg x hx

theorem tableInv_bind_same {s : Step Machine} {g : Machine → Machine} {m1 : Machine}
    (h : (s.bind fun r => Step.ok (g r)) = Step.ok m1)
    (hs : ∀ r, (g r).ps.symTable = r.ps.symTable)
    (hg : ∀ r, s = Step.ok r → TableInv r.ps.symTable) : TableInv m1.ps.symTable := by
  obtain ⟨x, hx, h1⟩ := bind_ok h
  simp only [Step.ok.injEq] at h1
  subst h1
  rw [hs]
  exact hg x hx

/-- `parseOneToken` keeps the symbol table well formed: every entry carries its name. -/
theorem parseOneToken_tableInv {u : UnicodeTables} {m m1 : Machine}
    (ht : TableInv m.ps.symTable) (h : parseOneToken u m = Step.ok m1) :
    TableInv m1.ps.symTable := by
  unfold parseOneToken at h
  cases ha : m.token.FirstRune with
  | none => simp [ha] at h
  | some a =>
    cases hb : m.token.LastRune with
    | none => simp [ha, hb] at h
    | some b =>
      simp only [ha, hb] at h
      cases hs : m.ps.curState <;> simp only [hs] at h
      all_goals
        (repeat' split at h) <;> first
          | (simp [errorf] at h; done)
          | exact tableInv_onPrevRule ht h
          | exact tableInv_bind h (fun r hr => defineSymbol_tableInv ht hr)
          | exact tableInv_bind_same h (fun _ => rfl) (fun r hr => tableInv_onPrevRule ht hr)
          | (simp only [Step.ok.injEq] at h; subst h
             first
             | exact ht
             | exact tableInv_write ht _ _ rfl rfl
             | exact tableInv_addRule ht _ _
             | exact tableInv_write (tableInv_insert u _ _ ht) _ _ rfl rfl)

theorem counting_inv {u : UnicodeTables} {m : Machine} {k : Nat}
    (h : ReachableCounting u m k) : m.ps.precCounter = k ∧ TableInv m.ps.symTable := by
  induction h with
  | init infile outfile input => exact ⟨rfl, tableInv_new⟩
  | @feed m0 m1 k0 tok line errs rb lineno fed _ hne h ih =>
    have ht : TableInv (m0.present tok line errs rb lineno fed).ps.symTable := ih.2
    refine ⟨?_, parseOneToken_tableInv ht h⟩
    by_cases hc : callsDefineSymbol (m0.present tok line errs rb lineno fed) = true
    · rw [parseOneToken_at_call u _ hc] at h
      obtain ⟨r, hr, h1⟩ := bind_ok h
      simp only [Step.ok.injEq] at h1
      subst h1
      have hsp := defineSymbol_spec u (m0.present tok line errs rb lineno fed)
        (m0.present tok line errs rb lineno fed).token.String ht
      rw [hr] at hsp
      by_cases hp : m0.ps.prevKeyword.isPrec = true
      · rw [if_pos ⟨hc, hp⟩]
        have := (hsp.2.2.2.1 hp).2.2.2
        rw [← ih.1]
        exact this
      · rw [if_neg (fun h => hp h.2)]
        have := hsp.2.2.2.2 (by simpa using hp)
        rw [← ih.1]
        exact this
    · rw [if_neg (fun h => hc h.1)]
      rw [← ih.1]
      have hc2 : callsDefineSymbol (m0.present tok line errs rb lineno fed) = false := by
        cases hv : callsDefineSymbol (m0.present tok line errs rb lineno fed) with
        | true => exact absurd hv hc
        | false => rfl
      exact parseOneToken_counter_kept (m := m0.present tok line errs rb lineno fed) hc2 h

theorem reachable_counting {u : UnicodeTables} {m : Machine} (h : Reachable u m) :
    ∃ k, ReachableCounting u m k := by
  induction h with
  | init infile outfile input => exact ⟨0, ReachableCounting.init _ _ _⟩
  | feed tok line errs rb lineno fed _ hne h ih =>
    obtain ⟨k, hk⟩ := ih
    exact ⟨_, ReachableCounting.feed tok line errs rb lineno fed hk hne h⟩

theorem defineSymbol_get (u : UnicodeTables) (m : Machine) (name : String) :
    (defineSymbol u m name).holds (fun r => r.2.ps.symTable.Get name = some r.1)
      (fun _ => True) := by
  have hget := get_after_insert u m.ps.symTable name
  unfold defineSymbol
  simp only [errorf]
  have h1 : (if m.ps.prevTag ≠ "" then
      (m.ps.symTable.Insert u name).2.write (m.ps.symTable.Insert u name).1
        { (m.ps.symTable.Insert u name).2.store (m.ps.symTable.Insert u name).1 with
          datatype := m.ps.prevTag }
      else (m.ps.symTable.Insert u name).2).Get name = some (m.ps.symTable.Insert u name).1 := by
    split
    · exact hget
    · exact hget
  generalize (if m.ps.prevTag ≠ "" then
      (m.ps.symTable.Insert u name).2.write (m.ps.symTable.Insert u name).1
        { (m.ps.symTable.Insert u name).2.store (m.ps.symTable.Insert u name).1 with
          datatype := m.ps.prevTag }
      else (m.ps.symTable.Insert u name).2) = t1 at h1
  cases m.ps.prevKeyword <;> simp only [] <;>
    first
    | exact h1
    | (split
       · trivial
       · exact h1)

theorem scanToken_counter (u : UnicodeTables) (fuel : Nat) (m : Machine) :
    (scanToken u fuel m).holds (fun r => r.2.ps.precCounter = m.ps.precCounter)
      (fun m1 => m1.ps.precCounter = m.ps.precCounter) := by
  refine holds_mono (scanToken_scans u fuel m) ?_ ?_
  · intro r hr
    obtain ⟨-, -, -, -, ⟨e, l, hps⟩, -⟩ := hr.1
    rw [hps]
  · intro m1 hr
    obtain ⟨-, -, -, -, ⟨e, l, hps⟩, -⟩ := hr
    rw [hps]

/-! ### C7: the precedence counter -/

/-- C7: the counter starts at 0.  Under `%left`, `%right` or `%nonassoc` a definition that
succeeds makes the symbol the table holds for the name a terminal, gives it the current
counter value as precedence and the associativity of the keyword, and raises the counter by
one; a definition that ends in `errorf` leaves the counter as it was.  Under every other
keyword (`%type`, `%token`, `%start`, `%prec`) the counter is unchanged whatever the
outcome.  Nothing else moves the counter: at its two calls of `defineSymbol`, `parseOneToken`
is that call on the text of the token; away from them it leaves the counter alone; and so
does the tokenizer.  Hence in every run the counter is the number `k` of definitions under the
three keywords that have succeeded so far, whichever of the three they were made under, and
the next such definition gives the symbol named by the token precedence `k`, makes it a
terminal with the associativity of its keyword, and leaves the counter at `k + 1`.
`%left A B` followed by `%right C` gives `A`, `B`, `C` the precedences 0, 1, 2. -/
theorem C7_precedence_counter (u : UnicodeTables) (m : Machine) (name : String) :
    NewParserState.precCounter = 0
    ∧ (m.ps.prevKeyword.isPrec = true →
        (defineSymbol u m name).holds
          (fun r =>
            r.2.ps.symTable.Get name = some r.1
            ∧ (r.2.ps.symTable.store r.1).symType = SymbolType.Terminal
            ∧ (r.2.ps.symTable.store r.1).precedence = (m.ps.precCounter : Int)
            ∧ (r.2.ps.symTable.store r.1).assoc = assocOf m.ps.prevKeyword SymbolAssoc.Unknown
            ∧ r.2.ps.precCounter = m.ps.precCounter + 1)
          (fun m1 => m1.ps.precCounter = m.ps.precCounter))
    ∧ (m.ps.prevKeyword.isPrec = false →
        (defineSymbol u m name).holds (fun r => r.2.ps.precCounter = m.ps.precCounter)
          (fun m1 => m1.ps.precCounter = m.ps.precCounter))
    ∧ ((defineSymbol u m name).returned = true ∨ exited (defineSymbol u m name) = true)
    ∧ (assocOf Keyword.KwLeft SymbolAssoc.Unknown = SymbolAssoc.Left
        ∧ assocOf Keyword.KwRight SymbolAssoc.Unknown = SymbolAssoc.Right
        ∧ assocOf Keyword.KwNonassoc SymbolAssoc.Unknown = SymbolAssoc.None)
    ∧ (callsDefineSymbol m = true →
        parseOneToken u m
          = (defineSymbol u m m.token.String).bind fun r =>
              Step.ok (r.2.setState FsmState.WaitSymbolAfterKeyword))
    ∧ (∀ m1, callsDefineSymbol m = false → parseOneToken u m = Step.ok m1 →
        m1.ps.precCounter = m.ps.precCounter)
    ∧ (∀ fuel, (scanToken u fuel m).holds (fun r => r.2.ps.precCounter = m.ps.precCounter)
        (fun m1 => m1.ps.precCounter = m.ps.precCounter))
    ∧ (∀ (m0 : Machine) (k : Nat), ReachableCounting u m0 k →
        m0.ps.precCounter = k
        ∧ ∀ (tok : Token) (line errs : Nat) (rb : RuneBuffer) (lineno : Nat)
            (fed : List String) (m1 : Machine), tok.buffer ≠ [] →
            callsDefineSymbol (m0.present tok line errs rb lineno fed) = true →
            m0.ps.prevKeyword.isPrec = true →
            parseOneToken u (m0.present tok line errs rb lineno fed) = Step.ok m1 →
            ∃ p, m1.ps.symTable.Get tok.String = some p
              ∧ (m1.ps.symTable.store p).name = tok.String
              ∧ (m1.ps.symTable.store p).symType = SymbolType.Terminal
              ∧ (m1.ps.symTable.store p).precedence = (k : Int)
              ∧ (m1.ps.symTable.store p).assoc
                  = assocOf m0.ps.prevKeyword SymbolAssoc.Unknown
              ∧ m1.ps.precCounter = k + 1
              ∧ ReachableCounting u m1 (k + 1))
    ∧ (∀ m0 : Machine, Reachable u m0 → ∃ k, ReachableCounting u m0 k)
    ∧ ((symbolOf (parseText "%{ %} %left A B %right C %%") "A").map
          (fun s => (s.precedence, s.assoc, s.symType))
          = some (0, SymbolAssoc.Left, SymbolType.Terminal)
        ∧ (symbolOf (parseText "%{ %} %left A B %right C %%") "B").map
          (fun s => (s.precedence, s.assoc, s.symType))
          = some (1, SymbolAssoc.Left, SymbolType.Terminal)
        ∧ (symbolOf (parseText "%{ %} %left A B %right C %%") "C").map
          (fun s => (s.precedence, s.assoc, s.symType))
          = some (2, SymbolAssoc.Right, SymbolType.Terminal)) := by
  refine ⟨rfl, ?_, ?_, ?_, ⟨rfl, rfl, rfl⟩, parseOneToken_at_call u m,
    fun m1 hc h => parseOneToken_counter_kept hc h, fun fuel => scanToken_counter u fuel m,
    ?_, fun m0 h => reachable_counting h, by decide!⟩
  · intro hk
    have hg := defineSymbol_get u m name
    revert hg
    unfold defineSymbol
    simp only [errorf]
    cases hkw : m.ps.prevKeyword <;> simp [hkw, Keyword.isPrec] at hk <;> simp only [] <;>
      split <;>
      simp [Step.holds, Machine.setTable, SymbolTable.write, assocOf]
  · intro hk
    unfold defineSymbol
    simp only [errorf]
    cases hkw : m.ps.prevKeyword <;> simp [hkw, Keyword.isPrec] at hk <;> simp only [] <;>
      (try split) <;>
      simp [Step.holds, Machine.setTable, SymbolTable.write]
  · unfold defineSymbol
    simp only [errorf]
    split <;> (try split) <;> simp [Step.returned, exited]
  · intro m0 k hm
    obtain ⟨hk, ht⟩ := counting_inv hm
    refine ⟨hk, ?_⟩
    intro tok line errs rb lineno fed m1 hne hc hp h
    have hreach := ReachableCounting.feed tok line errs rb lineno fed hm hne h
    rw [if_pos ⟨hc, hp⟩] at hreach
    rw [parseOneToken_at_call u _ hc] at h
    obtain ⟨r, hr, h1⟩ := bind_ok h
    simp only [Step.ok.injEq] at h1
    subst h1
    have hsp := defineSymbol_spec u (m0.present tok line errs rb lineno fed)
      (m0.present tok line errs rb lineno fed).token.String ht
    rw [hr] at hsp
    obtain ⟨a1, a2, -, a4, -⟩ := hsp
    obtain ⟨b1, b2, b3, b4⟩ := a4 hp
    refine ⟨r.1, a1, a2, b1, ?_, b3, ?_, hreach⟩
    · rw [← hk]; exact b2
    · rw [← hk]; exact b4

/-- C7 for the definition of `A` under `%left` with the counter at 3. -/
theorem C7_precedence_counter_witness :
    (machineUnder Keyword.KwLeft 3).ps.prevKeyword.isPrec = true
    ∧ (defineSymbol asciiTables (machineUnder Keyword.KwLeft 3) "A").holds
        (fun r =>
          r.2.ps.symTable.Get "A" = some r.1
          ∧ (r.2.ps.symTable.store r.1).symType = SymbolType.Terminal
          ∧ (r.2.ps.symTable.store r.1).precedence
              = ((machineUnder Keyword.KwLeft 3).ps.precCounter : Int)
          ∧ (r.2.ps.symTable.store r.1).assoc
              = assocOf (machineUnder Keyword.KwLeft 3).ps.prevKeyword SymbolAssoc.Unknown
          ∧ r.2.ps.precCounter = (machineUnder Keyword.KwLeft 3).ps.precCounter + 1)
        (fun m1 => m1.ps.precCounter = (machineUnder Keyword.KwLeft 3).ps.precCounter)
    ∧ (defineSymbol asciiTables (machineUnder Keyword.KwLeft 3) "A").returned = true :=
  ⟨rfl, (C7_precedence_counter asciiTables (machineUnder Keyword.KwLeft 3) "A").2.1 rfl,
    by decide!⟩

end Golemon
